import Mathlib

/-!
Verification of the py-ubjson C extension (UBJSON Draft-12 codec).

The definitions below are a shallow embedding of the C sources in `src/`:
`markers.h` (marker vocabulary), `encoder.c` (recursive emitter),
`decoder.c` (recursive consumer; here over the fixed-buffer read strategy
`_decoder_buffer_read_fixed`, the strategy used by `loadb`) and the entry
points of `_ubjson.c`.  Machine integers are modelled as `Int`/`Nat` with
explicit truncation where the C code truncates; byte streams are
`List Nat` with every element a byte value; fallible operations return
`Option`/`Except`.  Python floats are IEEE-754 binary64 values, modelled
by their 64-bit pattern.  The recursion guard (`Py_EnterRecursiveCall`)
and the decoder's loop progress are modelled by a fuel parameter.
-/

namespace Ubjson

/-! ## Marker vocabulary (src/markers.h) -/

def TYPE_NONE : Nat := 0x00
def TYPE_NULL : Nat := 0x5A      -- Z
def TYPE_NOOP : Nat := 0x4E      -- N
def TYPE_BOOL_TRUE : Nat := 0x54 -- T
def TYPE_BOOL_FALSE : Nat := 0x46 -- F
def TYPE_INT8 : Nat := 0x69      -- i
def TYPE_UINT8 : Nat := 0x55     -- U
def TYPE_INT16 : Nat := 0x49     -- I
def TYPE_INT32 : Nat := 0x6C     -- l
def TYPE_INT64 : Nat := 0x4C     -- L
def TYPE_FLOAT32 : Nat := 0x64   -- d
def TYPE_FLOAT64 : Nat := 0x44   -- D
def TYPE_HIGH_PREC : Nat := 0x48 -- H
def TYPE_CHAR : Nat := 0x43      -- C
def TYPE_STRING : Nat := 0x53    -- S
def OBJECT_START : Nat := 0x7B   -- left brace
def OBJECT_END : Nat := 0x7D     -- right brace
def ARRAY_START : Nat := 0x5B    -- [
def ARRAY_END : Nat := 0x5D      -- ]
def CONTAINER_TYPE : Nat := 0x24 -- dollar
def CONTAINER_COUNT : Nat := 0x23 -- hash

/-! ## Byte-level helpers

`leBytes w n` models the byte-extraction loop `WRITE_INT_INTO_NUMTMP` of
`encoder.c` (`numtmp[--i] = (char)num; num >>= 8;`): it produces the `w`
low-order bytes of the two's-complement representation of `n`,
least-significant first (the C loop stores them back to front, which is
the `.reverse` at the use sites).  `(char)num` is `num % 256` and the
arithmetic right shift of the signed `long long` is floor division. -/

def leBytes : Nat → Int → List Nat
  | 0, _ => []
  | w + 1, n => (n % 256).toNat :: leBytes w (n / 256)

/-- Big-endian base-256 digits of a natural number, fixed width (most
significant first).  This is the specification-side description of a
"big-endian two's-complement payload". -/
def beBytesN : Nat → Nat → List Nat
  | 0, _ => []
  | w + 1, m => beBytesN w (m / 256) ++ [m % 256]

/-- The value of a big-endian byte string (the decoder's accumulation loop
`value = (value << 8) | *raw++` in `_decode_int16_32` / `_decode_int64`). -/
def beVal (bs : List Nat) : Nat := bs.foldl (fun a b => a * 256 + b) 0

/-! ## Minimal integer encoding (`_encode_longlong` in src/encoder.c) -/

/-- `_encode_longlong`: emit the marker and payload for a signed 64-bit
integer, choosing the narrowest width by the source's branch chain. -/
def encInt (num : Int) : List Nat :=
  if 0 ≤ num then
    if num < 2 ^ 8 then [TYPE_UINT8, num.toNat]
    else if num < 2 ^ 15 then TYPE_INT16 :: (leBytes 2 num).reverse
    else if num < 2 ^ 31 then TYPE_INT32 :: (leBytes 4 num).reverse
    else TYPE_INT64 :: (leBytes 8 num).reverse
  else if -2 ^ 7 ≤ num then [TYPE_INT8, (num % 256).toNat]
  else if -2 ^ 15 ≤ num then TYPE_INT16 :: (leBytes 2 num).reverse
  else if -2 ^ 31 ≤ num then TYPE_INT32 :: (leBytes 4 num).reverse
  else TYPE_INT64 :: (leBytes 8 num).reverse

/-- Specification-side description (follows the claim's words): the
narrowest marker in `U i I l L` whose two's-complement range contains `n`,
together with its payload width in bytes. -/
def specIntWidth (n : Int) : Nat × Nat :=
  if 0 ≤ n ∧ n < 2 ^ 8 then (TYPE_UINT8, 1)
  else if -2 ^ 7 ≤ n ∧ n < 0 then (TYPE_INT8, 1)
  else if -2 ^ 15 ≤ n ∧ n < 2 ^ 15 then (TYPE_INT16, 2)
  else if -2 ^ 31 ≤ n ∧ n < 2 ^ 31 then (TYPE_INT32, 4)
  else (TYPE_INT64, 8)

/-! ## ASCII / UTF-8 helpers -/

def strBytes (s : String) : List Nat := s.data.map Char.toNat

/-- UTF-8 validity of a byte string (`PyUnicode_FromStringAndSize` fails
on invalid UTF-8). -/
def utf8Cont (x : Nat) : Bool := decide (0x80 ≤ x ∧ x < 0xC0)

def utf8Lo2 (c c1 : Nat) : Bool :=
  utf8Cont c1 && (decide (c ≠ 0xE0) || decide (0xA0 ≤ c1)) &&
    (decide (c ≠ 0xED) || decide (c1 < 0xA0))

def utf8Lo3 (c c1 : Nat) : Bool :=
  utf8Cont c1 && (decide (c ≠ 0xF0) || decide (0x90 ≤ c1)) &&
    (decide (c ≠ 0xF4) || decide (c1 < 0x90))

mutual

def utf8Valid : List Nat → Bool
  | [] => true
  | c :: r =>
    if c < 0x80 then utf8Valid r
    else if c < 0xC2 then false
    else if c < 0xE0 then utf8Tail1 r
    else if c < 0xF0 then utf8Tail2 c r
    else if c < 0xF5 then utf8Tail3 c r
    else false
  termination_by structural l => l

/-- Continuation byte then the rest (2-byte sequences). -/
def utf8Tail1 : List Nat → Bool
  | c1 :: r2 => utf8Cont c1 && utf8Valid r2
  | [] => false
  termination_by structural l => l

/-- Two continuation bytes then the rest (3-byte sequences). -/
def utf8Tail2 (c : Nat) : List Nat → Bool
  | c1 :: c2 :: r2 => utf8Lo2 c c1 && utf8Cont c2 && utf8Valid r2
  | _ => false
  termination_by structural l => l

/-- Three continuation bytes then the rest (4-byte sequences). -/
def utf8Tail3 (c : Nat) : List Nat → Bool
  | c1 :: c2 :: c3 :: r2 =>
    utf8Lo3 c c1 && utf8Cont c2 && utf8Cont c3 && utf8Valid r2
  | _ => false
  termination_by structural l => l

end

/-! ## Decimal strings

High-precision decimal arithmetic is delegated by the C sources to
Python's `decimal.Decimal` class (spec §1 lists it as an external
collaborator providing parse, stringify, and finiteness predicates).  A
decimal value is modelled by its canonical UTF-8 string, so stringify and
parse are the identity on it. -/

/-- Digit characters of `n`, least significant first; the first (fuel)
argument is only a structural bound, one digit is produced per step. -/
def digitsRevAux : Nat → Nat → List Nat
  | 0, _ => []
  | _ + 1, 0 => []
  | fuel + 1, n => (0x30 + n % 10) :: digitsRevAux fuel (n / 10)

/-- Decimal digit string of a natural number (ASCII, most significant
first). -/
def natDigits (n : Nat) : List Nat :=
  if n = 0 then [0x30] else (digitsRevAux n n).reverse

/-- Modelled from the spec: the external decimal library's finiteness
predicate (`is_finite`); a non-finite decimal renders canonically as one
of the strings below. -/
def decIsFinite (s : List Nat) : Bool :=
  decide (s ≠ strBytes "Infinity") && decide (s ≠ strBytes "-Infinity") &&
  decide (s ≠ strBytes "NaN") && decide (s ≠ strBytes "-NaN") &&
  decide (s ≠ strBytes "sNaN") && decide (s ≠ strBytes "-sNaN")

/-- Modelled from the spec: the canonical decimal string of an integer
(`Decimal(int)` stringifies as its plain digit string). -/
def decOfInt (n : Int) : List Nat :=
  (if n < 0 then [0x2D] else []) ++ natDigits n.natAbs

/-- Modelled from the spec: the to-scientific-string rendering rule of the
external decimal library (coefficient digits, sign and base-10 exponent). -/
def decSci (sign : Nat) (digits : List Nat) (exp10 : Int) : List Nat :=
  let n : Int := digits.length
  let adj : Int := exp10 + n - 1
  (if sign = 1 then [0x2D] else []) ++
  (if exp10 ≤ 0 ∧ -6 ≤ adj then
    (if exp10 = 0 then digits
     else if 0 ≤ adj then
       digits.take (adj.toNat + 1) ++ [0x2E] ++ digits.drop (adj.toNat + 1)
     else [0x30, 0x2E] ++ List.replicate (-(adj + 1)).toNat 0x30 ++ digits)
   else
    (match digits with
     | [d] => [d]
     | d :: rest => d :: 0x2E :: rest
     | [] => [0x30]) ++
    [0x45] ++ (if adj < 0 then [0x2D] else [0x2B]) ++ natDigits adj.natAbs)

/-! ## IEEE-754 binary64 bit-level helpers

The pack/unpack helpers are declared in `src/python_funcs.h` but their
implementation file is not part of `src/`, so they are modelled from the
spec (§4.2: platform-independent IEEE-754 single/double pack and unpack
over big-endian byte strings; pack returns an error on overflow when
converting to single precision). -/

def fSign (b : Nat) : Nat := b / 2 ^ 63
def fExp (b : Nat) : Nat := b / 2 ^ 52 % 2 ^ 11
def fFrac (b : Nat) : Nat := b % 2 ^ 52

/-- Significand including the hidden bit: the value of a finite pattern
`b` is `(-1)^(fSign b) * fSig b * 2^(fPexp b - 1075)` exactly. -/
def fSig (b : Nat) : Nat := if fExp b = 0 then fFrac b else fFrac b + 2 ^ 52

def fPexp (b : Nat) : Nat := max (fExp b) 1

/-- `fpclassify` cases used by `_encode_PyFloat`. -/
def fIsNanInf (b : Nat) : Bool := decide (fExp b = 2047)
def fIsZero (b : Nat) : Bool := decide (fExp b = 0 ∧ fFrac b = 0)
def fIsSubnormal (b : Nat) : Bool := decide (fExp b = 0 ∧ fFrac b ≠ 0)

/-- Exact comparison `|value a| ≤ |value b|` of two finite binary64 bit
patterns (the C `<=` comparison of `fabs(num)` against a constant). -/
def fAbsLe (a b : Nat) : Bool :=
  if fPexp a ≤ fPexp b then decide (fSig a ≤ fSig b * 2 ^ (fPexp b - fPexp a))
  else decide (fSig a * 2 ^ (fPexp a - fPexp b) ≤ fSig b)

/-- Bit pattern of the C double literal `1.18e-38` in `_encode_PyFloat`. -/
def lit118e38 : Nat := 0x38100FB32C6204C4

/-- Bit pattern of the C double literal `3.4e38` in `_encode_PyFloat`. -/
def lit34e38 : Nat := 0x47EFF933C78CDFAD

/-- Round `s / d` to the nearest integer, ties to even (`d > 0`). -/
def rne (s d : Nat) : Nat :=
  let q := s / d
  let r := s % d
  if (decide (2 * r > d) || (decide (2 * r = d) && decide (q % 2 = 1))) = true
  then q + 1 else q

/-- Modelled from the spec: conversion of a binary64 pattern to the
nearest binary32 pattern (round to nearest, ties to even; overflow gives
the infinity pattern). -/
def f64toF32 (b : Nat) : Nat :=
  let s := fSign b
  if fExp b = 2047 then
    s * 2 ^ 31 + 255 * 2 ^ 23 + (if fFrac b = 0 then 0 else 2 ^ 22)
  else if fSig b = 0 then s * 2 ^ 31
  else
    let sig := fSig b
    let pe := fPexp b
    let L := Nat.log 2 sig
    if pe + L < 949 then
      -- below the binary32 normal range: round at granularity 2^-149
      let m := if 926 ≤ pe then sig * 2 ^ (pe - 926) else rne sig (2 ^ (926 - pe))
      s * 2 ^ 31 + m
    else
      let m := if L ≤ 23 then sig * 2 ^ (23 - L) else rne sig (2 ^ (L - 23))
      let e32 := if m = 2 ^ 24 then pe + L - 948 + 1 else pe + L - 948
      let m32 := if m = 2 ^ 24 then 2 ^ 23 else m
      if 255 ≤ e32 then s * 2 ^ 31 + 255 * 2 ^ 23
      else s * 2 ^ 31 + e32 * 2 ^ 23 + (m32 - 2 ^ 23)

/-- Modelled from the spec: widening a binary32 pattern to binary64
(exact). -/
def f32toF64 (r : Nat) : Nat :=
  let s := r / 2 ^ 31
  let e := r / 2 ^ 23 % 2 ^ 8
  let f := r % 2 ^ 23
  if e = 255 then s * 2 ^ 63 + 2047 * 2 ^ 52 + f * 2 ^ 29
  else if e = 0 ∧ f = 0 then s * 2 ^ 63
  else if e = 0 then
    -- subnormal binary32, normalises in binary64
    let L := Nat.log 2 f
    s * 2 ^ 63 + (L + 875) * 2 ^ 52 + (f * 2 ^ (52 - L) - 2 ^ 52)
  else s * 2 ^ 63 + (e + 896) * 2 ^ 52 + f * 2 ^ 29

/-- Modelled from the spec: `_pyfuncs_ubj_PyFloat_Pack4` big-endian; fails
(`OverflowError`) when a finite double overflows single precision. -/
def pack4 (b : Nat) : Option (List Nat) :=
  let r := f64toF32 b
  if r / 2 ^ 23 % 2 ^ 8 = 255 ∧ fExp b ≠ 2047 then none
  else some (beBytesN 4 r)

/-- Modelled from the spec: `_pyfuncs_ubj_PyFloat_Pack8` big-endian (a bit
copy on IEEE platforms). -/
def pack8 (b : Nat) : List Nat := beBytesN 8 b

/-- Modelled from the spec: `_pyfuncs_ubj_PyFloat_Unpack4` big-endian,
widened to the Python float (binary64). -/
def unpack4 (bs : List Nat) : Nat := f32toF64 (beVal bs)

/-- Modelled from the spec: `_pyfuncs_ubj_PyFloat_Unpack8` big-endian. -/
def unpack8 (bs : List Nat) : Nat := beVal bs

/-- Number of factors 2 in `n` (first argument is structural fuel). -/
def twosValAux : Nat → Nat → Nat
  | 0, _ => 0
  | fuel + 1, n => if n % 2 = 0 ∧ n ≠ 0 then twosValAux fuel (n / 2) + 1 else 0

def twosVal (n : Nat) : Nat := twosValAux n n

/-- Modelled from the spec: the canonical decimal string of the exact
value of a finite binary64 (the composition `Decimal(float)` then `str`):
the coefficient is `odd * 5^k` with exponent `-k` after removing the
trailing zero bits of the significand, rendered by the
to-scientific-string rule. -/
def decOfFloat (b : Nat) : List Nat :=
  if fSig b = 0 then (if fSign b = 1 then [0x2D, 0x30] else [0x30])
  else
    let z := twosVal (fSig b)
    let sig := fSig b / 2 ^ z
    let e2 : Int := (fPexp b : Int) - 1075 + z
    if 0 ≤ e2 then decSci (fSign b) (natDigits (sig * 2 ^ e2.toNat)) 0
    else decSci (fSign b) (natDigits (sig * 5 ^ (-e2).toNat)) e2

/-! ## The value model

Python values handled by `_ubjson_encode_value` / `_ubjson_decode_value`:
`None`, booleans, `int` (`vint`), `float` (`vfloat`, by its binary64 bit
pattern), `decimal.Decimal` (`vhigh`, by its canonical string),
`str` (`vstr`, by its UTF-8 bytes), `bytes`/`bytearray` (`vbytes`),
sequences (`varr`) and mappings (`vobj`, ordered string-keyed pairs with
Python `dict` semantics).  A mutual inductive family is used so that all
functions are structurally recursive (and hence evaluate by reduction). -/

mutual

inductive Value where
  | vnull
  | vtrue
  | vfalse
  | vint (n : Int)
  | vfloat (b : Nat)
  | vhigh (s : List Nat)
  | vstr (s : List Nat)
  | vbytes (b : List Nat)
  | varr (l : VList)
  | vobj (l : KVList)
deriving DecidableEq

inductive VList where
  | nil
  | cons (v : Value) (tl : VList)
deriving DecidableEq

inductive KVList where
  | nil
  | cons (k : List Nat) (v : Value) (tl : KVList)
deriving DecidableEq

end

def VList.length : VList → Nat
  | .nil => 0
  | .cons _ tl => tl.length + 1

def VList.snoc : VList → Value → VList
  | .nil, v => .cons v .nil
  | .cons w tl, v => .cons w (tl.snoc v)

def VList.append : VList → VList → VList
  | .nil, l => l
  | .cons v tl, l => .cons v (tl.append l)

def VList.replicate : Nat → Value → VList
  | 0, _ => .nil
  | n + 1, v => .cons v (VList.replicate n v)

def KVList.length : KVList → Nat
  | .nil => 0
  | .cons _ _ tl => tl.length + 1

def KVList.snoc : KVList → List Nat → Value → KVList
  | .nil, k, v => .cons k v .nil
  | .cons k' v' tl, k, v => .cons k' v' (tl.snoc k v)

/-- Whether the association list has the key (for `dict` semantics). -/
def KVList.hasKey : KVList → List Nat → Bool
  | .nil, _ => false
  | .cons k' _ tl, k => decide (k' = k) || tl.hasKey k

/-- `PyDict_SetItem` on an insertion-ordered dictionary: replace in place
on an existing key, append otherwise. -/
def dictInsert : KVList → List Nat → Value → KVList
  | .nil, k, v => .cons k v .nil
  | .cons k' v' tl, k, v =>
    if k' = k then .cons k' v tl else .cons k' v' (dictInsert tl k v)

/-- The list of byte values as individual small integers (what a counted
`U`-typed array decodes to when `no_bytes` is set). -/
def vlOfBytes : List Nat → VList
  | [] => .nil
  | b :: tl => .cons (.vint (b : Int)) (vlOfBytes tl)

/-! ## The encoder (src/encoder.c)

The encoder buffer (with no `fp_write` sink) always succeeds in the
model; its final content is the concatenation of all written chunks, so
writing is modelled by list concatenation.  The only encoding failure
reachable from the `Value` domain is the single-precision pack overflow,
hence the `Option` result.  (The circular-reference check of the C code
is identity-based and can never fire on a tree value; it is modelled
separately by the graph encoder `encodeG` below.) -/

structure EPrefs where
  container_count : Bool
  sort_keys : Bool
  no_float32 : Bool
deriving DecidableEq

/-- Defaults of `_ubjson_encoder_prefs_defaults` in `_ubjson.c`
(`container_count = 0`, `sort_keys = 0`, `no_float32 = 1`). -/
def defaultEPrefs : EPrefs := ⟨false, false, true⟩

/-- `_encode_PyDecimal`: finite decimals are emitted as `H`, length, UTF-8
string; non-finite decimals are emitted as null (`Z`). -/
def encDecimal (s : List Nat) : List Nat :=
  if decIsFinite s then TYPE_HIGH_PREC :: encInt (s.length : Int) ++ s
  else [TYPE_NULL]

/-- `_encode_PyLong`: 64-bit integers via `_encode_longlong`; on overflow
the value is routed through the decimal path
(`_encode_PyObject_as_PyDecimal`). -/
def encIntPy (n : Int) : List Nat :=
  if -2 ^ 63 ≤ n ∧ n < 2 ^ 63 then encInt n else encDecimal (decOfInt n)

/-- `_encode_PyUnicode`: one-byte strings as `C` + byte, otherwise `S`,
length, bytes. -/
def encStr (s : List Nat) : List Nat :=
  if s.length = 1 then TYPE_CHAR :: s
  else TYPE_STRING :: encInt (s.length : Int) ++ s

/-- `_encode_PyBytes` / `_encode_PyByteArray`: the fixed prefix
`[ $ U #`, the length, then the raw bytes and no closing `]`. -/
def encBytesVal (bs : List Nat) : List Nat :=
  [ARRAY_START, CONTAINER_TYPE, TYPE_UINT8, CONTAINER_COUNT] ++
    encInt (bs.length : Int) ++ bs

/-- `_encode_PyFloat`: `fpclassify` dispatch, then the single-precision
range check against the literals `1.18e-38` and `3.4e38`. -/
def encFloat (p : EPrefs) (b : Nat) : Option (List Nat) :=
  if fIsNanInf b then some [TYPE_NULL]
  else if fIsZero b then (pack4 b).map (fun bs => TYPE_FLOAT32 :: bs)
  else if fIsSubnormal b then some (encDecimal (decOfFloat b))
  else if ¬ p.no_float32 ∧ fAbsLe lit118e38 b ∧ fAbsLe b lit34e38 then
    (pack4 b).map (fun bs => TYPE_FLOAT32 :: bs)
  else some (TYPE_FLOAT64 :: pack8 b)

/-- Byte-wise lexicographic order (Python string comparison on the UTF-8
bytes; UTF-8 byte order agrees with code-point order). -/
def lexLtB : List Nat → List Nat → Bool
  | [], [] => false
  | [], _ :: _ => true
  | _ :: _, [] => false
  | a :: as_, b :: bs => if a < b then true else if b < a then false else lexLtB as_ bs

def kvInsertSorted (k : List Nat) (v : Value) : KVList → KVList
  | .nil => .cons k v .nil
  | .cons k' v' tl =>
    if lexLtB k k' then .cons k v (.cons k' v' tl)
    else .cons k' v' (kvInsertSorted k v tl)

/-- `PyList_Sort` on the items list when `sort_keys` is set (keys are
unique in a mapping, so tuple comparison reduces to key comparison). -/
def kvSort : KVList → KVList
  | .nil => .nil
  | .cons k v tl => kvInsertSorted k v (kvSort tl)

mutual

/-- `_ubjson_encode_value`: type dispatch of the recursive emitter.  The
fuel parameter models the host recursion limit
(`RECURSE_AND_BAIL_ON_NONZERO` / `Py_EnterRecursiveCall`); `none` is
either fuel exhaustion or a pack overflow. -/
def encValue (p : EPrefs) : Nat → Value → Option (List Nat)
  | 0, _ => none
  | _ + 1, .vnull => some [TYPE_NULL]
  | _ + 1, .vtrue => some [TYPE_BOOL_TRUE]
  | _ + 1, .vfalse => some [TYPE_BOOL_FALSE]
  | _ + 1, .vint n => some (encIntPy n)
  | _ + 1, .vfloat b => encFloat p b
  | _ + 1, .vhigh s => some (encDecimal s)
  | _ + 1, .vstr s => some (encStr s)
  | _ + 1, .vbytes bs => some (encBytesVal bs)
  | fuel + 1, .varr l =>
    match encVList p fuel l with
    | none => none
    | some body =>
      some (ARRAY_START ::
        (if p.container_count then
          CONTAINER_COUNT :: encInt (l.length : Int) ++ body
         else body ++ [ARRAY_END]))
  | fuel + 1, .vobj l =>
    let items := if p.sort_keys then kvSort l else l
    match encKVList p fuel items with
    | none => none
    | some body =>
      some (OBJECT_START ::
        (if p.container_count then
          CONTAINER_COUNT :: encInt (items.length : Int) ++ body
         else body ++ [OBJECT_END]))
  termination_by structural fuel _ => fuel

/-- The element loop of `_encode_PySequence`. -/
def encVList (p : EPrefs) : Nat → VList → Option (List Nat)
  | 0, _ => none
  | _ + 1, .nil => some []
  | fuel + 1, .cons v tl =>
    match encValue p fuel v, encVList p fuel tl with
    | some bs, some rest => some (bs ++ rest)
    | _, _ => none
  termination_by structural fuel _ => fuel

/-- The item loop of `_encode_PyMapping`: each item is the key length,
the raw key bytes (no type marker, via `_encode_mapping_key`), then the
encoded value. -/
def encKVList (p : EPrefs) : Nat → KVList → Option (List Nat)
  | 0, _ => none
  | _ + 1, .nil => some []
  | fuel + 1, .cons k v tl =>
    match encValue p fuel v, encKVList p fuel tl with
    | some bs, some rest => some (encInt (k.length : Int) ++ k ++ bs ++ rest)
    | _, _ => none
  termination_by structural fuel _ => fuel

end

mutual

/-- Fuel sufficient to encode a value (one unit per node and list step). -/
def efuel : Value → Nat
  | .varr l => efuelVL l + 1
  | .vobj l => efuelKV l + 1
  | _ => 1
  termination_by structural v => v

def efuelVL : VList → Nat
  | .nil => 1
  | .cons v tl => efuel v + efuelVL tl + 1
  termination_by structural l => l

def efuelKV : KVList → Nat
  | .nil => 1
  | .cons _ v tl => efuel v + efuelKV tl + 1
  termination_by structural l => l

end

/-- The encoder at its canonical fuel (`dumpb` with the given prefs). -/
def encB (p : EPrefs) (v : Value) : Option (List Nat) :=
  encValue p (efuel v) v

/-! ## The decoder (src/decoder.c), fixed-buffer strategy -/

structure DPrefs where
  /-- decode `[$U#<n>…]` as a list of integers instead of bytes -/
  no_bytes : Bool
deriving DecidableEq

/-- Defaults of `_ubjson_decoder_prefs_defaults` in `_ubjson.c`
(`no_bytes = 0`; the object hooks default to absent and are not modelled,
`intern_object_keys` is the identity on modelled keys). -/
def defaultDPrefs : DPrefs := ⟨false⟩

/-- Decoder state: the remaining input and the cumulative `total_read`. -/
structure DSt where
  data : List Nat
  total : Nat
deriving DecidableEq

/-- A decoder error: the message and the `total_read` position carried by
`RAISE_DECODER_EXCEPTION`. -/
structure DErr where
  msg : String
  pos : Nat
deriving DecidableEq

def DRes (α : Type) := Except DErr (α × DSt)

instance {α : Type} [DecidableEq α] : DecidableEq (DRes α) := fun a b =>
  match a, b with
  | Except.error e, Except.error e' =>
    if h : e = e' then Decidable.isTrue (by rw [h])
    else Decidable.isFalse (by intro hh; cases hh; exact h rfl)
  | Except.ok x, Except.ok x' =>
    if h : x = x' then Decidable.isTrue (by rw [h])
    else Decidable.isFalse (by intro hh; cases hh; exact h rfl)
  | Except.error _, Except.ok _ => Decidable.isFalse (by intro hh; cases hh)
  | Except.ok _, Except.error _ => Decidable.isFalse (by intro hh; cases hh)

/-- `_decoder_buffer_read_fixed` combined with the `READ_*` macros and
`ACTION_READ_ERROR`: reading `0` bytes yields nothing; reading from an
exhausted buffer raises "Insufficient input" at the old position; a short
read delivers what is available (advancing `total_read`) and raises
"Insufficient (partial) input" at the advanced position. -/
def readB (item : String) (n : Nat) (s : DSt) : DRes (List Nat) :=
  if n = 0 then .ok ([], s)
  else if s.data.isEmpty then
    .error ⟨"Insufficient input (" ++ item ++ ")", s.total⟩
  else if n ≤ s.data.length then
    .ok (s.data.take n, ⟨s.data.drop n, s.total + n⟩)
  else .error ⟨"Insufficient (partial) input (" ++ item ++ ")",
    s.total + s.data.length⟩

/-- `READ_CHAR_OR_BAIL`. -/
def read1 (item : String) (s : DSt) : DRes Nat :=
  match s.data with
  | [] => .error ⟨"Insufficient input (" ++ item ++ ")", s.total⟩
  | b :: rest => .ok (b, ⟨rest, s.total + 1⟩)

/-- Two's-complement reading of a `w`-byte big-endian value (the explicit
sign-extension `value |= -(value & (1 << (8*size-1)))` of the C code). -/
def sdecode (w : Nat) (v : Nat) : Int :=
  if v < 2 ^ (8 * w - 1) then (v : Int) else (v : Int) - 2 ^ (8 * w)

/-- `_decode_int8`. -/
def decodeInt8 (s : DSt) : DRes Int :=
  match read1 "int8" s with
  | .error e => .error e
  | .ok (b, s1) => .ok (sdecode 1 b, s1)

/-- `_decode_uint8`. -/
def decodeUint8 (s : DSt) : DRes Int :=
  match read1 "uint8" s with
  | .error e => .error e
  | .ok (b, s1) => .ok ((b : Int), s1)

/-- `_decode_int16_32` and `_decode_int64`. -/
def decodeIntBE (item : String) (w : Nat) (s : DSt) : DRes Int :=
  match readB item w s with
  | .error e => .error e
  | .ok (bs, s1) => .ok (sdecode w (beVal bs), s1)

/-- `_decode_int_non_negative`: a length or count; only the five integer
markers are allowed and the result must be non-negative. -/
def decodeIntNonNeg (given : Option Nat) (s : DSt) : DRes Nat :=
  match (match given with
         | some m => (.ok (m, s) : DRes Nat)
         | none => read1 "Length marker" s) with
  | .error e => .error e
  | .ok (m, s1) =>
    match (if m = TYPE_INT8 then decodeInt8 s1
           else if m = TYPE_UINT8 then decodeUint8 s1
           else if m = TYPE_INT16 then decodeIntBE "int16/32" 2 s1
           else if m = TYPE_INT32 then decodeIntBE "int16/32" 4 s1
           else if m = TYPE_INT64 then decodeIntBE "int64" 8 s1
           else .error ⟨"Integer marker expected", s1.total⟩) with
    | .error e => .error e
    | .ok (v, s2) =>
      if v < 0 then .error ⟨"Negative count/length unexpected", s2.total⟩
      else .ok (v.toNat, s2)

/-- `_decode_float32`. -/
def decodeFloat32 (s : DSt) : DRes Value :=
  match readB "float32" 4 s with
  | .error e => .error e
  | .ok (bs, s1) => .ok (.vfloat (unpack4 bs), s1)

/-- `_decode_float64`. -/
def decodeFloat64 (s : DSt) : DRes Value :=
  match readB "float64" 8 s with
  | .error e => .error e
  | .ok (bs, s1) => .ok (.vfloat (unpack8 bs), s1)

/-- `_decode_high_prec`: length, raw bytes, UTF-8 decode, then the
external decimal parse (the identity on the modelled canonical string). -/
def decodeHighPrec (s : DSt) : DRes Value :=
  match decodeIntNonNeg none s with
  | .error e => .error e
  | .ok (len, s1) =>
    match readB "highprec" len s1 with
    | .error e => .error e
    | .ok (raw, s2) =>
      if utf8Valid raw then .ok (.vhigh raw, s2)
      else .error ⟨"Failed to decode utf8: highprec", s2.total⟩

/-- `_decode_char`: one byte, decoded as a one-character string. -/
def decodeChar (s : DSt) : DRes Value :=
  match read1 "char" s with
  | .error e => .error e
  | .ok (b, s1) =>
    if utf8Valid [b] then .ok (.vstr [b], s1)
    else .error ⟨"Failed to decode utf8: char", s1.total⟩

/-- `_decode_string`: length then UTF-8 bytes; a zero length reads
nothing. -/
def decodeString (s : DSt) : DRes Value :=
  match decodeIntNonNeg none s with
  | .error e => .error e
  | .ok (len, s1) =>
    if 0 < len then
      match readB "string" len s1 with
      | .error e => .error e
      | .ok (raw, s2) =>
        if utf8Valid raw then .ok (.vstr raw, s2)
        else .error ⟨"Failed to decode utf8: string", s2.total⟩
    else .ok (.vstr [], s1)

/-- `_container_params_t`. -/
structure CParams where
  marker : Nat
  counting : Bool
  count : Nat
  type : Nat
deriving DecidableEq

/-- The fixed-element-type markers accepted after `$` by
`_get_container_params` (the `switch` at decoder.c:622). -/
def validContainerType (m : Nat) : Bool :=
  decide (m = TYPE_NULL) || decide (m = TYPE_BOOL_TRUE) ||
  decide (m = TYPE_BOOL_FALSE) || decide (m = TYPE_CHAR) ||
  decide (m = TYPE_STRING) || decide (m = TYPE_INT8) ||
  decide (m = TYPE_UINT8) || decide (m = TYPE_INT16) ||
  decide (m = TYPE_INT32) || decide (m = TYPE_INT64) ||
  decide (m = TYPE_FLOAT32) || decide (m = TYPE_FLOAT64) ||
  decide (m = TYPE_HIGH_PREC) || decide (m = ARRAY_START) ||
  decide (m = OBJECT_START)

/-- Second half of `_get_container_params`, from the point where the
fixed type (or `TYPE_NONE`) and the following marker are known. -/
def getCPTail (inMapping : Bool) (ty m3 : Nat) (s : DSt) : DRes CParams :=
  if m3 = CONTAINER_COUNT then
    match decodeIntNonNeg none s with
    | .error e => .error e
    | .ok (count, s4) =>
      if 0 < count ∧ (inMapping ∨ ty = TYPE_NONE) then
        match read1 "1st key/value type" s4 with
        | .error e => .error e
        | .ok (m4, s5) => .ok (⟨m4, true, count, ty⟩, s5)
      else .ok (⟨ty, true, count, ty⟩, s4)
  else if ty = TYPE_NONE then .ok (⟨m3, false, 1, ty⟩, s)
  else .error ⟨"Container type without count", s.total⟩

/-- `_get_container_params`. -/
def getCP (inMapping : Bool) (s : DSt) : DRes CParams :=
  match read1 "container type, count or 1st key/value type" s with
  | .error e => .error e
  | .ok (m1, s1) =>
    if m1 = CONTAINER_TYPE then
      match read1 "container type" s1 with
      | .error e => .error e
      | .ok (m2, s2) =>
        if validContainerType m2 then
          match read1 "container count or 1st key/value type" s2 with
          | .error e => .error e
          | .ok (m3, s3) => getCPTail inMapping m2 m3 s3
        else .error ⟨"Invalid container type", s2.total⟩
    else getCPTail inMapping TYPE_NONE m1 s1

/-- `_is_no_data_type`. -/
def isNoData (ty : Nat) : Bool :=
  decide (ty = TYPE_NULL) || decide (ty = TYPE_BOOL_TRUE) ||
    decide (ty = TYPE_BOOL_FALSE)

/-- `_no_data_type`. -/
def noDataVal (ty : Nat) : Value :=
  if ty = TYPE_NULL then .vnull
  else if ty = TYPE_BOOL_TRUE then .vtrue
  else .vfalse

/-- `_decode_object_key` without the context wrapper: key length (from a
given marker), raw bytes, UTF-8 decode. -/
def decodeKeyRaw (marker : Nat) (s : DSt) : DRes (List Nat) :=
  match decodeIntNonNeg (some marker) s with
  | .error e => .error e
  | .ok (len, s1) =>
    match readB "string" len s1 with
    | .error e => .error e
    | .ok (raw, s2) =>
      if utf8Valid raw then .ok (raw, s2)
      else .error ⟨"Failed to decode utf8: object key", s2.total⟩

/-- `DECODE_OBJECT_KEY_OR_RAISE_ENCODER_EXCEPTION`: any failure inside
`_decode_object_key` is replaced by "Failed to decode object key (ctx)"
at the current position. -/
def decodeKey (ctx : String) (marker : Nat) (s : DSt) : DRes (List Nat) :=
  match decodeKeyRaw marker s with
  | .ok r => .ok r
  | .error e => .error ⟨"Failed to decode object key (" ++ ctx ++ ")", e.pos⟩

/-- The keys-only loop of `_decode_object` for a counted object with a
no-data fixed type (decoder.c:905): reads `count` keys, no value bytes. -/
def objNoData (ty : Nat) : Nat → Nat → KVList → DSt → DRes Value
  | 0, _, acc, s => .ok (.vobj acc, s)
  | count + 1, marker, acc, s =>
    match decodeKey "sized, no data" marker s with
    | .error e => .error e
    | .ok (k, s1) =>
      let acc2 := dictInsert acc k (noDataVal ty)
      if 0 < count then
        match read1 "object key length" s1 with
        | .error e => .error e
        | .ok (m2, s2) => objNoData ty count m2 acc2 s2
      else .ok (.vobj acc2, s1)

/-- Fuel-exhaustion error; the C code relies on the host recursion limit
(`Py_EnterRecursiveCall`), modelled by the fuel parameter of the mutual
block below (fuel also bounds the container loops, whose iterations each
consume input). -/
def recErr (s : DSt) : DErr := ⟨"Maximum recursion depth exceeded", s.total⟩

mutual

/-- `_ubjson_decode_value`: read (or take the given) marker and
dispatch. -/
def decodeValue (p : DPrefs) : Nat → Option Nat → DSt → DRes Value
  | 0, _, s => .error (recErr s)
  | fuel + 1, given, s =>
    match (match given with
           | some m => (.ok (m, s) : DRes Nat)
           | none => read1 "Type marker" s) with
    | .error e => .error e
    | .ok (m, s1) =>
      if m = TYPE_NULL then .ok (.vnull, s1)
      else if m = TYPE_BOOL_TRUE then .ok (.vtrue, s1)
      else if m = TYPE_BOOL_FALSE then .ok (.vfalse, s1)
      else if m = TYPE_CHAR then decodeChar s1
      else if m = TYPE_STRING then decodeString s1
      else if m = TYPE_INT8 then
        match decodeInt8 s1 with
        | .error e => .error e
        | .ok (n, s2) => .ok (.vint n, s2)
      else if m = TYPE_UINT8 then
        match decodeUint8 s1 with
        | .error e => .error e
        | .ok (n, s2) => .ok (.vint n, s2)
      else if m = TYPE_INT16 then
        match decodeIntBE "int16/32" 2 s1 with
        | .error e => .error e
        | .ok (n, s2) => .ok (.vint n, s2)
      else if m = TYPE_INT32 then
        match decodeIntBE "int16/32" 4 s1 with
        | .error e => .error e
        | .ok (n, s2) => .ok (.vint n, s2)
      else if m = TYPE_INT64 then
        match decodeIntBE "int64" 8 s1 with
        | .error e => .error e
        | .ok (n, s2) => .ok (.vint n, s2)
      else if m = TYPE_FLOAT32 then decodeFloat32 s1
      else if m = TYPE_FLOAT64 then decodeFloat64 s1
      else if m = TYPE_HIGH_PREC then decodeHighPrec s1
      else if m = ARRAY_START then decodeArray p fuel s1
      else if m = OBJECT_START then decodeObject p fuel s1
      else .error ⟨"Invalid marker", s1.total⟩
  termination_by structural fuel _ _ => fuel

/-- `_decode_array`. -/
def decodeArray (p : DPrefs) : Nat → DSt → DRes Value
  | 0, s => .error (recErr s)
  | fuel + 1, s =>
    match getCP false s with
    | .error e => .error e
    | .ok (ps, s1) =>
      if ps.counting then
        if ps.type = TYPE_UINT8 ∧ ¬ p.no_bytes then
          -- special case: byte array
          match readB "bytes array" ps.count s1 with
          | .error e => .error e
          | .ok (bs, s2) => .ok (.vbytes bs, s2)
        else if isNoData ps.type then
          -- special case: count copies of the no-data value
          .ok (.varr (VList.replicate ps.count (noDataVal ps.type)), s1)
        else arrCounted p fuel ps.type ps.count ps.marker .nil s1
      else arrUncounted p fuel ps.type ps.marker .nil s1
  termination_by structural fuel _ => fuel

/-- The counted element loop of `_decode_array`. -/
def arrCounted (p : DPrefs) :
    Nat → Nat → Nat → Nat → VList → DSt → DRes Value
  | 0, _, _, _, _, s => .error (recErr s)
  | fuel + 1, ty, count, marker, acc, s =>
    if count = 0 then .ok (.varr acc, s)
    else if marker = TYPE_NOOP then
      match read1 "array value type marker (sized, after no-op)" s with
      | .error e => .error e
      | .ok (m2, s1) => arrCounted p fuel ty count m2 acc s1
    else
      match decodeValue p fuel (some marker) s with
      | .error e => .error e
      | .ok (v, s1) =>
        if count - 1 ≠ 0 ∧ ty = TYPE_NONE then
          match read1 "array value type marker (sized)" s1 with
          | .error e => .error e
          | .ok (m2, s2) => arrCounted p fuel ty (count - 1) m2 (acc.snoc v) s2
        else arrCounted p fuel ty (count - 1) marker (acc.snoc v) s1
  termination_by structural fuel _ _ _ _ _ => fuel

/-- The uncounted element loop of `_decode_array` (until `]`). -/
def arrUncounted (p : DPrefs) : Nat → Nat → Nat → VList → DSt → DRes Value
  | 0, _, _, _, s => .error (recErr s)
  | fuel + 1, ty, marker, acc, s =>
    if marker = ARRAY_END then .ok (.varr acc, s)
    else if marker = TYPE_NOOP then
      match read1 "array value type marker (after no-op)" s with
      | .error e => .error e
      | .ok (m2, s1) => arrUncounted p fuel ty m2 acc s1
    else
      match decodeValue p fuel (some marker) s with
      | .error e => .error e
      | .ok (v, s1) =>
        if ty = TYPE_NONE then
          match read1 "array value type marker" s1 with
          | .error e => .error e
          | .ok (m2, s2) => arrUncounted p fuel ty m2 (acc.snoc v) s2
        else arrUncounted p fuel ty marker (acc.snoc v) s1
  termination_by structural fuel _ _ _ _ => fuel

/-- The main loop of `_decode_object` (no object hook, no pairs hook):
`while (count > 0 && (counting || marker != OBJECT_END))`. -/
def objLoop (p : DPrefs) :
    Nat → Bool → Nat → Nat → Option Nat → KVList → DSt → DRes Value
  | 0, _, _, _, _, _, s => .error (recErr s)
  | fuel + 1, counting, count, marker, fixedTy, acc, s =>
    if ¬ (0 < count ∧ (counting ∨ marker ≠ OBJECT_END)) then
      .ok (.vobj acc, s)
    else if marker = TYPE_NOOP then
      match read1 "object key length" s with
      | .error e => .error e
      | .ok (m2, s1) => objLoop p fuel counting count m2 fixedTy acc s1
    else
      match decodeKey "sized/unsized" marker s with
      | .error e => .error e
      | .ok (k, s1) =>
        match decodeValue p fuel fixedTy s1 with
        | .error e => .error e
        | .ok (v, s2) =>
          let acc2 := dictInsert acc k v
          let count2 := if counting then count - 1 else count
          if 0 < count2 then
            match read1 "object key length" s2 with
            | .error e => .error e
            | .ok (m2, s3) => objLoop p fuel counting count2 m2 fixedTy acc2 s3
          else .ok (.vobj acc2, s2)
  termination_by structural fuel _ _ _ _ _ _ => fuel

/-- `_decode_object` (no hooks set). -/
def decodeObject (p : DPrefs) : Nat → DSt → DRes Value
  | 0, s => .error (recErr s)
  | fuel + 1, s =>
    match getCP true s with
    | .error e => .error e
    | .ok (ps, s1) =>
      if ps.counting ∧ isNoData ps.type then
        objNoData ps.type ps.count ps.marker .nil s1
      else
        objLoop p fuel ps.counting ps.count ps.marker
          (if ps.type = TYPE_NONE then none else some ps.type) .nil s1
  termination_by structural fuel _ => fuel

end

/-- Fuel ample for any input: each fueled step consumes input bytes. -/
def topFuel (b : List Nat) : Nat := 4 * b.length + 4

/-- `_ubjson_loadb`: decode one value from the front of a byte buffer
(fixed-buffer strategy, `total_read` starting at 0). -/
def topDecode (p : DPrefs) (b : List Nat) : DRes Value :=
  decodeValue p (topFuel b) none ⟨b, 0⟩

/-! ## The round-trip domain (claim C1)

Values whose encoding with default preferences decodes back to the same
value.  Beyond the exclusions stated by the claim (no NaN or infinite
floats, no non-finite decimals, string keys only), the code requires:
integers within the signed 64-bit range (larger ones are re-encoded as
decimals and decode as `Decimal`), no subnormal floats (they are
re-encoded as decimals too), valid UTF-8 in strings, decimals and keys,
distinct keys per mapping, and lengths below `2^63`. -/

mutual

def domainB : Value → Bool
  | .vnull => true
  | .vtrue => true
  | .vfalse => true
  | .vint n => decide (-2 ^ 63 ≤ n ∧ n < 2 ^ 63)
  | .vfloat b => decide (b < 2 ^ 64) && decide (fExp b ≠ 2047) && ! fIsSubnormal b
  | .vhigh s => decIsFinite s && utf8Valid s && decide ((s.length : Int) < 2 ^ 63)
  | .vstr s => utf8Valid s && decide ((s.length : Int) < 2 ^ 63)
  | .vbytes bs => decide ((bs.length : Int) < 2 ^ 63)
  | .varr l => domainVL l
  | .vobj l => domainKV l
  termination_by structural v => v

def domainVL : VList → Bool
  | .nil => true
  | .cons v tl => domainB v && domainVL tl
  termination_by structural l => l

def domainKV : KVList → Bool
  | .nil => true
  | .cons k v tl =>
    utf8Valid k && decide ((k.length : Int) < 2 ^ 63) && ! tl.hasKey k &&
      domainB v && domainKV tl
  termination_by structural l => l

end

def KVList.append : KVList → KVList → KVList
  | .nil, l => l
  | .cons k v tl, l => .cons k v (tl.append l)

/-! ## Object-identity graph for the cycle-detection logic

`_encode_PySequence` and `_encode_PyMapping` guard recursion with the
`buffer->markers` set of object identities: on entry the identity is
looked up (a hit raises `ValueError("Circular reference detected")`),
then added, the children are encoded left to right, and the identity is
discarded again.  Python objects form an arbitrary graph (one container
may appear at several positions, or contain itself), so values are
modelled as nodes of a heap addressed by identity; byte emission is
immaterial to this logic and elided, an encoder call returns the
resulting markers set. -/

inductive GNode where
  | gleaf
  | garr (es : List Nat)
  | gobj (es : List Nat)

/-- Identities of the direct children (sequence elements / mapping
values) that `_ubjson_encode_value` is called on. -/
def childIds : GNode → List Nat
  | .gleaf => []
  | .garr es => es
  | .gobj es => es

/-- One container-containment step: the object `y` is a direct element or
mapping value of the object `x`. -/
def childRel (heap : List GNode) (x y : Nat) : Prop :=
  match heap[x]? with
  | some n => y ∈ childIds n
  | none => False

mutual

/-- The markers discipline of `_encode_PySequence` / `_encode_PyMapping`
(identical in both): `PySet_Contains` then `PySet_Add`, the children via
`_ubjson_encode_value`, then `PySet_Discard`.  Scalars never touch the
set.  The fuel models `Py_EnterRecursiveCall`. -/
def encodeG (heap : List GNode) : Nat → List Nat → Nat → Except String (List Nat)
  | 0, _, _ => .error "maximum recursion depth exceeded while encoding"
  | fuel + 1, seen, id =>
    match heap[id]? with
    | none => .error "Cannot encode item"
    | some .gleaf => .ok seen
    | some (.garr es) =>
      if id ∈ seen then .error "Circular reference detected"
      else
        match encodeGList heap fuel (id :: seen) es with
        | .error e => .error e
        | .ok seen2 => .ok (seen2.erase id)
    | some (.gobj es) =>
      if id ∈ seen then .error "Circular reference detected"
      else
        match encodeGList heap fuel (id :: seen) es with
        | .error e => .error e
        | .ok seen2 => .ok (seen2.erase id)
  termination_by fuel _ _ => (fuel, 0)

/-- The element loop of a container body (`for i in 0..len`). -/
def encodeGList (heap : List GNode) : Nat → List Nat → List Nat → Except String (List Nat)
  | _, seen, [] => .ok seen
  | fuel, seen, e :: es =>
    match encodeG heap fuel seen e with
    | .error err => .error err
    | .ok seen2 => encodeGList heap fuel seen2 es
  termination_by fuel _ es => (fuel, es.length + 1)

end

/-! # Theorems -/

/-! ## Byte-level lemmas -/

theorem leBytes_length (w : Nat) (n : Int) : (leBytes w n).length = w := by
  induction w generalizing n with
  | zero => rfl
  | succ w ih => simp [leBytes, ih]

theorem beBytesN_length (w m : Nat) : (beBytesN w m).length = w := by
  induction w generalizing m with
  | zero => rfl
  | succ w ih => simp [beBytesN, ih]

theorem emod_mul_split (n K : Int) (hK : 0 < K) :
    n % (256 * K) = n % 256 + 256 * ((n / 256) % K) := by
  have e1 : 256 * (n / 256) + n % 256 = n := Int.ediv_add_emod n 256
  have e2 : K * ((n / 256) / K) + (n / 256) % K = n / 256 :=
    Int.ediv_add_emod (n / 256) K
  have h1 : 0 ≤ n % 256 := Int.emod_nonneg n (by norm_num)
  have h2 : n % 256 < 256 := Int.emod_lt_of_pos n (by norm_num)
  have h3 : 0 ≤ (n / 256) % K := Int.emod_nonneg _ (ne_of_gt hK)
  have h4 : (n / 256) % K < K := Int.emod_lt_of_pos _ hK
  have hn : n = (n % 256 + 256 * ((n / 256) % K)) +
      (256 * K) * ((n / 256) / K) := by
    rw [← e2] at e1
    ring_nf at e1 ⊢
    linarith
  calc n % (256 * K)
      = ((n % 256 + 256 * ((n / 256) % K)) +
          (256 * K) * ((n / 256) / K)) % (256 * K) := by rw [← hn]
    _ = (n % 256 + 256 * ((n / 256) % K)) % (256 * K) :=
        Int.add_mul_emod_self_left ..
    _ = n % 256 + 256 * ((n / 256) % K) :=
        Int.emod_eq_of_lt (by linarith) (by nlinarith)

theorem emod_nonneg_lt (n : Int) (K : Int) (hK : 0 < K) :
    0 ≤ n % K ∧ n % K < K :=
  ⟨Int.emod_nonneg n (ne_of_gt hK), Int.emod_lt_of_pos n hK⟩

/-- The reversed little-endian extraction is the big-endian digits of the
truncated two's-complement value. -/
theorem leBytes_reverse (w : Nat) (n : Int) :
    (leBytes w n).reverse = beBytesN w ((n % (2 ^ (8 * w))).toNat) := by
  induction w generalizing n with
  | zero => rfl
  | succ w ih =>
    have hK : (0:Int) < 2 ^ (8 * w) := by positivity
    have hsplit := emod_mul_split n (2 ^ (8 * w)) hK
    have h1 := emod_nonneg_lt n 256 (by norm_num)
    have h3 := emod_nonneg_lt (n / 256) (2 ^ (8 * w)) hK
    have hpow : (2:Int) ^ (8 * (w + 1)) = 256 * 2 ^ (8 * w) := by ring
    have hM : ((n % (2 ^ (8 * (w + 1)))).toNat) =
        (n % 256).toNat + 256 * ((n / 256) % (2 ^ (8 * w))).toNat := by
      rw [hpow, hsplit]; omega
    have hmod : ((n % (2 ^ (8 * (w + 1)))).toNat) % 256 = (n % 256).toNat := by
      omega
    have hdiv : ((n % (2 ^ (8 * (w + 1)))).toNat) / 256 =
        ((n / 256) % (2 ^ (8 * w))).toNat := by omega
    simp only [leBytes, List.reverse_cons, ih, beBytesN, hmod, hdiv]

/-- Big-endian digits evaluate back to the encoded number. -/
theorem beVal_beBytesN (w m : Nat) (h : m < 2 ^ (8 * w)) :
    beVal (beBytesN w m) = m := by
  induction w generalizing m with
  | zero =>
    simp only [Nat.mul_zero, pow_zero, Nat.lt_one_iff] at h
    simp [beBytesN, beVal, h]
  | succ w ih =>
    have hlt : m / 256 < 2 ^ (8 * w) := by
      have : (2:Nat) ^ (8 * (w + 1)) = 2 ^ (8 * w) * 256 := by ring
      rw [this] at h
      omega
    have := ih (m / 256) hlt
    simp only [beBytesN, beVal, List.foldl_append] at *
    simp only [List.foldl_cons, List.foldl_nil]
    omega

/-! ## Claim C2 (minimal integer encoding) -/

/-- Claim C2: for every integer in the signed 64-bit range,
`_encode_longlong` emits the narrowest integer marker whose range
contains it (`U` for `[0, 2^8)`, `i` for `[-2^7, 0)`, then `I`, `l`,
`L`), followed by the big-endian two's-complement payload of exactly that
width. -/
theorem c2_minimal_integer_encoding (n : Int) (h1 : -2 ^ 63 ≤ n) (h2 : n < 2 ^ 63) :
    encInt n = (specIntWidth n).1 ::
      beBytesN (specIntWidth n).2 ((n % (2 ^ (8 * (specIntWidth n).2))).toNat) := by
  have r2 := leBytes_reverse 2 n
  have r4 := leBytes_reverse 4 n
  have r8 := leBytes_reverse 8 n
  norm_num at r2 r4 r8
  have b1 : ∀ m : Nat, beBytesN 1 m = [m % 256] := fun m => rfl
  unfold encInt specIntWidth
  split_ifs <;>
    first
      | (exfalso; omega)
      | (dsimp only
         norm_num [r2, r4, r8, b1]
         try omega)

theorem c2_minimal_integer_encoding_witness :
    (-2 ^ 63 ≤ (300:Int)) ∧ ((300:Int) < 2 ^ 63) ∧
      encInt 300 = (specIntWidth 300).1 ::
        beBytesN (specIntWidth 300).2 (((300:Int) % (2 ^ (8 * (specIntWidth 300).2))).toNat) :=
  ⟨by norm_num, by norm_num,
    c2_minimal_integer_encoding 300 (by norm_num) (by norm_num)⟩

/-! ## Claim C4 (partial input error) -/

/-- Claim C4 counterexample: decoding `49 00` does NOT fail with the bare
message "Insufficient (partial) input" at byte offset 1 — the message
carries the item context and the offset counts the one delivered payload
byte. -/
theorem c4_counterexample :
    topDecode defaultDPrefs [0x49, 0x00] ≠
      Except.error ⟨"Insufficient (partial) input", 1⟩ := by decide

/-- Claim C4 (amended): decoding the two-byte input `49 00` (marker `I`
followed by only one payload byte) fails with a DecoderException whose
message is "Insufficient (partial) input (int16/32)" and whose reported
cumulative byte offset is 2 (the marker byte plus the one delivered
payload byte). -/
theorem c4_insufficient_partial_input :
    topDecode defaultDPrefs [0x49, 0x00] =
      Except.error ⟨"Insufficient (partial) input (int16/32)", 2⟩ := by decide

/-! ## Claims C3 and C6 (container parameter negotiation) -/

/-- Errors of `read1` have the "Insufficient input" message. -/
theorem read1_error {item : String} {s : DSt} {e : DErr}
    (h : read1 item s = .error e) :
    e.msg = "Insufficient input (" ++ item ++ ")" := by
  unfold read1 at h
  split at h
  · injection h with h2
    rw [← h2]
  · exact Except.noConfusion h

/-- Errors of `readB` have one of the two insufficiency messages. -/
theorem readB_error {item : String} {n : Nat} {s : DSt} {e : DErr}
    (h : readB item n s = .error e) :
    e.msg = "Insufficient input (" ++ item ++ ")" ∨
    e.msg = "Insufficient (partial) input (" ++ item ++ ")" := by
  unfold readB at h
  split_ifs at h <;>
    first
      | exact Except.noConfusion h
      | (injection h with h2
         rw [← h2]
         simp)

/-- The messages a length/count decode can fail with; in particular
neither "Invalid container type" nor "Container type without count". -/
theorem decodeInt8_error {s : DSt} {e : DErr} (h : decodeInt8 s = .error e) :
    e.msg = "Insufficient input (int8)" := by
  unfold decodeInt8 at h
  split at h
  next e1 heq =>
    injection h with h2
    rw [← h2]
    exact read1_error heq
  next => exact Except.noConfusion h

theorem decodeUint8_error {s : DSt} {e : DErr} (h : decodeUint8 s = .error e) :
    e.msg = "Insufficient input (uint8)" := by
  unfold decodeUint8 at h
  split at h
  next e1 heq =>
    injection h with h2
    rw [← h2]
    exact read1_error heq
  next => exact Except.noConfusion h

theorem decodeIntBE_error {item : String} {w : Nat} {s : DSt} {e : DErr}
    (h : decodeIntBE item w s = .error e) :
    e.msg = "Insufficient input (" ++ item ++ ")" ∨
    e.msg = "Insufficient (partial) input (" ++ item ++ ")" := by
  unfold decodeIntBE at h
  split at h
  next e1 heq =>
    injection h with h2
    rw [← h2]
    exact readB_error heq
  next => exact Except.noConfusion h

theorem decodeIntNonNeg_error {g : Option Nat} {s : DSt} {e : DErr}
    (h : decodeIntNonNeg g s = .error e) :
    e.msg = "Insufficient input (Length marker)" ∨
    e.msg = "Insufficient input (int8)" ∨
    e.msg = "Insufficient input (uint8)" ∨
    e.msg = "Insufficient input (int16/32)" ∨
    e.msg = "Insufficient (partial) input (int16/32)" ∨
    e.msg = "Insufficient input (int64)" ∨
    e.msg = "Insufficient (partial) input (int64)" ∨
    e.msg = "Integer marker expected" ∨
    e.msg = "Negative count/length unexpected" := by
  unfold decodeIntNonNeg at h
  split at h
  next m heq =>
    injection h with h2
    subst h2
    cases g with
    | some _ => exact Except.noConfusion heq
    | none =>
      have h3 := read1_error heq
      left
      rw [h3]
      decide
  next m s1 heq =>
    clear heq
    split_ifs at h with h1 h2 h3 h4 h5 <;>
      first
        | (injection h with hh
           subst hh
           simp)
        | (split at h <;>
            first
              | (injection h with hh
                 subst hh
                 first
                   | (have h9 := decodeInt8_error (by assumption)
                      simp [h9])
                   | (have h9 := decodeUint8_error (by assumption)
                      simp [h9])
                   | (rcases decodeIntBE_error (by assumption) with h9 | h9 <;> simp [h9])
                   | simp)
              | (split_ifs at h with hv <;>
                  first
                    | (injection h with hh
                       subst hh
                       simp)
                    | exact Except.noConfusion h))

/-- The claim-side sixteen-marker list of C3 (includes `N`). -/
def claimedContainerTypes16 : List Nat :=
  [TYPE_NULL, TYPE_NOOP, TYPE_BOOL_TRUE, TYPE_BOOL_FALSE, TYPE_INT8,
   TYPE_UINT8, TYPE_INT16, TYPE_INT32, TYPE_INT64, TYPE_FLOAT32,
   TYPE_FLOAT64, TYPE_HIGH_PREC, TYPE_CHAR, TYPE_STRING, ARRAY_START,
   OBJECT_START]

/-- The fifteen markers actually accepted (no `N`). -/
def acceptedContainerTypes15 : List Nat :=
  [TYPE_NULL, TYPE_BOOL_TRUE, TYPE_BOOL_FALSE, TYPE_INT8, TYPE_UINT8,
   TYPE_INT16, TYPE_INT32, TYPE_INT64, TYPE_FLOAT32, TYPE_FLOAT64,
   TYPE_HIGH_PREC, TYPE_CHAR, TYPE_STRING, ARRAY_START, OBJECT_START]

/-- Claim C3 counterexample: the no-op marker `N` is in the claim's
sixteen-marker list but `_get_container_params` rejects it with
"Invalid container type". -/
theorem c3_counterexample :
    TYPE_NOOP ∈ claimedContainerTypes16 ∧
    validContainerType TYPE_NOOP = false ∧
    getCP false ⟨[CONTAINER_TYPE, TYPE_NOOP, CONTAINER_COUNT, TYPE_UINT8, 0], 0⟩ =
      .error ⟨"Invalid container type", 2⟩ := by decide

/-- Claim C3 (amended): when a container header begins with `$`, the
decoder accepts the following fixed-element-type marker if and only if it
is one of the FIFTEEN markers `Z T F i U I l L d D H C S [ {` (`N` is
not accepted); for every other marker it fails with
"Invalid container type" at the position after the type byte, while for
an accepted marker it proceeds to read the next header byte. -/
theorem c3_container_type_check (m : Nat) :
    (validContainerType m = true ↔ m ∈ acceptedContainerTypes15) ∧
    (∀ (inM : Bool) (rest : List Nat) (t : Nat),
      validContainerType m = false →
      getCP inM ⟨CONTAINER_TYPE :: m :: rest, t⟩ =
        .error ⟨"Invalid container type", t + 2⟩) ∧
    (∀ (inM : Bool) (rest : List Nat) (t : Nat),
      validContainerType m = true →
      getCP inM ⟨CONTAINER_TYPE :: m :: rest, t⟩ =
        match read1 "container count or 1st key/value type" ⟨rest, t + 2⟩ with
        | .error e => .error e
        | .ok (m3, s3) => getCPTail inM m m3 s3) := by
  refine ⟨?_, ?_, ?_⟩
  · unfold validContainerType acceptedContainerTypes15
    simp [TYPE_NULL, TYPE_BOOL_TRUE, TYPE_BOOL_FALSE, TYPE_CHAR, TYPE_STRING,
      TYPE_INT8, TYPE_UINT8, TYPE_INT16, TYPE_INT32, TYPE_INT64,
      TYPE_FLOAT32, TYPE_FLOAT64, TYPE_HIGH_PREC, ARRAY_START, OBJECT_START]
    tauto
  · intro inM rest t hv
    unfold getCP read1
    simp [CONTAINER_TYPE, hv]
  · intro inM rest t hv
    unfold getCP read1
    simp [CONTAINER_TYPE, hv]

theorem c3_container_type_check_witness :
    (validContainerType TYPE_STRING = true ↔
      TYPE_STRING ∈ acceptedContainerTypes15) ∧
    (validContainerType TYPE_NOOP = false →
      getCP false ⟨CONTAINER_TYPE :: TYPE_NOOP :: [0x23], 5⟩ =
        .error ⟨"Invalid container type", 7⟩) :=
  ⟨(c3_container_type_check TYPE_STRING).1,
    fun h => (c3_container_type_check TYPE_NOOP).2.1 false [0x23] 5 h⟩

/-- Claim C6: a container header with a `$` fixed type whose next marker
is not `#` fails with "Container type without count" (at the position
after those three bytes); a fixed type together with a count, or a header
with no fixed type at all, never produces that error. -/
theorem getCPTail_count_error {inM : Bool} {ty : Nat} {s : DSt} {e : DErr}
    (h : getCPTail inM ty CONTAINER_COUNT s = .error e) :
    e.msg ≠ "Container type without count" ∧ e.msg ≠ "Invalid container type" := by
  unfold getCPTail at h
  rw [if_pos rfl] at h
  split at h <;>
    first
      | (injection h with hh
         subst hh
         rcases decodeIntNonNeg_error (by assumption) with
           h9 | h9 | h9 | h9 | h9 | h9 | h9 | h9 | h9 <;> simp [h9])
      | (split_ifs at h <;>
          first
            | (split at h <;>
                first
                  | (injection h with hh
                     subst hh
                     have h9 := read1_error (by assumption)
                     simp [h9])
                  | exact Except.noConfusion h)
            | exact Except.noConfusion h)

theorem c6_container_type_without_count :
    (∀ (inM : Bool) (ty m3 : Nat) (s : DSt), ty ≠ TYPE_NONE →
      m3 ≠ CONTAINER_COUNT →
      getCPTail inM ty m3 s = .error ⟨"Container type without count", s.total⟩) ∧
    (∀ (inM : Bool) (ty : Nat) (s : DSt) (e : DErr),
      getCPTail inM ty CONTAINER_COUNT s = .error e →
      e.msg ≠ "Container type without count") ∧
    (∀ (inM : Bool) (m3 : Nat) (s : DSt) (e : DErr),
      getCPTail inM TYPE_NONE m3 s = .error e →
      e.msg ≠ "Container type without count") := by
  refine ⟨?_, ?_, ?_⟩
  · intro inM ty m3 s hty hm3
    unfold getCPTail
    simp [hty, hm3]
  · intro inM ty s e h
    exact (getCPTail_count_error h).1
  · intro inM m3 s e h
    by_cases h1 : m3 = CONTAINER_COUNT
    · subst h1
      exact (getCPTail_count_error h).1
    · unfold getCPTail at h
      rw [if_neg h1, if_pos rfl] at h
      exact Except.noConfusion h

theorem c6_container_type_without_count_witness :
    (TYPE_UINT8 ≠ TYPE_NONE ∧ TYPE_INT8 ≠ CONTAINER_COUNT) ∧
    getCPTail false TYPE_UINT8 TYPE_INT8 ⟨[0x00], 3⟩ =
      .error ⟨"Container type without count", 3⟩ :=
  ⟨⟨by decide, by decide⟩,
    c6_container_type_without_count.1 false TYPE_UINT8 TYPE_INT8 ⟨[0x00], 3⟩
      (by decide) (by decide)⟩


/-! ## C7 groundwork -/

theorem vl_append_nil : ∀ (l : VList), l.append .nil = l
  | .nil => rfl
  | .cons v tl => by
    rw [VList.append, vl_append_nil tl]

theorem vl_snoc_append : ∀ (l : VList) (v : Value) (r : VList),
    (l.snoc v).append r = l.append (.cons v r)
  | .nil, _, _ => rfl
  | .cons w tl, v, r => by
    rw [VList.snoc, VList.append, vl_snoc_append tl v r, VList.append]

/-- Reading exactly the first block of the buffer. -/
theorem readB_exact (item : String) (x rest : List Nat) (t : Nat) :
    readB item x.length ⟨x ++ rest, t⟩ = .ok (x, ⟨rest, t + x.length⟩) := by
  cases x with
  | nil => simp [readB]
  | cons b tl =>
    unfold readB
    rw [if_neg (by simp)]
    rw [if_neg (by simp)]
    rw [if_pos (by simp)]
    simp [List.take_left, List.drop_left]

theorem leBytes_reverse_length (w : Nat) (n : Int) :
    ((leBytes w n).reverse).length = w := by
  simp [leBytes_length]

theorem decodeIntNonNeg_some (m : Nat) (s : DSt) :
    decodeIntNonNeg (some m) s =
      match (if m = TYPE_INT8 then decodeInt8 s
             else if m = TYPE_UINT8 then decodeUint8 s
             else if m = TYPE_INT16 then decodeIntBE "int16/32" 2 s
             else if m = TYPE_INT32 then decodeIntBE "int16/32" 4 s
             else if m = TYPE_INT64 then decodeIntBE "int64" 8 s
             else .error ⟨"Integer marker expected", s.total⟩) with
      | .error e => .error e
      | .ok (v, s2) =>
        if v < 0 then .error ⟨"Negative count/length unexpected", s2.total⟩
        else .ok (v.toNat, s2) := rfl

/-- The two's-complement read of the truncated value is the value, for
the four payload widths. -/
theorem sdecode_emod (w : Nat) (hw : w = 1 ∨ w = 2 ∨ w = 4 ∨ w = 8) (n : Int)
    (hlo : -2 ^ (8 * w - 1) ≤ n) (hhi : n < 2 ^ (8 * w - 1)) :
    sdecode w ((n % 2 ^ (8 * w)).toNat) = n := by
  rcases hw with rfl | rfl | rfl | rfl <;>
    (unfold sdecode
     norm_num at *
     split_ifs with h <;> omega)

/-- Big-endian branch helper: decoding the reversed `leBytes` payload of a
value in the signed range of width `w` gives the value back. -/
theorem decodeIntBE_leBytes (item : String) (w : Nat)
    (hw : w = 1 ∨ w = 2 ∨ w = 4 ∨ w = 8) (n : Int)
    (hlo : -2 ^ (8 * w - 1) ≤ n) (hhi : n < 2 ^ (8 * w - 1))
    (rest : List Nat) (t : Nat) :
    decodeIntBE item w ⟨(leBytes w n).reverse ++ rest, t⟩ =
      .ok (n, ⟨rest, t + w⟩) := by
  have hlen := leBytes_reverse_length w n
  have hrd := readB_exact item ((leBytes w n).reverse) rest t
  rw [hlen] at hrd
  have hKpos : (0:Int) < 2 ^ (8 * w) := by positivity
  have hbd := emod_nonneg_lt n (2 ^ (8 * w)) hKpos
  have hcast : ((2 ^ (8 * w) : Nat) : Int) = 2 ^ (8 * w) := by
    push_cast
    ring
  have hval : beVal ((leBytes w n).reverse) = (n % 2 ^ (8 * w)).toNat := by
    rw [leBytes_reverse]
    exact beVal_beBytesN w _ (by omega)
  have hsd := sdecode_emod w hw n hlo hhi
  unfold decodeIntBE
  rw [hrd]
  simp [hval, hsd]


/-- Final non-negativity check of `_decode_int_non_negative` on a
successful non-negative read. -/
theorem nonNegFinish (v : Int) (hv : 0 ≤ v) (s2 : DSt) :
    (match (Except.ok (v, s2) : DRes Int) with
     | .error e => .error e
     | .ok (v, s2) =>
       if v < 0 then .error ⟨"Negative count/length unexpected", s2.total⟩
       else .ok (v.toNat, s2)) = (.ok (v.toNat, s2) : DRes Nat) := by
  show (if v < 0 then
          (.error ⟨"Negative count/length unexpected", s2.total⟩ : DRes Nat)
        else .ok (v.toNat, s2)) = .ok (v.toNat, s2)
  rw [if_neg (by omega)]

theorem decodeIntNonNeg_encInt_given (n : Int) (h0 : 0 ≤ n) (h1 : n < 2 ^ 63)
    (m : Nat) (pl rest : List Nat) (t : Nat) (he : encInt n = m :: pl) :
    decodeIntNonNeg (some m) ⟨pl ++ rest, t⟩ =
      .ok (n.toNat, ⟨rest, t + pl.length⟩) := by
  unfold encInt at he
  rw [if_pos h0] at he
  split_ifs at he with hU hI hl
  · -- U + 1 byte
    injection he with hm hpl
    subst hm
    subst hpl
    rw [decodeIntNonNeg_some]
    rw [if_neg (by decide), if_pos rfl]
    unfold decodeUint8 read1
    simp only [List.cons_append, List.nil_append]
    rw [if_neg (by omega)]
    all_goals
      first
        | rfl
        | (simp only [Except.ok.injEq, Prod.mk.injEq]
           exact ⟨by omega, rfl⟩)
  · -- I + 2 bytes
    injection he with hm hpl
    subst hm
    subst hpl
    rw [decodeIntNonNeg_some]
    rw [if_neg (by decide), if_neg (by decide), if_pos rfl]
    rw [decodeIntBE_leBytes "int16/32" 2 (by omega) n (by norm_num; omega)
      (by norm_num at hI ⊢; omega) rest t]
    rw [leBytes_reverse_length]
    exact nonNegFinish n h0 _
  · -- l + 4 bytes
    injection he with hm hpl
    subst hm
    subst hpl
    rw [decodeIntNonNeg_some]
    rw [if_neg (by decide), if_neg (by decide), if_neg (by decide), if_pos rfl]
    rw [decodeIntBE_leBytes "int16/32" 4 (by omega) n (by norm_num; omega)
      (by norm_num at hl ⊢; omega) rest t]
    rw [leBytes_reverse_length]
    exact nonNegFinish n h0 _
  · -- L + 8 bytes
    injection he with hm hpl
    subst hm
    subst hpl
    rw [decodeIntNonNeg_some]
    rw [if_neg (by decide), if_neg (by decide), if_neg (by decide), if_neg (by decide),
      if_pos rfl]
    rw [decodeIntBE_leBytes "int64" 8 (by omega) n (by norm_num; omega)
      (by norm_num at h1 ⊢; omega) rest t]
    rw [leBytes_reverse_length]
    exact nonNegFinish n h0 _

/-- The head of an `encInt` encoding exists (marker + payload). -/
theorem encInt_ne_nil (n : Int) : encInt n ≠ [] := by
  unfold encInt
  split_ifs <;> simp

/-- Reading the length marker first and continuing is the same as the
given-marker variant. -/
theorem decodeIntNonNeg_none (s : DSt) :
    decodeIntNonNeg none s =
      match read1 "Length marker" s with
      | .error e => .error e
      | .ok (m, s1) => decodeIntNonNeg (some m) s1 := rfl

/-- Same, reading the marker from the stream. -/
theorem decodeIntNonNeg_encInt (n : Int) (h0 : 0 ≤ n) (h1 : n < 2 ^ 63)
    (rest : List Nat) (t : Nat) :
    decodeIntNonNeg none ⟨encInt n ++ rest, t⟩ =
      .ok (n.toNat, ⟨rest, t + (encInt n).length⟩) := by
  rw [decodeIntNonNeg_none]
  rcases hm : encInt n with _ | ⟨m, pl⟩
  · exact absurd hm (encInt_ne_nil n)
  · show decodeIntNonNeg (some m) ⟨pl ++ rest, t + 1⟩ =
      .ok (n.toNat, ⟨rest, t + (m :: pl).length⟩)
    rw [decodeIntNonNeg_encInt_given n h0 h1 m pl rest (t + 1) hm]
    simp only [List.length_cons]
    have ht : t + 1 + pl.length = t + (pl.length + 1) := by omega
    rw [ht]


/-- `decodeValue` with marker `U` reads one byte as a small integer. -/
theorem decodeValue_u8 (p : DPrefs) (fuel : Nat) (b : Nat) (d : List Nat) (t : Nat) :
    decodeValue p (fuel + 1) (some TYPE_UINT8) ⟨b :: d, t⟩ =
      .ok (.vint (b : Int), ⟨d, t + 1⟩) := rfl

/-- The counted fixed-`U` element loop reads one byte per element. -/
theorem arrCounted_u8 (p : DPrefs) (bs rest : List Nat) (acc : VList)
    (t fuel : Nat) (hf : bs.length + 1 ≤ fuel) :
    arrCounted p fuel TYPE_UINT8 bs.length TYPE_UINT8 acc ⟨bs ++ rest, t⟩ =
      .ok (.varr (acc.append (vlOfBytes bs)), ⟨rest, t + bs.length⟩) := by
  induction bs generalizing acc t fuel with
  | nil =>
    obtain ⟨f, rfl⟩ : ∃ f, fuel = f + 1 := ⟨fuel - 1, by omega⟩
    simp only [arrCounted, List.length_nil, List.nil_append, if_true]
    rw [vlOfBytes, vl_append_nil, Nat.add_zero]
  | cons b tl ih =>
    obtain ⟨f, rfl⟩ : ∃ f, fuel = f + 1 := ⟨fuel - 1, by omega⟩
    simp only [arrCounted, List.length_cons, List.cons_append]
    rw [if_neg (by omega), if_neg (by decide)]
    obtain ⟨f2, rfl⟩ : ∃ f2, f = f2 + 1 := ⟨f - 1, by simp at hf; omega⟩
    rw [decodeValue_u8]
    simp only []
    rw [if_neg (by simp [TYPE_UINT8, TYPE_NONE])]
    have hc : tl.length + 1 - 1 = tl.length := by omega
    rw [hc]
    rw [ih (acc.snoc (.vint (b : Int))) (t + 1) (f2 + 1) (by simp at hf ⊢; omega)]
    rw [vl_snoc_append]
    have h2 : t + 1 + tl.length = t + (tl.length + 1) := by omega
    rw [h2, vlOfBytes]


/-- The `$ U #` byte-array header parse. -/
theorem getCP_bytesHeader (n : Int) (h0 : 0 ≤ n) (h1 : n < 2 ^ 63)
    (tail : List Nat) (t : Nat) :
    getCP false ⟨CONTAINER_TYPE :: TYPE_UINT8 :: CONTAINER_COUNT ::
        (encInt n ++ tail), t⟩ =
      .ok (⟨TYPE_UINT8, true, n.toNat, TYPE_UINT8⟩,
        ⟨tail, t + 3 + (encInt n).length⟩) := by
  unfold getCP
  simp only [read1]
  rw [if_pos trivial]
  rw [if_pos (by decide)]
  unfold getCPTail
  rw [if_pos rfl]
  rw [decodeIntNonNeg_encInt n h0 h1 tail (t + 3)]
  simp only []
  rw [if_neg (by simp [TYPE_UINT8, TYPE_NONE])]

/-- Claim C7, decode side, `no_bytes = false`: a counted array with fixed
type `U` reads exactly `count` raw bytes and yields a `Bytes` value. -/
theorem decodeArray_bytesFast (bs rest : List Nat) (t fuel : Nat)
    (h1 : (bs.length : Int) < 2 ^ 63) :
    decodeArray ⟨false⟩ (fuel + 1)
      ⟨CONTAINER_TYPE :: TYPE_UINT8 :: CONTAINER_COUNT ::
        (encInt (bs.length : Int) ++ (bs ++ rest)), t⟩ =
      .ok (.vbytes bs,
        ⟨rest, t + 3 + (encInt (bs.length : Int)).length + bs.length⟩) := by
  simp only [decodeArray]
  rw [getCP_bytesHeader (bs.length : Int) (by omega) h1 (bs ++ rest) t]
  simp only []
  rw [if_pos trivial, if_pos (by decide)]
  have hc : ((bs.length : Int)).toNat = bs.length := by omega
  rw [hc]
  rw [readB_exact "bytes array" bs rest (t + 3 + (encInt (bs.length : Int)).length)]

/-- Claim C7, decode side, `no_bytes = true`: the same input decodes as a
list of the byte values as individual integers. -/
theorem decodeArray_bytesAsInts (bs rest : List Nat) (t fuel : Nat)
    (h1 : (bs.length : Int) < 2 ^ 63) (hf : bs.length + 1 ≤ fuel) :
    decodeArray ⟨true⟩ (fuel + 1)
      ⟨CONTAINER_TYPE :: TYPE_UINT8 :: CONTAINER_COUNT ::
        (encInt (bs.length : Int) ++ (bs ++ rest)), t⟩ =
      .ok (.varr (vlOfBytes bs),
        ⟨rest, t + 3 + (encInt (bs.length : Int)).length + bs.length⟩) := by
  simp only [decodeArray]
  rw [getCP_bytesHeader (bs.length : Int) (by omega) h1 (bs ++ rest) t]
  simp only []
  rw [if_pos trivial, if_neg (by decide), if_neg (by decide)]
  have hc : ((bs.length : Int)).toNat = bs.length := by omega
  rw [hc]
  have := arrCounted_u8 ⟨true⟩ bs rest .nil
    (t + 3 + (encInt (bs.length : Int)).length) fuel hf
  rw [this]
  rfl

/-- Claim C7: encoding a byte string emits exactly the prefix `[ $ U #`,
the length as a minimal integer, and the raw bytes with no closing `]`;
conversely a counted fixed-type-`U` array of count `n` reads exactly `n`
raw bytes, as a `Bytes` value when `no_bytes` is unset and as a list of
the individual byte values otherwise. -/
theorem c7_byte_array_fast_paths :
    (∀ (p : EPrefs) (fuel : Nat) (bs : List Nat),
      encValue p (fuel + 1) (.vbytes bs) =
        some ([ARRAY_START, CONTAINER_TYPE, TYPE_UINT8, CONTAINER_COUNT] ++
          encInt (bs.length : Int) ++ bs)) ∧
    (∀ (bs rest : List Nat) (t fuel : Nat), (bs.length : Int) < 2 ^ 63 →
      decodeArray ⟨false⟩ (fuel + 1)
        ⟨CONTAINER_TYPE :: TYPE_UINT8 :: CONTAINER_COUNT ::
          (encInt (bs.length : Int) ++ (bs ++ rest)), t⟩ =
        .ok (.vbytes bs,
          ⟨rest, t + 3 + (encInt (bs.length : Int)).length + bs.length⟩)) ∧
    (∀ (bs rest : List Nat) (t fuel : Nat), (bs.length : Int) < 2 ^ 63 →
      bs.length + 1 ≤ fuel →
      decodeArray ⟨true⟩ (fuel + 1)
        ⟨CONTAINER_TYPE :: TYPE_UINT8 :: CONTAINER_COUNT ::
          (encInt (bs.length : Int) ++ (bs ++ rest)), t⟩ =
        .ok (.varr (vlOfBytes bs),
          ⟨rest, t + 3 + (encInt (bs.length : Int)).length + bs.length⟩)) :=
  ⟨fun _ _ _ => rfl,
   fun bs rest t fuel h1 => decodeArray_bytesFast bs rest t fuel h1,
   fun bs rest t fuel h1 hf => decodeArray_bytesAsInts bs rest t fuel h1 hf⟩

theorem c7_byte_array_fast_paths_witness :
    (((3:Nat) : Int) < 2 ^ 63 ∧ (3:Nat) + 1 ≤ 4) ∧
    encValue defaultEPrefs 1 (.vbytes [0xAA, 0xBB, 0xCC]) =
      some ([ARRAY_START, CONTAINER_TYPE, TYPE_UINT8, CONTAINER_COUNT] ++
        encInt 3 ++ [0xAA, 0xBB, 0xCC]) ∧
    decodeArray ⟨false⟩ 4
      ⟨CONTAINER_TYPE :: TYPE_UINT8 :: CONTAINER_COUNT ::
        (encInt ((3:Nat) : Int) ++ ([0xAA, 0xBB, 0xCC] ++ [0x7A])), 1⟩ =
      .ok (.vbytes [0xAA, 0xBB, 0xCC], ⟨[0x7A], 1 + 3 + 2 + 3⟩) ∧
    decodeArray ⟨true⟩ 5
      ⟨CONTAINER_TYPE :: TYPE_UINT8 :: CONTAINER_COUNT ::
        (encInt ((3:Nat) : Int) ++ ([0xAA, 0xBB, 0xCC] ++ [0x7A])), 1⟩ =
      .ok (.varr (vlOfBytes [0xAA, 0xBB, 0xCC]), ⟨[0x7A], 1 + 3 + 2 + 3⟩) := by
  refine ⟨⟨by norm_num, by norm_num⟩, c7_byte_array_fast_paths.1 defaultEPrefs 0 _, ?_, ?_⟩
  · exact (c7_byte_array_fast_paths.2.1 [0xAA, 0xBB, 0xCC] [0x7A] 1 3
      (by norm_num)).trans (by decide)
  · exact (c7_byte_array_fast_paths.2.2 [0xAA, 0xBB, 0xCC] [0x7A] 1 4
      (by norm_num) (by norm_num)).trans (by decide)


/-! ## C5 groundwork: the decimal string of a float is finite -/

theorem digitsRevAux_le : ∀ (fuel n c : Nat), c ∈ digitsRevAux fuel n →
    0x30 ≤ c ∧ c ≤ 0x39
  | 0, _, _ => by intro h; simp [digitsRevAux] at h
  | _ + 1, 0, _ => by intro h; simp [digitsRevAux] at h
  | fuel + 1, n + 1, c => by
    intro h
    simp only [digitsRevAux, List.mem_cons] at h
    rcases h with rfl | h
    · omega
    · exact digitsRevAux_le fuel ((n + 1) / 10) c h

theorem natDigits_le (n c : Nat) (h : c ∈ natDigits n) : 0x30 ≤ c ∧ c ≤ 0x39 := by
  unfold natDigits at h
  split at h
  · simp at h; omega
  · rw [List.mem_reverse] at h
    exact digitsRevAux_le n n c h

theorem decSci_le (sign : Nat) (digits : List Nat) (exp10 : Int)
    (hd : ∀ c ∈ digits, c ≤ 0x39) :
    ∀ c ∈ decSci sign digits exp10, c ≤ 0x45 := by
  have hd45 : ∀ c ∈ digits, c ≤ 0x45 := fun c h => le_trans (hd c h) (by norm_num)
  have hdig : ∀ n, ∀ c ∈ natDigits n, c ≤ 0x45 :=
    fun n c h => le_trans (natDigits_le n c h).2 (by norm_num)
  unfold decSci
  refine (List.forall_mem_append).2 ⟨?_, ?_⟩
  · split <;> simp
  · split
    · split
      · exact hd45
      · split
        · refine (List.forall_mem_append).2 ⟨(List.forall_mem_append).2 ⟨?_, by simp⟩, ?_⟩
          · exact fun c h => hd45 c (List.take_subset _ _ h)
          · exact fun c h => hd45 c (List.drop_subset _ _ h)
        · refine (List.forall_mem_append).2 ⟨(List.forall_mem_append).2 ⟨by simp, ?_⟩, hd45⟩
          intro c h
          rw [List.mem_replicate] at h
          omega
    · refine (List.forall_mem_append).2
        ⟨(List.forall_mem_append).2 ⟨(List.forall_mem_append).2 ⟨?_, by simp⟩, ?_⟩, hdig _⟩
      · rcases digits with _ | ⟨d, rest⟩
        · simp
        · rcases rest with _ | ⟨d2, rest2⟩
          · intro c h
            simp at h
            exact h ▸ hd45 d (by simp)
          · intro c h
            simp at h
            rcases h with rfl | rfl | h
            · exact hd45 c (by simp)
            · norm_num
            · exact hd45 c (by simp [h])
      · split <;> simp
  

theorem decOfFloat_le (b : Nat) : ∀ c ∈ decOfFloat b, c ≤ 0x45 := by
  unfold decOfFloat
  split
  · split <;> simp
  · simp only []
    split
    · exact decSci_le _ _ _ (fun c h => (natDigits_le _ c h).2)
    · exact decSci_le _ _ _ (fun c h => (natDigits_le _ c h).2)

theorem decIsFinite_of_le (s : List Nat) (h : ∀ c ∈ s, c ≤ 0x45) :
    decIsFinite s = true := by
  unfold decIsFinite
  simp only [Bool.and_eq_true, decide_eq_true_eq]
  refine ⟨⟨⟨⟨⟨?_, ?_⟩, ?_⟩, ?_⟩, ?_⟩, ?_⟩ <;> intro heq <;> subst heq
  · exact absurd (h 0x49 (by decide)) (by decide)
  · exact absurd (h 0x49 (by decide)) (by decide)
  · exact absurd (h 0x4E (by decide)) (by decide)
  · exact absurd (h 0x4E (by decide)) (by decide)
  · exact absurd (h 0x73 (by decide)) (by decide)
  · exact absurd (h 0x73 (by decide)) (by decide)

theorem decIsFinite_decOfFloat (b : Nat) : decIsFinite (decOfFloat b) = true :=
  decIsFinite_of_le _ (decOfFloat_le b)


/-! ## C5 groundwork: float32 packing never overflows below 3.4e38 -/

theorem rne_le (s d : Nat) : rne s d ≤ s / d + 1 := by
  simp only [rne]
  split <;> omega

theorem rne_cases (s d : Nat) : rne s d = s / d ∨ rne s d = s / d + 1 := by
  simp only [rne]
  split
  · exact Or.inr rfl
  · exact Or.inl rfl

theorem rne_up (s d : Nat) (h : rne s d = s / d + 1) : d ≤ 2 * (s % d) := by
  simp only [rne] at h
  split at h
  · rename_i hcond
    simp only [Bool.or_eq_true, Bool.and_eq_true, decide_eq_true_eq] at hcond
    omega
  · omega

/-- The two concrete comparisons made by `fabs(num) <= 3.4e38`. -/
theorem fAbsLe_lit34_cases (b : Nat) (hle : fAbsLe b lit34e38 = true) :
    (fPexp b ≤ 1150 ∧ fSig b ≤ fSig lit34e38 * 2 ^ (1150 - fPexp b)) ∨
    (1150 < fPexp b ∧ fSig b * 2 ^ (fPexp b - 1150) ≤ fSig lit34e38) := by
  unfold fAbsLe at hle
  rw [show fPexp lit34e38 = 1150 from by decide] at hle
  split_ifs at hle with h
  · exact Or.inl ⟨h, by rwa [decide_eq_true_eq] at hle⟩
  · exact Or.inr ⟨by omega, by rwa [decide_eq_true_eq] at hle⟩

theorem peL_le_of_fAbsLe (b : Nat) (hs : fSig b ≠ 0)
    (hle : fAbsLe b lit34e38 = true) :
    fPexp b + Nat.log 2 (fSig b) ≤ 1202 := by
  have hL1 : 2 ^ Nat.log 2 (fSig b) ≤ fSig b := Nat.pow_log_le_self 2 hs
  have hsl : fSig lit34e38 < 2 ^ 53 := by decide
  rcases fAbsLe_lit34_cases b hle with ⟨hpe, hineq⟩ | ⟨hpe, hineq⟩
  · have h4 : (2:Nat) ^ (Nat.log 2 (fSig b)) < 2 ^ (53 + (1150 - fPexp b)) := by
      rw [pow_add]
      exact lt_of_le_of_lt (le_trans hL1 hineq)
        (mul_lt_mul_of_pos_right hsl (by positivity))
    have h5 := (Nat.pow_lt_pow_iff_right (by norm_num : 1 < 2)).1 h4
    omega
  · have h2 : (2:Nat) ^ (Nat.log 2 (fSig b) + (fPexp b - 1150)) ≤ fSig lit34e38 := by
      rw [pow_add]
      exact le_trans (Nat.mul_le_mul_right _ hL1) hineq
    have h5 := (Nat.pow_lt_pow_iff_right (by norm_num : 1 < 2)).1 (lt_of_le_of_lt h2 hsl)
    omega

theorem f64toF32_field_ne (b : Nat) (hn : fExp b ≠ 2047)
    (hle : fSig b = 0 ∨ fAbsLe b lit34e38 = true) :
    f64toF32 b / 2 ^ 23 % 2 ^ 8 ≠ 255 := by
  unfold f64toF32
  simp only []
  rw [if_neg hn]
  by_cases hs : fSig b = 0
  · rw [if_pos hs]
    omega
  · rw [if_neg hs]
    have hL1 : 2 ^ Nat.log 2 (fSig b) ≤ fSig b := Nat.pow_log_le_self 2 hs
    have hL2 : fSig b < 2 ^ (Nat.log 2 (fSig b) + 1) :=
      Nat.lt_pow_succ_log_self (by norm_num) _
    have hpeL : fPexp b + Nat.log 2 (fSig b) ≤ 1202 :=
      peL_le_of_fAbsLe b hs (hle.resolve_left hs)
    by_cases h949 : fPexp b + Nat.log 2 (fSig b) < 949
    · rw [if_pos h949]
      by_cases h926 : 926 ≤ fPexp b
      · rw [if_pos h926]
        have hm : fSig b * 2 ^ (fPexp b - 926) < 2 ^ 23 := by
          have h1 : fSig b * 2 ^ (fPexp b - 926) <
              2 ^ (Nat.log 2 (fSig b) + 1 + (fPexp b - 926)) := by
            rw [pow_add]
            exact mul_lt_mul_of_pos_right hL2 (by positivity)
          exact lt_of_lt_of_le h1 (Nat.pow_le_pow_right (by norm_num) (by omega))
        omega
      · rw [if_neg h926]
        have hq : fSig b / 2 ^ (926 - fPexp b) < 2 ^ 23 := by
          apply Nat.div_lt_of_lt_mul
          rw [← pow_add]
          exact lt_of_lt_of_le hL2 (Nat.pow_le_pow_right (by norm_num) (by omega))
        have hm : rne (fSig b) (2 ^ (926 - fPexp b)) ≤ 2 ^ 23 :=
          le_trans (rne_le _ _) (by omega)
        omega
    · rw [if_neg h949]
      by_cases hL23 : Nat.log 2 (fSig b) ≤ 23
      · simp only [if_pos hL23]
        have hm1 : 2 ^ 23 ≤ fSig b * 2 ^ (23 - Nat.log 2 (fSig b)) := by
          have h1 : (2:Nat) ^ Nat.log 2 (fSig b) * 2 ^ (23 - Nat.log 2 (fSig b)) = 2 ^ 23 := by
            rw [← pow_add]
            congr 1
            omega
          rw [← h1]
          exact Nat.mul_le_mul_right _ hL1
        have hm2 : fSig b * 2 ^ (23 - Nat.log 2 (fSig b)) < 2 ^ 24 := by
          have h1 : fSig b * 2 ^ (23 - Nat.log 2 (fSig b)) <
              2 ^ (Nat.log 2 (fSig b) + 1) * 2 ^ (23 - Nat.log 2 (fSig b)) :=
            mul_lt_mul_of_pos_right hL2 (by positivity)
          have h2 : (2:Nat) ^ (Nat.log 2 (fSig b) + 1) * 2 ^ (23 - Nat.log 2 (fSig b)) = 2 ^ 24 := by
            rw [← pow_add]
            congr 1
            omega
          omega
        simp only [if_neg (show ¬ fSig b * 2 ^ (23 - Nat.log 2 (fSig b)) = 2 ^ 24 by omega)]
        rw [if_neg (show ¬ 255 ≤ fPexp b + Nat.log 2 (fSig b) - 948 by omega)]
        omega
      · simp only [if_neg hL23]
        have hq1 : 2 ^ 23 ≤ fSig b / 2 ^ (Nat.log 2 (fSig b) - 23) := by
          apply (Nat.le_div_iff_mul_le (by positivity)).2
          have h1 : (2:Nat) ^ 23 * 2 ^ (Nat.log 2 (fSig b) - 23) = 2 ^ Nat.log 2 (fSig b) := by
            rw [← pow_add]
            congr 1
            omega
          rw [h1]
          exact hL1
        have hq2 : fSig b / 2 ^ (Nat.log 2 (fSig b) - 23) < 2 ^ 24 := by
          apply Nat.div_lt_of_lt_mul
          rw [← pow_add]
          exact lt_of_lt_of_le hL2 (Nat.pow_le_pow_right (by norm_num) (by omega))
        have hrc := rne_cases (fSig b) (2 ^ (Nat.log 2 (fSig b) - 23))
        by_cases hcarry : rne (fSig b) (2 ^ (Nat.log 2 (fSig b) - 23)) = 2 ^ 24
        · have hup : 2 ^ (Nat.log 2 (fSig b) - 23) ≤
              2 * (fSig b % 2 ^ (Nat.log 2 (fSig b) - 23)) := by
            apply rne_up
            omega
        
          have hdm := Nat.div_add_mod (fSig b) (2 ^ (Nat.log 2 (fSig b) - 23))
          have hqv : fSig b / 2 ^ (Nat.log 2 (fSig b) - 23) = 2 ^ 24 - 1 := by omega
          have hsig2 : (2 ^ 25 - 1) * 2 ^ (Nat.log 2 (fSig b) - 23) ≤ 2 * fSig b := by
            rw [hqv] at hdm
            omega
          have hpeL1 : fPexp b + Nat.log 2 (fSig b) ≤ 1201 := by
            by_contra hcon
            have h1202 : fPexp b + Nat.log 2 (fSig b) = 1202 := by omega
            rcases fAbsLe_lit34_cases b (hle.resolve_left hs) with ⟨hpe, hineq⟩ | ⟨hpe, hineq⟩
            · have e1 : (2:Nat) ^ (Nat.log 2 (fSig b) - 23) =
                  2 ^ 29 * 2 ^ (1150 - fPexp b) := by
                rw [← pow_add]
                congr 1
                omega
              have e2 : (2 ^ 25 - 1) * (2 ^ 29 * 2 ^ (1150 - fPexp b)) ≤
                  2 * (fSig lit34e38 * 2 ^ (1150 - fPexp b)) := by
                rw [← e1]
                exact le_trans hsig2 (by omega)
              have e3 : (2 ^ 25 - 1) * 2 ^ 29 ≤ 2 * fSig lit34e38 := by
                apply Nat.le_of_mul_le_mul_right _ (show 0 < (2:Nat) ^ (1150 - fPexp b) by positivity)
                calc (2 ^ 25 - 1) * 2 ^ 29 * 2 ^ (1150 - fPexp b)
                    = (2 ^ 25 - 1) * (2 ^ 29 * 2 ^ (1150 - fPexp b)) := by ring
                  _ ≤ 2 * (fSig lit34e38 * 2 ^ (1150 - fPexp b)) := e2
                  _ = 2 * fSig lit34e38 * 2 ^ (1150 - fPexp b) := by ring
              exact absurd e3 (by decide)
            · have e2 : (2 ^ 25 - 1) * 2 ^ 29 ≤ 2 * fSig lit34e38 := by
                calc (2 ^ 25 - 1) * 2 ^ 29
                    = (2 ^ 25 - 1) * 2 ^ (Nat.log 2 (fSig b) - 23) * 2 ^ (fPexp b - 1150) := by
                      rw [mul_assoc, ← pow_add,
                        show Nat.log 2 (fSig b) - 23 + (fPexp b - 1150) = 29 by omega]
                  _ ≤ 2 * fSig b * 2 ^ (fPexp b - 1150) := Nat.mul_le_mul_right _ hsig2
                  _ = 2 * (fSig b * 2 ^ (fPexp b - 1150)) := by ring
                  _ ≤ 2 * fSig lit34e38 := by omega
              exact absurd e2 (by decide)
          simp only [if_pos hcarry]
          rw [if_neg (show ¬ 255 ≤ fPexp b + Nat.log 2 (fSig b) - 948 + 1 by omega)]
          omega
        · simp only [if_neg hcarry]
          rw [if_neg (show ¬ 255 ≤ fPexp b + Nat.log 2 (fSig b) - 948 by omega)]
          have hm : rne (fSig b) (2 ^ (Nat.log 2 (fSig b) - 23)) < 2 ^ 24 := by
            rcases hrc with h | h <;> omega
          have hm0 : 2 ^ 23 ≤ rne (fSig b) (2 ^ (Nat.log 2 (fSig b) - 23)) := by
            rcases hrc with h | h <;> omega
          omega

theorem pack4_some (b : Nat) (hn : fExp b ≠ 2047)
    (hle : fSig b = 0 ∨ fAbsLe b lit34e38 = true) :
    pack4 b = some (beBytesN 4 (f64toF32 b)) := by
  unfold pack4
  simp only []
  rw [if_neg (fun h => f64toF32_field_ne b hn hle h.1)]


/-- Claim C5: `_encode_PyFloat` emits `Z` for NaN and infinities; for a
zero it packs the 4-byte float32 pattern after `d`; a subnormal goes
through the high-precision decimal path and is emitted with marker `H`;
every other finite value is emitted as `d` plus 4 bytes exactly when
`no_float32` is unset and `|x|` lies within `[1.18e-38, 3.4e38]`, and as
`D` plus the 8 IEEE-754 big-endian bytes otherwise. -/
theorem c5_float_encoding (p : EPrefs) (b : Nat) :
    (fIsNanInf b = true → encFloat p b = some [TYPE_NULL]) ∧
    (fIsZero b = true →
      encFloat p b = some (TYPE_FLOAT32 :: beBytesN 4 (fSign b * 2 ^ 31)) ∧
      (beBytesN 4 (fSign b * 2 ^ 31)).length = 4) ∧
    (fIsSubnormal b = true →
      encFloat p b =
        some (TYPE_HIGH_PREC :: encInt ((decOfFloat b).length : Int) ++ decOfFloat b)) ∧
    (fIsNanInf b = false → fIsZero b = false → fIsSubnormal b = false →
      ((p.no_float32 = false ∧ fAbsLe lit118e38 b = true ∧ fAbsLe b lit34e38 = true) →
        encFloat p b = some (TYPE_FLOAT32 :: beBytesN 4 (f64toF32 b)) ∧
        (beBytesN 4 (f64toF32 b)).length = 4) ∧
      (¬(p.no_float32 = false ∧ fAbsLe lit118e38 b = true ∧ fAbsLe b lit34e38 = true) →
        encFloat p b = some (TYPE_FLOAT64 :: pack8 b) ∧ (pack8 b).length = 8)) := by
  refine ⟨?_, ?_, ?_, ?_⟩
  · intro h
    unfold encFloat
    rw [if_pos h]
  · intro hp
    have h := hp
    simp only [fIsZero, decide_eq_true_eq] at h
    have hn : fExp b ≠ 2047 := by omega
    have hsig : fSig b = 0 := by rw [fSig, if_pos h.1]; exact h.2
    have hval : f64toF32 b = fSign b * 2 ^ 31 := by
      unfold f64toF32
      simp only []
      rw [if_neg hn, if_pos hsig]
    refine ⟨?_, beBytesN_length 4 _⟩
    unfold encFloat
    rw [if_neg (by simp only [fIsNanInf, decide_eq_true_eq]; omega)]
    rw [if_pos hp, pack4_some b hn (Or.inl hsig), hval]
    rfl
  · intro hp
    have h := hp
    simp only [fIsSubnormal, decide_eq_true_eq] at h
    unfold encFloat
    rw [if_neg (by simp only [fIsNanInf, decide_eq_true_eq]; omega)]
    rw [if_neg (by simp only [fIsZero, decide_eq_true_eq]; omega)]
    rw [if_pos hp]
    unfold encDecimal
    rw [if_pos (decIsFinite_decOfFloat b)]
  · intro hni hz hsn
    have hn : fExp b ≠ 2047 := by
      intro hc
      simp [fIsNanInf, hc] at hni
    constructor
    · rintro ⟨hnf, h118, h34⟩
      refine ⟨?_, beBytesN_length 4 _⟩
      unfold encFloat
      rw [if_neg (by simp [hni]), if_neg (by simp [hz]), if_neg (by simp [hsn])]
      rw [if_pos ⟨by simp [hnf], h118, h34⟩]
      rw [pack4_some b hn (Or.inr h34)]
      rfl
    · intro hnot
      refine ⟨?_, beBytesN_length 8 _⟩
      unfold encFloat
      rw [if_neg (by simp [hni]), if_neg (by simp [hz]), if_neg (by simp [hsn])]
      rw [if_neg (fun hc => hnot ⟨by simpa using hc.1, hc.2.1, hc.2.2⟩)]

theorem c5_float_encoding_witness :
    (fIsNanInf 0x7FF8000000000000 = true ∧
      encFloat defaultEPrefs 0x7FF8000000000000 = some [TYPE_NULL]) ∧
    (fIsZero 0x8000000000000000 = true ∧
      encFloat defaultEPrefs 0x8000000000000000 =
        some (TYPE_FLOAT32 :: beBytesN 4 (fSign 0x8000000000000000 * 2 ^ 31))) ∧
    (fIsSubnormal 1 = true ∧
      encFloat defaultEPrefs 1 =
        some (TYPE_HIGH_PREC :: encInt ((decOfFloat 1).length : Int) ++ decOfFloat 1)) ∧
    (encFloat ⟨false, false, false⟩ 0x3FF8000000000000 =
      some (TYPE_FLOAT32 :: beBytesN 4 (f64toF32 0x3FF8000000000000))) ∧
    (encFloat defaultEPrefs 0x3FF8000000000000 =
      some (TYPE_FLOAT64 :: pack8 0x3FF8000000000000)) := by
  refine ⟨⟨by decide, (c5_float_encoding defaultEPrefs _).1 (by decide)⟩,
    ⟨by decide, ((c5_float_encoding defaultEPrefs _).2.1 (by decide)).1⟩,
    ⟨by decide, (c5_float_encoding defaultEPrefs _).2.2.1 (by decide)⟩,
    (((c5_float_encoding ⟨false, false, false⟩ _).2.2.2 (by decide) (by decide)
      (by decide)).1 ⟨rfl, by decide, by decide⟩).1,
    (((c5_float_encoding defaultEPrefs _).2.2.2 (by decide) (by decide)
      (by decide)).2 (by decide)).1⟩


/-! ## C8/C9 groundwork: the markers-set discipline -/

theorem nodup_lt_length_le (l : List Nat) (n : Nat) (hnd : l.Nodup)
    (hbd : ∀ x ∈ l, x < n) : l.length ≤ n := by
  have h1 : l.toFinset.card = l.length := List.toFinset_card_of_nodup hnd
  have h2 : l.toFinset ⊆ Finset.range n := by
    intro x hx
    rw [List.mem_toFinset] at hx
    exact Finset.mem_range.2 (hbd x hx)
  have h3 := Finset.card_le_card h2
  rw [h1, Finset.card_range] at h3
  exact h3

/-- On success the markers set is returned unchanged: the identity added
on entry is discarded after the last element. -/
theorem encodeGAll_preserve (heap : List GNode) : ∀ fuel : Nat,
    (∀ seen id s, encodeG heap fuel seen id = .ok s → s = seen) ∧
    (∀ es seen s, encodeGList heap fuel seen es = .ok s → s = seen) := by
  intro fuel
  induction fuel with
  | zero =>
    refine ⟨fun seen id s h => absurd h (by simp [encodeG]), fun es seen s h => ?_⟩
    rcases es with _ | ⟨e, tl⟩
    · simp only [encodeGList] at h
      injection h with h
      exact h.symm
    · simp only [encodeGList, encodeG] at h
      exact Except.noConfusion h
  | succ fuel ih =>
    have hG : ∀ seen id s, encodeG heap (fuel + 1) seen id = .ok s → s = seen := by
      intro seen id s h
      simp only [encodeG] at h
      rcases hh : heap[id]? with _ | n <;> rw [hh] at h
      · exact Except.noConfusion h
      · rcases n with _ | es | es <;> simp only [] at h
        · injection h with h
          exact h.symm
        · split_ifs at h with hin
          rcases hl : encodeGList heap fuel (id :: seen) es with e2 | s2 <;> rw [hl] at h
          · exact Except.noConfusion h
          · injection h with h
            have h2 := ih.2 es (id :: seen) s2 hl
            subst h2
            rw [← h, List.erase_cons_head]
        · split_ifs at h with hin
          rcases hl : encodeGList heap fuel (id :: seen) es with e2 | s2 <;> rw [hl] at h
          · exact Except.noConfusion h
          · injection h with h
            have h2 := ih.2 es (id :: seen) s2 hl
            subst h2
            rw [← h, List.erase_cons_head]
    refine ⟨hG, ?_⟩
    intro es
    induction es with
    | nil =>
      intro seen s h
      simp only [encodeGList] at h
      injection h with h
      exact h.symm
    | cons e tl ihes =>
      intro seen s h
      simp only [encodeGList] at h
      rcases hg : encodeG heap (fuel + 1) seen e with e2 | s2 <;> rw [hg] at h
      · exact Except.noConfusion h
      · have h2 := hG seen e s2 hg
        rw [h2] at h
        exact ihes seen s h

/-- With a well-formed heap and enough fuel, the only encoder error is
the circular-reference one. -/
theorem encodeGAll_err (heap : List GNode)
    (hwf : ∀ n ∈ heap, ∀ c ∈ childIds n, c < heap.length) : ∀ fuel : Nat,
    (∀ seen id e, seen.Nodup → (∀ x ∈ seen, x < heap.length) →
      heap.length + 2 ≤ fuel + seen.length → id < heap.length →
      encodeG heap fuel seen id = .error e → e = "Circular reference detected") ∧
    (∀ es seen e, seen.Nodup → (∀ x ∈ seen, x < heap.length) →
      heap.length + 2 ≤ fuel + seen.length → (∀ c ∈ es, c < heap.length) →
      encodeGList heap fuel seen es = .error e → e = "Circular reference detected") := by
  intro fuel
  induction fuel with
  | zero =>
    exact ⟨fun seen id e hnd hbd hfl _ _ =>
        absurd (nodup_lt_length_le seen _ hnd hbd) (by omega),
      fun es seen e hnd hbd hfl _ _ =>
        absurd (nodup_lt_length_le seen _ hnd hbd) (by omega)⟩
  | succ fuel ih =>
    have hG : ∀ seen id e, seen.Nodup → (∀ x ∈ seen, x < heap.length) →
        heap.length + 2 ≤ fuel + 1 + seen.length → id < heap.length →
        encodeG heap (fuel + 1) seen id = .error e →
        e = "Circular reference detected" := by
      intro seen id e hnd hbd hfl hid h
      simp only [encodeG] at h
      have hsome : heap[id]? = some heap[id] := List.getElem?_eq_getElem hid
      rw [hsome] at h
      rcases hh2 : heap[id] with _ | es | es <;> rw [hh2] at h <;> simp only [] at h
      · exact Except.noConfusion h
      · split_ifs at h with hin
        · injection h with h
          exact h.symm
        · rcases hl : encodeGList heap fuel (id :: seen) es with e2 | s2 <;> rw [hl] at h
          · injection h with h
            subst h
            refine ih.2 es (id :: seen) e2 (List.nodup_cons.2 ⟨hin, hnd⟩) ?_ (by simp; omega) ?_ hl
            · intro x hx
              rcases List.mem_cons.1 hx with rfl | hx2
              · exact hid
              · exact hbd x hx2
            · intro c hc
              have := hwf heap[id] (List.getElem_mem hid)
              rw [hh2] at this
              exact this c (by simpa [childIds] using hc)
          · exact Except.noConfusion h
      · split_ifs at h with hin
        · injection h with h
          exact h.symm
        · rcases hl : encodeGList heap fuel (id :: seen) es with e2 | s2 <;> rw [hl] at h
          · injection h with h
            subst h
            refine ih.2 es (id :: seen) e2 (List.nodup_cons.2 ⟨hin, hnd⟩) ?_ (by simp; omega) ?_ hl
            · intro x hx
              rcases List.mem_cons.1 hx with rfl | hx2
              · exact hid
              · exact hbd x hx2
            · intro c hc
              have := hwf heap[id] (List.getElem_mem hid)
              rw [hh2] at this
              exact this c (by simpa [childIds] using hc)
          · exact Except.noConfusion h
    refine ⟨hG, ?_⟩
    intro es
    induction es with
    | nil =>
      intro seen e hnd hbd hfl hes h
      simp only [encodeGList] at h
      exact Except.noConfusion h
    | cons c tl ihes =>
      intro seen e hnd hbd hfl hes h
      simp only [encodeGList] at h
      rcases hg : encodeG heap (fuel + 1) seen c with e2 | s2 <;> rw [hg] at h
      · injection h with h
        subst h
        exact hG seen c e2 hnd hbd hfl (hes c (by simp)) hg
      · have h2 := (encodeGAll_preserve heap (fuel + 1)).1 seen c s2 hg
        rw [h2] at h
        exact ihes seen e hnd hbd hfl (fun d hd => hes d (by simp [hd])) h

/-- If encoding from `id` succeeds, no container reachable from `id` was
already in the markers set. -/
theorem encodeGAll_reach (heap : List GNode) : ∀ fuel : Nat,
    (∀ seen id s, encodeG heap fuel seen id = .ok s →
      ∀ y, Relation.ReflTransGen (childRel heap) id y →
        (∃ c, childRel heap y c) → y ∉ seen) ∧
    (∀ es seen s, encodeGList heap fuel seen es = .ok s →
      ∀ c ∈ es, ∀ y, Relation.ReflTransGen (childRel heap) c y →
        (∃ d, childRel heap y d) → y ∉ seen) := by
  intro fuel
  induction fuel with
  | zero =>
    refine ⟨fun seen id s h => absurd h (by simp [encodeG]), fun es seen s h => ?_⟩
    rcases es with _ | ⟨e, tl⟩
    · intro c hc
      exact absurd hc (List.not_mem_nil c)
    · simp only [encodeGList, encodeG] at h
      exact Except.noConfusion h
  | succ fuel ih =>
    have hG : ∀ seen id s, encodeG heap (fuel + 1) seen id = .ok s →
        ∀ y, Relation.ReflTransGen (childRel heap) id y →
          (∃ c, childRel heap y c) → y ∉ seen := by
      intro seen id s h y hy hcy
      simp only [encodeG] at h
      rcases hh : heap[id]? with _ | n <;> rw [hh] at h
      · exact Except.noConfusion h
      · rcases n with _ | es | es <;> simp only [] at h
        · rcases Relation.ReflTransGen.cases_head hy with rfl | ⟨c, hc, hcy2⟩
          · rcases hcy with ⟨c, hc⟩
            unfold childRel at hc
            rw [hh] at hc
            simp [childIds] at hc
          · unfold childRel at hc
            rw [hh] at hc
            simp [childIds] at hc
        · split_ifs at h with hin
          rcases hl : encodeGList heap fuel (id :: seen) es with e2 | s2 <;> rw [hl] at h
          · exact Except.noConfusion h
          · rcases Relation.ReflTransGen.cases_head hy with rfl | ⟨c, hc, hcy2⟩
            · exact hin
            · have hc' : c ∈ es := by
                unfold childRel at hc
                rw [hh] at hc
                simpa [childIds] using hc
              have h3 := ih.2 es (id :: seen) s2 hl c hc' y hcy2 hcy
              exact fun hmem => h3 (List.mem_cons_of_mem _ hmem)
        · split_ifs at h with hin
          rcases hl : encodeGList heap fuel (id :: seen) es with e2 | s2 <;> rw [hl] at h
          · exact Except.noConfusion h
          · rcases Relation.ReflTransGen.cases_head hy with rfl | ⟨c, hc, hcy2⟩
            · exact hin
            · have hc' : c ∈ es := by
                unfold childRel at hc
                rw [hh] at hc
                simpa [childIds] using hc
              have h3 := ih.2 es (id :: seen) s2 hl c hc' y hcy2 hcy
              exact fun hmem => h3 (List.mem_cons_of_mem _ hmem)
    refine ⟨hG, ?_⟩
    intro es
    induction es with
    | nil =>
      intro seen s h c hc
      exact absurd hc (List.not_mem_nil c)
    | cons e tl ihes =>
      intro seen s h c hc y hcy hcont
      simp only [encodeGList] at h
      rcases hg : encodeG heap (fuel + 1) seen e with e2 | s2 <;> rw [hg] at h
      · exact Except.noConfusion h
      · have h2 := (encodeGAll_preserve heap (fuel + 1)).1 seen e s2 hg
        rw [h2] at h hg
        rcases List.mem_cons.1 hc with rfl | hc2
        · exact hG seen c seen hg y hcy hcont
        · exact ihes seen s h c hc2 y hcy hcont

/-- With a well-formed heap, enough fuel, and no reachable cycle, the
encoder succeeds. -/
theorem encodeGAll_ok (heap : List GNode)
    (hwf : ∀ n ∈ heap, ∀ c ∈ childIds n, c < heap.length)
    (hacy : ∀ x, ¬ Relation.TransGen (childRel heap) x x) : ∀ fuel : Nat,
    (∀ seen id, seen.Nodup → (∀ x ∈ seen, x < heap.length) →
      heap.length + 2 ≤ fuel + seen.length → id < heap.length →
      (∀ x ∈ seen, Relation.TransGen (childRel heap) x id) →
      ∃ s, encodeG heap fuel seen id = .ok s) ∧
    (∀ es seen, seen.Nodup → (∀ x ∈ seen, x < heap.length) →
      heap.length + 2 ≤ fuel + seen.length → (∀ c ∈ es, c < heap.length) →
      (∀ c ∈ es, ∀ x ∈ seen, Relation.TransGen (childRel heap) x c) →
      ∃ s, encodeGList heap fuel seen es = .ok s) := by
  intro fuel
  induction fuel with
  | zero =>
    exact ⟨fun seen id hnd hbd hfl _ _ =>
        absurd (nodup_lt_length_le seen _ hnd hbd) (by omega),
      fun es seen hnd hbd hfl _ _ =>
        absurd (nodup_lt_length_le seen _ hnd hbd) (by omega)⟩
  | succ fuel ih =>
    have hG : ∀ seen id, seen.Nodup → (∀ x ∈ seen, x < heap.length) →
        heap.length + 2 ≤ fuel + 1 + seen.length → id < heap.length →
        (∀ x ∈ seen, Relation.TransGen (childRel heap) x id) →
        ∃ s, encodeG heap (fuel + 1) seen id = .ok s := by
      intro seen id hnd hbd hfl hid hpath
      have hsome : heap[id]? = some heap[id] := List.getElem?_eq_getElem hid
      simp only [encodeG]
      rw [hsome]
      have hedge : ∀ es, heap[id] = .garr es ∨ heap[id] = .gobj es →
          ∀ c ∈ es, childRel heap id c := by
        intro es hcase c hc
        unfold childRel
        rw [hsome]
        rcases hcase with hc2 | hc2 <;> rw [hc2] <;> simpa [childIds]
      have hbnd : ∀ es, heap[id] = .garr es ∨ heap[id] = .gobj es →
          ∀ c ∈ es, c < heap.length := by
        intro es hcase c hc
        have h4 := hwf heap[id] (List.getElem_mem hid)
        rcases hcase with hc2 | hc2 <;> rw [hc2] at h4 <;>
          exact h4 c (by simpa [childIds] using hc)
      rcases hh2 : heap[id] with _ | es | es <;> simp only []
      · exact ⟨seen, rfl⟩
      · have hin : id ∉ seen := fun hmem => hacy id (hpath id hmem)
        rw [if_neg hin]
        obtain ⟨s2, hl⟩ := ih.2 es (id :: seen) (List.nodup_cons.2 ⟨hin, hnd⟩)
          (fun x hx => by
            rcases List.mem_cons.1 hx with rfl | hx2
            · exact hid
            · exact hbd x hx2)
          (by simp; omega)
          (hbnd es (Or.inl hh2))
          (fun c hc x hx => by
            rcases List.mem_cons.1 hx with rfl | hx2
            · exact Relation.TransGen.single (hedge es (Or.inl hh2) c hc)
            · exact (hpath x hx2).tail (hedge es (Or.inl hh2) c hc))
        rw [hl]
        exact ⟨s2.erase id, rfl⟩
      · have hin : id ∉ seen := fun hmem => hacy id (hpath id hmem)
        rw [if_neg hin]
        obtain ⟨s2, hl⟩ := ih.2 es (id :: seen) (List.nodup_cons.2 ⟨hin, hnd⟩)
          (fun x hx => by
            rcases List.mem_cons.1 hx with rfl | hx2
            · exact hid
            · exact hbd x hx2)
          (by simp; omega)
          (hbnd es (Or.inr hh2))
          (fun c hc x hx => by
            rcases List.mem_cons.1 hx with rfl | hx2
            · exact Relation.TransGen.single (hedge es (Or.inr hh2) c hc)
            · exact (hpath x hx2).tail (hedge es (Or.inr hh2) c hc))
        rw [hl]
        exact ⟨s2.erase id, rfl⟩
    refine ⟨hG, ?_⟩
    intro es
    induction es with
    | nil =>
      intro seen hnd hbd hfl hes hpaths
      exact ⟨seen, by simp only [encodeGList]⟩
    | cons e tl ihes =>
      intro seen hnd hbd hfl hes hpaths
      obtain ⟨s2, hg⟩ := hG seen e hnd hbd hfl (hes e (by simp))
        (fun x hx => hpaths e (by simp) x hx)
      have h2 := (encodeGAll_preserve heap (fuel + 1)).1 seen e s2 hg
      rw [h2] at hg
      obtain ⟨s3, hl⟩ := ihes seen hnd hbd hfl (fun d hd => hes d (by simp [hd]))
        (fun d hd x hx => hpaths d (by simp [hd]) x hx)
      refine ⟨s3, ?_⟩
      simp only [encodeGList]
      rw [hg]
      exact hl

/-- A rank function decreasing along containment proves acyclicity. -/
theorem acyclic_of_rank (heap : List GNode) (rank : Nat → Nat)
    (hr : ∀ x y, childRel heap x y → rank y < rank x) :
    ∀ x, ¬ Relation.TransGen (childRel heap) x x := by
  intro x hx
  have h : ∀ a b, Relation.TransGen (childRel heap) a b → rank b < rank a := by
    intro a b hab
    induction hab with
    | single h1 => exact hr _ _ h1
    | tail _ h2 ih => exact lt_trans (hr _ _ h2) ih
  exact absurd (h x x hx) (lt_irrefl _)


/-- Claim C8: a sequence or mapping that contains itself, directly or
transitively through nested containers, fails to encode with the message
"Circular reference detected" (an error result, so no complete output is
produced). -/
theorem c8_circular_reference (heap : List GNode) (r fuel : Nat)
    (hwf : ∀ n ∈ heap, ∀ c ∈ childIds n, c < heap.length)
    (hfuel : heap.length + 2 ≤ fuel)
    (hcyc : Relation.TransGen (childRel heap) r r) :
    encodeG heap fuel [] r = .error "Circular reference detected" := by
  obtain ⟨c, hc, hrtg⟩ := (Relation.TransGen.head'_iff).1 hcyc
  have hr : r < heap.length := by
    by_contra hnr
    unfold childRel at hc
    rw [List.getElem?_eq_none (by omega)] at hc
    exact hc
  rcases hres : encodeG heap fuel [] r with e | s
  · have he := (encodeGAll_err heap hwf fuel).1 [] r e List.nodup_nil (by simp)
      (by simpa using hfuel) hr hres
    rw [he]
  · exfalso
    obtain ⟨f, rfl⟩ : ∃ f, fuel = f + 1 := ⟨fuel - 1, by omega⟩
    have hsome : heap[r]? = some heap[r] := List.getElem?_eq_getElem hr
    simp only [encodeG] at hres
    rw [hsome] at hres
    rcases hh2 : heap[r] with _ | es | es <;> rw [hh2] at hres <;> simp only [] at hres
    · unfold childRel at hc
      rw [hsome, hh2] at hc
      simp [childIds] at hc
    · split_ifs at hres with hin
      rcases hl : encodeGList heap f [r] es with e2 | s2 <;> rw [hl] at hres
      · exact Except.noConfusion hres
      · have hc' : c ∈ es := by
          unfold childRel at hc
          rw [hsome, hh2] at hc
          simpa [childIds] using hc
        exact (encodeGAll_reach heap f).2 es [r] s2 hl c hc' r hrtg ⟨c, hc⟩ (by simp)
    · split_ifs at hres with hin
      rcases hl : encodeGList heap f [r] es with e2 | s2 <;> rw [hl] at hres
      · exact Except.noConfusion hres
      · have hc' : c ∈ es := by
          unfold childRel at hc
          rw [hsome, hh2] at hc
          simpa [childIds] using hc
        exact (encodeGAll_reach heap f).2 es [r] s2 hl c hc' r hrtg ⟨c, hc⟩ (by simp)

theorem c8_circular_reference_witness :
    Relation.TransGen (childRel [GNode.garr [0]]) 0 0 ∧
    encodeG [GNode.garr [0]] 3 [] 0 = .error "Circular reference detected" := by
  have h0 : childRel [GNode.garr [0]] 0 0 := by simp [childRel, childIds]
  exact ⟨Relation.TransGen.single h0,
    c8_circular_reference [GNode.garr [0]] 0 3 (by decide) (by decide)
      (Relation.TransGen.single h0)⟩

/-- Claim C9: the markers set holds exactly the containers on the current
recursion path — the identity added on entry is discarded after the last
element, so a successful call returns the set unchanged — and therefore
an acyclic heap in which one container object occurs at several distinct
positions still encodes successfully. -/
theorem c9_markers_invariant (heap : List GNode) :
    (∀ fuel seen id s, encodeG heap fuel seen id = .ok s → s = seen) ∧
    (∀ fuel seen es s, encodeGList heap fuel seen es = .ok s → s = seen) ∧
    (∀ r fuel,
      (∀ n ∈ heap, ∀ c ∈ childIds n, c < heap.length) →
      (∀ x, ¬ Relation.TransGen (childRel heap) x x) →
      r < heap.length → heap.length + 2 ≤ fuel →
      encodeG heap fuel [] r = .ok []) := by
  refine ⟨fun fuel seen id s h => (encodeGAll_preserve heap fuel).1 seen id s h,
    fun fuel seen es s h => (encodeGAll_preserve heap fuel).2 es seen s h,
    fun r fuel hwf hacy hr hfl => ?_⟩
  obtain ⟨s, hs⟩ := (encodeGAll_ok heap hwf hacy fuel).1 [] r List.nodup_nil
    (by simp) (by simpa using hfl) hr (by simp)
  have he := (encodeGAll_preserve heap fuel).1 [] r s hs
  rw [hs, he]

theorem c9_markers_invariant_witness :
    encodeG [GNode.garr [1, 1], GNode.garr [2, 2], GNode.gleaf] 5 [] 0 =
      .ok [] := by
  have hrank : ∀ x y, childRel [GNode.garr [1, 1], GNode.garr [2, 2], GNode.gleaf] x y →
      2 - y < 2 - x := by
    intro x y h
    rcases x with _ | _ | _ | x <;> simp [childRel, childIds] at h <;> omega
  exact (c9_markers_invariant _).2.2 0 5 (by decide)
    (acyclic_of_rank _ (fun z => 2 - z) hrank)
    (by decide)
    (by decide)


/-! ## C10 groundwork: decoding only consumes the front of the buffer -/

theorem okExt {α : Type} (a a' : α) (d rem : List Nat) (t n : Nat) (ext : List Nat)
    (h : (Except.ok (a, (⟨d, t⟩ : DSt)) : DRes α) = .ok (a', ⟨rem, n⟩)) :
    (Except.ok (a, (⟨d ++ ext, t⟩ : DSt)) : DRes α) = .ok (a', ⟨rem ++ ext, n⟩) := by
  simp only [Except.ok.injEq, Prod.mk.injEq, DSt.mk.injEq] at h ⊢
  exact ⟨h.1, by rw [h.2.1], h.2.2⟩

theorem read1_ext (item : String) (d : List Nat) (t0 : Nat) (ext : List Nat)
    (m : Nat) (rem : List Nat) (n : Nat)
    (h : read1 item ⟨d, t0⟩ = .ok (m, ⟨rem, n⟩)) :
    read1 item ⟨d ++ ext, t0⟩ = .ok (m, ⟨rem ++ ext, n⟩) := by
  rcases d with _ | ⟨b, tl⟩
  · exact Except.noConfusion h
  · simp only [read1, List.cons_append] at h ⊢
    exact okExt _ _ _ _ _ _ _ h

theorem readB_ext (item : String) (k : Nat) (d : List Nat) (t0 : Nat)
    (ext : List Nat) (bs rem : List Nat) (n : Nat)
    (h : readB item k ⟨d, t0⟩ = .ok (bs, ⟨rem, n⟩)) :
    readB item k ⟨d ++ ext, t0⟩ = .ok (bs, ⟨rem ++ ext, n⟩) := by
  unfold readB at h ⊢
  simp only [] at h ⊢
  by_cases h1 : k = 0
  · rw [if_pos h1] at h ⊢
    exact okExt _ _ _ _ _ _ _ h
  · rw [if_neg h1] at h ⊢
    by_cases h2 : d.isEmpty
    · rw [if_pos h2] at h
      exact Except.noConfusion h
    · rw [if_neg h2] at h
      rw [if_neg (show ¬((d ++ ext).isEmpty = true) by
        rcases d with _ | ⟨x, xs⟩
        · exact absurd rfl h2
        · simp)]
      by_cases h3 : k ≤ d.length
      · rw [if_pos h3] at h
        rw [if_pos (by simp; omega)]
        rw [List.take_append_of_le_length h3, List.drop_append_of_le_length h3]
        exact okExt _ _ _ _ _ _ _ h
      · rw [if_neg h3] at h
        exact Except.noConfusion h

theorem decodeInt8_ext (d : List Nat) (t0 : Nat) (ext : List Nat)
    (v : Int) (rem : List Nat) (n : Nat)
    (h : decodeInt8 ⟨d, t0⟩ = .ok (v, ⟨rem, n⟩)) :
    decodeInt8 ⟨d ++ ext, t0⟩ = .ok (v, ⟨rem ++ ext, n⟩) := by
  unfold decodeInt8 at h ⊢
  rcases hr : read1 "int8" (⟨d, t0⟩ : DSt) with e | ⟨b, d1, t1⟩ <;> rw [hr] at h
  · exact Except.noConfusion h
  · rw [read1_ext _ _ _ ext _ _ _ hr]
    simp only [] at h ⊢
    exact okExt _ _ _ _ _ _ _ h

theorem decodeUint8_ext (d : List Nat) (t0 : Nat) (ext : List Nat)
    (v : Int) (rem : List Nat) (n : Nat)
    (h : decodeUint8 ⟨d, t0⟩ = .ok (v, ⟨rem, n⟩)) :
    decodeUint8 ⟨d ++ ext, t0⟩ = .ok (v, ⟨rem ++ ext, n⟩) := by
  unfold decodeUint8 at h ⊢
  rcases hr : read1 "uint8" (⟨d, t0⟩ : DSt) with e | ⟨b, d1, t1⟩ <;> rw [hr] at h
  · exact Except.noConfusion h
  · rw [read1_ext _ _ _ ext _ _ _ hr]
    simp only [] at h ⊢
    exact okExt _ _ _ _ _ _ _ h

theorem decodeIntBE_ext (item : String) (w : Nat) (d : List Nat) (t0 : Nat)
    (ext : List Nat) (v : Int) (rem : List Nat) (n : Nat)
    (h : decodeIntBE item w ⟨d, t0⟩ = .ok (v, ⟨rem, n⟩)) :
    decodeIntBE item w ⟨d ++ ext, t0⟩ = .ok (v, ⟨rem ++ ext, n⟩) := by
  unfold decodeIntBE at h ⊢
  rcases hr : readB item w (⟨d, t0⟩ : DSt) with e | ⟨bs, d1, t1⟩ <;> rw [hr] at h
  · exact Except.noConfusion h
  · rw [readB_ext _ _ _ _ ext _ _ _ hr]
    simp only [] at h ⊢
    exact okExt _ _ _ _ _ _ _ h

theorem intDispatch_ext (m : Nat) (d : List Nat) (t0 : Nat) (ext : List Nat)
    (v : Int) (rem : List Nat) (n : Nat)
    (h : (if m = TYPE_INT8 then decodeInt8 ⟨d, t0⟩
          else if m = TYPE_UINT8 then decodeUint8 ⟨d, t0⟩
          else if m = TYPE_INT16 then decodeIntBE "int16/32" 2 ⟨d, t0⟩
          else if m = TYPE_INT32 then decodeIntBE "int16/32" 4 ⟨d, t0⟩
          else if m = TYPE_INT64 then decodeIntBE "int64" 8 ⟨d, t0⟩
          else .error ⟨"Integer marker expected", t0⟩) = .ok (v, ⟨rem, n⟩)) :
    (if m = TYPE_INT8 then decodeInt8 ⟨d ++ ext, t0⟩
     else if m = TYPE_UINT8 then decodeUint8 ⟨d ++ ext, t0⟩
     else if m = TYPE_INT16 then decodeIntBE "int16/32" 2 ⟨d ++ ext, t0⟩
     else if m = TYPE_INT32 then decodeIntBE "int16/32" 4 ⟨d ++ ext, t0⟩
     else if m = TYPE_INT64 then decodeIntBE "int64" 8 ⟨d ++ ext, t0⟩
     else .error ⟨"Integer marker expected", t0⟩) = .ok (v, ⟨rem ++ ext, n⟩) := by
  split_ifs at h ⊢ with h1 h2 h3 h4 h5
  · exact decodeInt8_ext _ _ _ _ _ _ h
  · exact decodeUint8_ext _ _ _ _ _ _ h
  · exact decodeIntBE_ext _ _ _ _ _ _ _ _ h
  · exact decodeIntBE_ext _ _ _ _ _ _ _ _ h
  · exact decodeIntBE_ext _ _ _ _ _ _ _ _ h

theorem decodeIntNonNeg_ext (given : Option Nat) (d : List Nat) (t0 : Nat)
    (ext : List Nat) (a : Nat) (rem : List Nat) (n : Nat)
    (h : decodeIntNonNeg given ⟨d, t0⟩ = .ok (a, ⟨rem, n⟩)) :
    decodeIntNonNeg given ⟨d ++ ext, t0⟩ = .ok (a, ⟨rem ++ ext, n⟩) := by
  unfold decodeIntNonNeg at h ⊢
  rcases given with _ | m
  · rcases hr : read1 "Length marker" (⟨d, t0⟩ : DSt) with e | ⟨m, d1, t1⟩ <;> rw [hr] at h
    · exact Except.noConfusion h
    · rw [read1_ext _ _ _ ext _ _ _ hr]
      simp only [] at h ⊢
      rcases hd : (if m = TYPE_INT8 then decodeInt8 (⟨d1, t1⟩ : DSt)
          else if m = TYPE_UINT8 then decodeUint8 ⟨d1, t1⟩
          else if m = TYPE_INT16 then decodeIntBE "int16/32" 2 ⟨d1, t1⟩
          else if m = TYPE_INT32 then decodeIntBE "int16/32" 4 ⟨d1, t1⟩
          else if m = TYPE_INT64 then decodeIntBE "int64" 8 ⟨d1, t1⟩
          else .error ⟨"Integer marker expected", t1⟩) with e | ⟨vv, d2, t2⟩ <;>
        rw [hd] at h
      · exact Except.noConfusion h
      · rw [intDispatch_ext _ _ _ ext _ _ _ hd]
        simp only [] at h ⊢
        split_ifs at h ⊢ with hneg
        exact okExt _ _ _ _ _ _ _ h
  · simp only [] at h ⊢
    rcases hd : (if m = TYPE_INT8 then decodeInt8 (⟨d, t0⟩ : DSt)
        else if m = TYPE_UINT8 then decodeUint8 ⟨d, t0⟩
        else if m = TYPE_INT16 then decodeIntBE "int16/32" 2 ⟨d, t0⟩
        else if m = TYPE_INT32 then decodeIntBE "int16/32" 4 ⟨d, t0⟩
        else if m = TYPE_INT64 then decodeIntBE "int64" 8 ⟨d, t0⟩
        else .error ⟨"Integer marker expected", t0⟩) with e | ⟨vv, d2, t2⟩ <;>
      rw [hd] at h
    · exact Except.noConfusion h
    · rw [intDispatch_ext _ _ _ ext _ _ _ hd]
      simp only [] at h ⊢
      split_ifs at h ⊢ with hneg
      exact okExt _ _ _ _ _ _ _ h


theorem decodeFloat32_ext (d : List Nat) (t0 : Nat) (ext : List Nat)
    (v : Value) (rem : List Nat) (n : Nat)
    (h : decodeFloat32 ⟨d, t0⟩ = .ok (v, ⟨rem, n⟩)) :
    decodeFloat32 ⟨d ++ ext, t0⟩ = .ok (v, ⟨rem ++ ext, n⟩) := by
  unfold decodeFloat32 at h ⊢
  rcases hr : readB "float32" 4 (⟨d, t0⟩ : DSt) with e | ⟨bs, d1, t1⟩ <;> rw [hr] at h
  · exact Except.noConfusion h
  · rw [readB_ext _ _ _ _ ext _ _ _ hr]
    simp only [] at h ⊢
    exact okExt _ _ _ _ _ _ _ h

theorem decodeFloat64_ext (d : List Nat) (t0 : Nat) (ext : List Nat)
    (v : Value) (rem : List Nat) (n : Nat)
    (h : decodeFloat64 ⟨d, t0⟩ = .ok (v, ⟨rem, n⟩)) :
    decodeFloat64 ⟨d ++ ext, t0⟩ = .ok (v, ⟨rem ++ ext, n⟩) := by
  unfold decodeFloat64 at h ⊢
  rcases hr : readB "float64" 8 (⟨d, t0⟩ : DSt) with e | ⟨bs, d1, t1⟩ <;> rw [hr] at h
  · exact Except.noConfusion h
  · rw [readB_ext _ _ _ _ ext _ _ _ hr]
    simp only [] at h ⊢
    exact okExt _ _ _ _ _ _ _ h

theorem decodeHighPrec_ext (d : List Nat) (t0 : Nat) (ext : List Nat)
    (v : Value) (rem : List Nat) (n : Nat)
    (h : decodeHighPrec ⟨d, t0⟩ = .ok (v, ⟨rem, n⟩)) :
    decodeHighPrec ⟨d ++ ext, t0⟩ = .ok (v, ⟨rem ++ ext, n⟩) := by
  unfold decodeHighPrec at h ⊢
  rcases hl : decodeIntNonNeg none (⟨d, t0⟩ : DSt) with e | ⟨len, d1, t1⟩ <;> rw [hl] at h
  · exact Except.noConfusion h
  · rw [decodeIntNonNeg_ext _ _ _ ext _ _ _ hl]
    simp only [] at h ⊢
    rcases hr : readB "highprec" len (⟨d1, t1⟩ : DSt) with e | ⟨raw, d2, t2⟩ <;> rw [hr] at h
    · exact Except.noConfusion h
    · rw [readB_ext _ _ _ _ ext _ _ _ hr]
      simp only [] at h ⊢
      split_ifs at h ⊢ with hu
      exact okExt _ _ _ _ _ _ _ h

theorem decodeChar_ext (d : List Nat) (t0 : Nat) (ext : List Nat)
    (v : Value) (rem : List Nat) (n : Nat)
    (h : decodeChar ⟨d, t0⟩ = .ok (v, ⟨rem, n⟩)) :
    decodeChar ⟨d ++ ext, t0⟩ = .ok (v, ⟨rem ++ ext, n⟩) := by
  unfold decodeChar at h ⊢
  rcases hr : read1 "char" (⟨d, t0⟩ : DSt) with e | ⟨b, d1, t1⟩ <;> rw [hr] at h
  · exact Except.noConfusion h
  · rw [read1_ext _ _ _ ext _ _ _ hr]
    simp only [] at h ⊢
    split_ifs at h ⊢ with hu
    exact okExt _ _ _ _ _ _ _ h

theorem decodeString_ext (d : List Nat) (t0 : Nat) (ext : List Nat)
    (v : Value) (rem : List Nat) (n : Nat)
    (h : decodeString ⟨d, t0⟩ = .ok (v, ⟨rem, n⟩)) :
    decodeString ⟨d ++ ext, t0⟩ = .ok (v, ⟨rem ++ ext, n⟩) := by
  unfold decodeString at h ⊢
  rcases hl : decodeIntNonNeg none (⟨d, t0⟩ : DSt) with e | ⟨len, d1, t1⟩ <;> rw [hl] at h
  · exact Except.noConfusion h
  · rw [decodeIntNonNeg_ext _ _ _ ext _ _ _ hl]
    simp only [] at h ⊢
    split_ifs at h ⊢ with hpos
    · rcases hr : readB "string" len (⟨d1, t1⟩ : DSt) with e | ⟨raw, d2, t2⟩ <;> rw [hr] at h
      · exact Except.noConfusion h
      · rw [readB_ext _ _ _ _ ext _ _ _ hr]
        simp only [] at h ⊢
        split_ifs at h ⊢ with hu
        exact okExt _ _ _ _ _ _ _ h
    · exact okExt _ _ _ _ _ _ _ h

theorem decodeKeyRaw_ext (marker : Nat) (d : List Nat) (t0 : Nat) (ext : List Nat)
    (k rem : List Nat) (n : Nat)
    (h : decodeKeyRaw marker ⟨d, t0⟩ = .ok (k, ⟨rem, n⟩)) :
    decodeKeyRaw marker ⟨d ++ ext, t0⟩ = .ok (k, ⟨rem ++ ext, n⟩) := by
  unfold decodeKeyRaw at h ⊢
  rcases hl : decodeIntNonNeg (some marker) (⟨d, t0⟩ : DSt) with e | ⟨len, d1, t1⟩ <;> rw [hl] at h
  · exact Except.noConfusion h
  · rw [decodeIntNonNeg_ext _ _ _ ext _ _ _ hl]
    simp only [] at h ⊢
    rcases hr : readB "string" len (⟨d1, t1⟩ : DSt) with e | ⟨raw, d2, t2⟩ <;> rw [hr] at h
    · exact Except.noConfusion h
    · rw [readB_ext _ _ _ _ ext _ _ _ hr]
      simp only [] at h ⊢
      split_ifs at h ⊢ with hu
      exact okExt _ _ _ _ _ _ _ h

theorem decodeKey_ext (ctx : String) (marker : Nat) (d : List Nat) (t0 : Nat)
    (ext : List Nat) (k rem : List Nat) (n : Nat)
    (h : decodeKey ctx marker ⟨d, t0⟩ = .ok (k, ⟨rem, n⟩)) :
    decodeKey ctx marker ⟨d ++ ext, t0⟩ = .ok (k, ⟨rem ++ ext, n⟩) := by
  unfold decodeKey at h ⊢
  rcases hr : decodeKeyRaw marker (⟨d, t0⟩ : DSt) with e | ⟨r, d1, t1⟩ <;> rw [hr] at h
  · exact Except.noConfusion h
  · rw [decodeKeyRaw_ext _ _ _ ext _ _ _ hr]
    simp only [] at h ⊢
    exact okExt _ _ _ _ _ _ _ h

theorem getCPTail_ext (inM : Bool) (ty m3 : Nat) (d : List Nat) (t0 : Nat)
    (ext : List Nat) (ps : CParams) (rem : List Nat) (n : Nat)
    (h : getCPTail inM ty m3 ⟨d, t0⟩ = .ok (ps, ⟨rem, n⟩)) :
    getCPTail inM ty m3 ⟨d ++ ext, t0⟩ = .ok (ps, ⟨rem ++ ext, n⟩) := by
  unfold getCPTail at h ⊢
  split_ifs at h ⊢ with h1 h2
  · rcases hl : decodeIntNonNeg none (⟨d, t0⟩ : DSt) with e | ⟨count, d1, t1⟩ <;> rw [hl] at h
    · exact Except.noConfusion h
    · rw [decodeIntNonNeg_ext _ _ _ ext _ _ _ hl]
      simp only [] at h ⊢
      split_ifs at h ⊢ with h3
      · rcases hr : read1 "1st key/value type" (⟨d1, t1⟩ : DSt) with e | ⟨m4, d2, t2⟩ <;>
          rw [hr] at h
        · exact Except.noConfusion h
        · rw [read1_ext _ _ _ ext _ _ _ hr]
          simp only [] at h ⊢
          exact okExt _ _ _ _ _ _ _ h
      · exact okExt _ _ _ _ _ _ _ h
  · exact okExt _ _ _ _ _ _ _ h

theorem getCP_ext (inM : Bool) (d : List Nat) (t0 : Nat) (ext : List Nat)
    (ps : CParams) (rem : List Nat) (n : Nat)
    (h : getCP inM ⟨d, t0⟩ = .ok (ps, ⟨rem, n⟩)) :
    getCP inM ⟨d ++ ext, t0⟩ = .ok (ps, ⟨rem ++ ext, n⟩) := by
  unfold getCP at h ⊢
  rcases hr : read1 "container type, count or 1st key/value type" (⟨d, t0⟩ : DSt) with
    e | ⟨m1, d1, t1⟩ <;> rw [hr] at h
  · exact Except.noConfusion h
  · rw [read1_ext _ _ _ ext _ _ _ hr]
    simp only [] at h ⊢
    split_ifs at h ⊢ with h1
    · rcases hr2 : read1 "container type" (⟨d1, t1⟩ : DSt) with e | ⟨m2, d2, t2⟩ <;>
        rw [hr2] at h
      · exact Except.noConfusion h
      · rw [read1_ext _ _ _ ext _ _ _ hr2]
        simp only [] at h ⊢
        split_ifs at h ⊢ with h2
        · rcases hr3 : read1 "container count or 1st key/value type" (⟨d2, t2⟩ : DSt) with
            e | ⟨m3, d3, t3⟩ <;> rw [hr3] at h
          · exact Except.noConfusion h
          · rw [read1_ext _ _ _ ext _ _ _ hr3]
            simp only [] at h ⊢
            exact getCPTail_ext _ _ _ _ _ ext _ _ _ h
    · exact getCPTail_ext _ _ _ _ _ ext _ _ _ h

theorem objNoData_ext (ty : Nat) : ∀ (count marker : Nat) (acc : KVList)
    (d : List Nat) (t0 : Nat) (ext : List Nat) (v : Value) (rem : List Nat) (n : Nat),
    objNoData ty count marker acc ⟨d, t0⟩ = .ok (v, ⟨rem, n⟩) →
    objNoData ty count marker acc ⟨d ++ ext, t0⟩ = .ok (v, ⟨rem ++ ext, n⟩) := by
  intro count
  induction count with
  | zero =>
    intro marker acc d t0 ext v rem n h
    simp only [objNoData] at h ⊢
    exact okExt _ _ _ _ _ _ _ h
  | succ count ih =>
    intro marker acc d t0 ext v rem n h
    simp only [objNoData] at h ⊢
    rcases hk : decodeKey "sized, no data" marker (⟨d, t0⟩ : DSt) with e | ⟨k, d1, t1⟩ <;>
      rw [hk] at h
    · exact Except.noConfusion h
    · rw [decodeKey_ext _ _ _ _ ext _ _ _ hk]
      simp only [] at h ⊢
      split_ifs at h ⊢ with h1
      · rcases hr : read1 "object key length" (⟨d1, t1⟩ : DSt) with e | ⟨m2, d2, t2⟩ <;>
          rw [hr] at h
        · exact Except.noConfusion h
        · rw [read1_ext _ _ _ ext _ _ _ hr]
          simp only [] at h ⊢
          exact ih _ _ _ _ ext _ _ _ h
      · exact okExt _ _ _ _ _ _ _ h


set_option maxHeartbeats 2000000

/-- Combined prefix-extension and fuel-monotonicity over the mutual
decoder: a successful parse of the front of the buffer is unchanged by
appending bytes, which then just sit in the remaining input. -/
theorem decodeExtAll (p : DPrefs) : ∀ fuel' : Nat, ∀ fuel : Nat, fuel ≤ fuel' →
    (∀ given d t0 ext v rem n,
      decodeValue p fuel given ⟨d, t0⟩ = .ok (v, ⟨rem, n⟩) →
      decodeValue p fuel' given ⟨d ++ ext, t0⟩ = .ok (v, ⟨rem ++ ext, n⟩)) ∧
    (∀ d t0 ext v rem n,
      decodeArray p fuel ⟨d, t0⟩ = .ok (v, ⟨rem, n⟩) →
      decodeArray p fuel' ⟨d ++ ext, t0⟩ = .ok (v, ⟨rem ++ ext, n⟩)) ∧
    (∀ ty count marker acc d t0 ext v rem n,
      arrCounted p fuel ty count marker acc ⟨d, t0⟩ = .ok (v, ⟨rem, n⟩) →
      arrCounted p fuel' ty count marker acc ⟨d ++ ext, t0⟩ = .ok (v, ⟨rem ++ ext, n⟩)) ∧
    (∀ ty marker acc d t0 ext v rem n,
      arrUncounted p fuel ty marker acc ⟨d, t0⟩ = .ok (v, ⟨rem, n⟩) →
      arrUncounted p fuel' ty marker acc ⟨d ++ ext, t0⟩ = .ok (v, ⟨rem ++ ext, n⟩)) ∧
    (∀ counting count marker fixedTy acc d t0 ext v rem n,
      objLoop p fuel counting count marker fixedTy acc ⟨d, t0⟩ = .ok (v, ⟨rem, n⟩) →
      objLoop p fuel' counting count marker fixedTy acc ⟨d ++ ext, t0⟩ =
        .ok (v, ⟨rem ++ ext, n⟩)) ∧
    (∀ d t0 ext v rem n,
      decodeObject p fuel ⟨d, t0⟩ = .ok (v, ⟨rem, n⟩) →
      decodeObject p fuel' ⟨d ++ ext, t0⟩ = .ok (v, ⟨rem ++ ext, n⟩)) := by
  intro fuel'
  induction fuel' with
  | zero =>
    intro fuel hf
    obtain rfl : fuel = 0 := Nat.le_zero.mp hf
    exact ⟨fun _ _ _ _ _ _ _ h => Except.noConfusion h,
      fun _ _ _ _ _ _ h => Except.noConfusion h,
      fun _ _ _ _ _ _ _ _ _ _ h => Except.noConfusion h,
      fun _ _ _ _ _ _ _ _ _ h => Except.noConfusion h,
      fun _ _ _ _ _ _ _ _ _ _ _ h => Except.noConfusion h,
      fun _ _ _ _ _ _ h => Except.noConfusion h⟩
  | succ F ih =>
    intro fuel hf
    rcases fuel with _ | f
    · exact ⟨fun _ _ _ _ _ _ _ h => Except.noConfusion h,
        fun _ _ _ _ _ _ h => Except.noConfusion h,
        fun _ _ _ _ _ _ _ _ _ _ h => Except.noConfusion h,
        fun _ _ _ _ _ _ _ _ _ h => Except.noConfusion h,
        fun _ _ _ _ _ _ _ _ _ _ _ h => Except.noConfusion h,
        fun _ _ _ _ _ _ h => Except.noConfusion h⟩
    · have hf' : f ≤ F := by omega
      have hV : ∀ given d t0 ext v rem n,
          decodeValue p (f + 1) given ⟨d, t0⟩ = .ok (v, ⟨rem, n⟩) →
          decodeValue p (F + 1) given ⟨d ++ ext, t0⟩ = .ok (v, ⟨rem ++ ext, n⟩) := by
        have hbody : ∀ m d1 t1 ext v rem n,
            (if m = TYPE_NULL then .ok (.vnull, (⟨d1, t1⟩ : DSt))
             else if m = TYPE_BOOL_TRUE then .ok (.vtrue, ⟨d1, t1⟩)
             else if m = TYPE_BOOL_FALSE then .ok (.vfalse, ⟨d1, t1⟩)
             else if m = TYPE_CHAR then decodeChar ⟨d1, t1⟩
             else if m = TYPE_STRING then decodeString ⟨d1, t1⟩
             else if m = TYPE_INT8 then
               match decodeInt8 ⟨d1, t1⟩ with
               | .error e => .error e
               | .ok (nv, s2) => .ok (.vint nv, s2)
             else if m = TYPE_UINT8 then
               match decodeUint8 ⟨d1, t1⟩ with
               | .error e => .error e
               | .ok (nv, s2) => .ok (.vint nv, s2)
             else if m = TYPE_INT16 then
               match decodeIntBE "int16/32" 2 ⟨d1, t1⟩ with
               | .error e => .error e
               | .ok (nv, s2) => .ok (.vint nv, s2)
             else if m = TYPE_INT32 then
               match decodeIntBE "int16/32" 4 ⟨d1, t1⟩ with
               | .error e => .error e
               | .ok (nv, s2) => .ok (.vint nv, s2)
             else if m = TYPE_INT64 then
               match decodeIntBE "int64" 8 ⟨d1, t1⟩ with
               | .error e => .error e
               | .ok (nv, s2) => .ok (.vint nv, s2)
             else if m = TYPE_FLOAT32 then decodeFloat32 ⟨d1, t1⟩
             else if m = TYPE_FLOAT64 then decodeFloat64 ⟨d1, t1⟩
             else if m = TYPE_HIGH_PREC then decodeHighPrec ⟨d1, t1⟩
             else if m = ARRAY_START then decodeArray p f ⟨d1, t1⟩
             else if m = OBJECT_START then decodeObject p f ⟨d1, t1⟩
             else .error ⟨"Invalid marker", t1⟩) = .ok (v, ⟨rem, n⟩) →
            (if m = TYPE_NULL then .ok (.vnull, (⟨d1 ++ ext, t1⟩ : DSt))
             else if m = TYPE_BOOL_TRUE then .ok (.vtrue, ⟨d1 ++ ext, t1⟩)
             else if m = TYPE_BOOL_FALSE then .ok (.vfalse, ⟨d1 ++ ext, t1⟩)
             else if m = TYPE_CHAR then decodeChar ⟨d1 ++ ext, t1⟩
             else if m = TYPE_STRING then decodeString ⟨d1 ++ ext, t1⟩
             else if m = TYPE_INT8 then
               match decodeInt8 ⟨d1 ++ ext, t1⟩ with
               | .error e => .error e
               | .ok (nv, s2) => .ok (.vint nv, s2)
             else if m = TYPE_UINT8 then
               match decodeUint8 ⟨d1 ++ ext, t1⟩ with
               | .error e => .error e
               | .ok (nv, s2) => .ok (.vint nv, s2)
             else if m = TYPE_INT16 then
               match decodeIntBE "int16/32" 2 ⟨d1 ++ ext, t1⟩ with
               | .error e => .error e
               | .ok (nv, s2) => .ok (.vint nv, s2)
             else if m = TYPE_INT32 then
               match decodeIntBE "int16/32" 4 ⟨d1 ++ ext, t1⟩ with
               | .error e => .error e
               | .ok (nv, s2) => .ok (.vint nv, s2)
             else if m = TYPE_INT64 then
               match decodeIntBE "int64" 8 ⟨d1 ++ ext, t1⟩ with
               | .error e => .error e
               | .ok (nv, s2) => .ok (.vint nv, s2)
             else if m = TYPE_FLOAT32 then decodeFloat32 ⟨d1 ++ ext, t1⟩
             else if m = TYPE_FLOAT64 then decodeFloat64 ⟨d1 ++ ext, t1⟩
             else if m = TYPE_HIGH_PREC then decodeHighPrec ⟨d1 ++ ext, t1⟩
             else if m = ARRAY_START then decodeArray p F ⟨d1 ++ ext, t1⟩
             else if m = OBJECT_START then decodeObject p F ⟨d1 ++ ext, t1⟩
             else .error ⟨"Invalid marker", t1⟩) = .ok (v, ⟨rem ++ ext, n⟩) := by
          intro m d1 t1 ext v rem n h
          by_cases c1 : m = TYPE_NULL
          · rw [if_pos c1] at h ⊢
            exact okExt _ _ _ _ _ _ _ h
          rw [if_neg c1] at h ⊢
          by_cases c2 : m = TYPE_BOOL_TRUE
          · rw [if_pos c2] at h ⊢
            exact okExt _ _ _ _ _ _ _ h
          rw [if_neg c2] at h ⊢
          by_cases c3 : m = TYPE_BOOL_FALSE
          · rw [if_pos c3] at h ⊢
            exact okExt _ _ _ _ _ _ _ h
          rw [if_neg c3] at h ⊢
          by_cases c4 : m = TYPE_CHAR
          · rw [if_pos c4] at h ⊢
            exact decodeChar_ext _ _ _ _ _ _ h
          rw [if_neg c4] at h ⊢
          by_cases c5 : m = TYPE_STRING
          · rw [if_pos c5] at h ⊢
            exact decodeString_ext _ _ _ _ _ _ h
          rw [if_neg c5] at h ⊢
          by_cases c6 : m = TYPE_INT8
          · rw [if_pos c6] at h ⊢
            rcases hi : decodeInt8 (⟨d1, t1⟩ : DSt) with e | ⟨nv, d2, t2⟩ <;> rw [hi] at h
            · exact Except.noConfusion h
            · rw [decodeInt8_ext _ _ _ _ _ _ hi]
              simp only [] at h ⊢
              exact okExt _ _ _ _ _ _ _ h
          rw [if_neg c6] at h ⊢
          by_cases c7 : m = TYPE_UINT8
          · rw [if_pos c7] at h ⊢
            rcases hi : decodeUint8 (⟨d1, t1⟩ : DSt) with e | ⟨nv, d2, t2⟩ <;> rw [hi] at h
            · exact Except.noConfusion h
            · rw [decodeUint8_ext _ _ _ _ _ _ hi]
              simp only [] at h ⊢
              exact okExt _ _ _ _ _ _ _ h
          rw [if_neg c7] at h ⊢
          by_cases c8 : m = TYPE_INT16
          · rw [if_pos c8] at h ⊢
            rcases hi : decodeIntBE "int16/32" 2 (⟨d1, t1⟩ : DSt) with e | ⟨nv, d2, t2⟩ <;>
              rw [hi] at h
            · exact Except.noConfusion h
            · rw [decodeIntBE_ext _ _ _ _ _ _ _ _ hi]
              simp only [] at h ⊢
              exact okExt _ _ _ _ _ _ _ h
          rw [if_neg c8] at h ⊢
          by_cases c9 : m = TYPE_INT32
          · rw [if_pos c9] at h ⊢
            rcases hi : decodeIntBE "int16/32" 4 (⟨d1, t1⟩ : DSt) with e | ⟨nv, d2, t2⟩ <;>
              rw [hi] at h
            · exact Except.noConfusion h
            · rw [decodeIntBE_ext _ _ _ _ _ _ _ _ hi]
              simp only [] at h ⊢
              exact okExt _ _ _ _ _ _ _ h
          rw [if_neg c9] at h ⊢
          by_cases c10 : m = TYPE_INT64
          · rw [if_pos c10] at h ⊢
            rcases hi : decodeIntBE "int64" 8 (⟨d1, t1⟩ : DSt) with e | ⟨nv, d2, t2⟩ <;>
              rw [hi] at h
            · exact Except.noConfusion h
            · rw [decodeIntBE_ext _ _ _ _ _ _ _ _ hi]
              simp only [] at h ⊢
              exact okExt _ _ _ _ _ _ _ h
          rw [if_neg c10] at h ⊢
          by_cases c11 : m = TYPE_FLOAT32
          · rw [if_pos c11] at h ⊢
            exact decodeFloat32_ext _ _ _ _ _ _ h
          rw [if_neg c11] at h ⊢
          by_cases c12 : m = TYPE_FLOAT64
          · rw [if_pos c12] at h ⊢
            exact decodeFloat64_ext _ _ _ _ _ _ h
          rw [if_neg c12] at h ⊢
          by_cases c13 : m = TYPE_HIGH_PREC
          · rw [if_pos c13] at h ⊢
            exact decodeHighPrec_ext _ _ _ _ _ _ h
          rw [if_neg c13] at h ⊢
          by_cases c14 : m = ARRAY_START
          · rw [if_pos c14] at h ⊢
            exact (ih f hf').2.1 _ _ ext _ _ _ h
          rw [if_neg c14] at h ⊢
          by_cases c15 : m = OBJECT_START
          · rw [if_pos c15] at h ⊢
            exact (ih f hf').2.2.2.2.2 _ _ ext _ _ _ h
          rw [if_neg c15] at h ⊢
          exact Except.noConfusion h
        intro given d t0 ext v rem n h
        simp only [decodeValue] at h ⊢
        rcases given with _ | m
        · simp only [] at h ⊢
          rcases hr : read1 "Type marker" (⟨d, t0⟩ : DSt) with e | ⟨m, d1, t1⟩ <;> rw [hr] at h
          · exact Except.noConfusion h
          · rw [read1_ext _ _ _ ext _ _ _ hr]
            simp only [] at h ⊢
            exact hbody m d1 t1 ext v rem n h
        · simp only [] at h ⊢
          exact hbody m d t0 ext v rem n h
      have hA : ∀ d t0 ext v rem n,
          decodeArray p (f + 1) ⟨d, t0⟩ = .ok (v, ⟨rem, n⟩) →
          decodeArray p (F + 1) ⟨d ++ ext, t0⟩ = .ok (v, ⟨rem ++ ext, n⟩) := by
        intro d t0 ext v rem n h
        simp only [decodeArray] at h ⊢
        rcases hg : getCP false (⟨d, t0⟩ : DSt) with e | ⟨ps, d1, t1⟩ <;> rw [hg] at h
        · exact Except.noConfusion h
        · rw [getCP_ext _ _ _ ext _ _ _ hg]
          simp only [] at h ⊢
          split_ifs at h ⊢
          · rcases hr : readB "bytes array" ps.count (⟨d1, t1⟩ : DSt) with e | ⟨bs, d2, t2⟩ <;>
              rw [hr] at h
            · exact Except.noConfusion h
            · rw [readB_ext _ _ _ _ ext _ _ _ hr]
              simp only [] at h ⊢
              exact okExt _ _ _ _ _ _ _ h
          · exact okExt _ _ _ _ _ _ _ h
          · exact (ih f hf').2.2.1 _ _ _ _ _ _ ext _ _ _ h
          · exact (ih f hf').2.2.2.1 _ _ _ _ _ ext _ _ _ h
      have hC : ∀ ty count marker acc d t0 ext v rem n,
          arrCounted p (f + 1) ty count marker acc ⟨d, t0⟩ = .ok (v, ⟨rem, n⟩) →
          arrCounted p (F + 1) ty count marker acc ⟨d ++ ext, t0⟩ =
            .ok (v, ⟨rem ++ ext, n⟩) := by
        intro ty count marker acc d t0 ext v rem n h
        simp only [arrCounted] at h ⊢
        by_cases c0 : count = 0
        · rw [if_pos c0] at h ⊢
          exact okExt _ _ _ _ _ _ _ h
        rw [if_neg c0] at h ⊢
        by_cases cn : marker = TYPE_NOOP
        · rw [if_pos cn] at h ⊢
          rcases hr : read1 "array value type marker (sized, after no-op)" (⟨d, t0⟩ : DSt)
            with e | ⟨m2, d1, t1⟩ <;> rw [hr] at h
          · exact Except.noConfusion h
          · rw [read1_ext _ _ _ ext _ _ _ hr]
            simp only [] at h ⊢
            exact (ih f hf').2.2.1 _ _ _ _ _ _ ext _ _ _ h
        rw [if_neg cn] at h ⊢
        rcases hv : decodeValue p f (some marker) (⟨d, t0⟩ : DSt) with e | ⟨v1, d1, t1⟩ <;>
          rw [hv] at h
        · exact Except.noConfusion h
        · rw [(ih f hf').1 (some marker) _ _ ext _ _ _ hv]
          simp only [] at h ⊢
          by_cases c3 : count - 1 ≠ 0 ∧ ty = TYPE_NONE
          · rw [if_pos c3] at h ⊢
            rcases hr : read1 "array value type marker (sized)" (⟨d1, t1⟩ : DSt)
              with e | ⟨m2, d2, t2⟩ <;> rw [hr] at h
            · exact Except.noConfusion h
            · rw [read1_ext _ _ _ ext _ _ _ hr]
              simp only [] at h ⊢
              exact (ih f hf').2.2.1 _ _ _ _ _ _ ext _ _ _ h
          · rw [if_neg c3] at h ⊢
            exact (ih f hf').2.2.1 _ _ _ _ _ _ ext _ _ _ h
      have hU : ∀ ty marker acc d t0 ext v rem n,
          arrUncounted p (f + 1) ty marker acc ⟨d, t0⟩ = .ok (v, ⟨rem, n⟩) →
          arrUncounted p (F + 1) ty marker acc ⟨d ++ ext, t0⟩ =
            .ok (v, ⟨rem ++ ext, n⟩) := by
        intro ty marker acc d t0 ext v rem n h
        simp only [arrUncounted] at h ⊢
        by_cases c0 : marker = ARRAY_END
        · rw [if_pos c0] at h ⊢
          exact okExt _ _ _ _ _ _ _ h
        rw [if_neg c0] at h ⊢
        by_cases cn : marker = TYPE_NOOP
        · rw [if_pos cn] at h ⊢
          rcases hr : read1 "array value type marker (after no-op)" (⟨d, t0⟩ : DSt)
            with e | ⟨m2, d1, t1⟩ <;> rw [hr] at h
          · exact Except.noConfusion h
          · rw [read1_ext _ _ _ ext _ _ _ hr]
            simp only [] at h ⊢
            exact (ih f hf').2.2.2.1 _ _ _ _ _ ext _ _ _ h
        rw [if_neg cn] at h ⊢
        rcases hv : decodeValue p f (some marker) (⟨d, t0⟩ : DSt) with e | ⟨v1, d1, t1⟩ <;>
          rw [hv] at h
        · exact Except.noConfusion h
        · rw [(ih f hf').1 (some marker) _ _ ext _ _ _ hv]
          simp only [] at h ⊢
          by_cases c3 : ty = TYPE_NONE
          · rw [if_pos c3] at h ⊢
            rcases hr : read1 "array value type marker" (⟨d1, t1⟩ : DSt)
              with e | ⟨m2, d2, t2⟩ <;> rw [hr] at h
            · exact Except.noConfusion h
            · rw [read1_ext _ _ _ ext _ _ _ hr]
              simp only [] at h ⊢
              exact (ih f hf').2.2.2.1 _ _ _ _ _ ext _ _ _ h
          · rw [if_neg c3] at h ⊢
            exact (ih f hf').2.2.2.1 _ _ _ _ _ ext _ _ _ h
      have hO : ∀ counting count marker fixedTy acc d t0 ext v rem n,
          objLoop p (f + 1) counting count marker fixedTy acc ⟨d, t0⟩ = .ok (v, ⟨rem, n⟩) →
          objLoop p (F + 1) counting count marker fixedTy acc ⟨d ++ ext, t0⟩ =
            .ok (v, ⟨rem ++ ext, n⟩) := by
        intro counting count marker fixedTy acc d t0 ext v rem n h
        simp only [objLoop] at h ⊢
        by_cases c0 : ¬ (0 < count ∧ (counting ∨ marker ≠ OBJECT_END))
        · rw [if_pos c0] at h ⊢
          exact okExt _ _ _ _ _ _ _ h
        rw [if_neg c0] at h ⊢
        by_cases cn : marker = TYPE_NOOP
        · rw [if_pos cn] at h ⊢
          rcases hr : read1 "object key length" (⟨d, t0⟩ : DSt)
            with e | ⟨m2, d1, t1⟩ <;> rw [hr] at h
          · exact Except.noConfusion h
          · rw [read1_ext _ _ _ ext _ _ _ hr]
            simp only [] at h ⊢
            exact (ih f hf').2.2.2.2.1 _ _ _ _ _ _ _ ext _ _ _ h
        rw [if_neg cn] at h ⊢
        rcases hk : decodeKey "sized/unsized" marker (⟨d, t0⟩ : DSt)
          with e | ⟨k, d1, t1⟩ <;> rw [hk] at h
        · exact Except.noConfusion h
        · rw [decodeKey_ext _ _ _ _ ext _ _ _ hk]
          simp only [] at h ⊢
          rcases hv : decodeValue p f fixedTy (⟨d1, t1⟩ : DSt) with e | ⟨v1, d2, t2⟩ <;>
            rw [hv] at h
          · exact Except.noConfusion h
          · rw [(ih f hf').1 fixedTy _ _ ext _ _ _ hv]
            simp only [] at h ⊢
            by_cases c4 : 0 < (if counting then count - 1 else count)
            · rw [if_pos c4] at h ⊢
              rcases hr : read1 "object key length" (⟨d2, t2⟩ : DSt)
                with e | ⟨m2, d3, t3⟩ <;> rw [hr] at h
              · exact Except.noConfusion h
              · rw [read1_ext _ _ _ ext _ _ _ hr]
                simp only [] at h ⊢
                exact (ih f hf').2.2.2.2.1 _ _ _ _ _ _ _ ext _ _ _ h
            · rw [if_neg c4] at h ⊢
              exact okExt _ _ _ _ _ _ _ h
      have hD : ∀ d t0 ext v rem n,
          decodeObject p (f + 1) ⟨d, t0⟩ = .ok (v, ⟨rem, n⟩) →
          decodeObject p (F + 1) ⟨d ++ ext, t0⟩ = .ok (v, ⟨rem ++ ext, n⟩) := by
        intro d t0 ext v rem n h
        simp only [decodeObject] at h ⊢
        rcases hg : getCP true (⟨d, t0⟩ : DSt) with e | ⟨ps, d1, t1⟩ <;> rw [hg] at h
        · exact Except.noConfusion h
        · rw [getCP_ext _ _ _ ext _ _ _ hg]
          simp only [] at h ⊢
          split_ifs at h ⊢
          · exact objNoData_ext _ _ _ _ _ _ ext _ _ _ h
          · exact (ih f hf').2.2.2.2.1 _ _ _ _ _ _ _ ext _ _ _ h
          · exact (ih f hf').2.2.2.2.1 _ _ _ _ _ _ _ ext _ _ _ h
      exact ⟨hV, hA, hC, hU, hO, hD⟩

set_option maxHeartbeats 200000


/-- Claim C10: `loadb` parses exactly one value from the front of the
buffer and ignores trailing bytes: whenever decoding `b` succeeds
consuming the whole input, decoding `b ++ t` succeeds with the same value
and leaves exactly `t` unread. -/
theorem c10_trailing_bytes_ignored (p : DPrefs) (b t : List Nat) (v : Value)
    (nn : Nat) (h : topDecode p b = .ok (v, ⟨[], nn⟩)) :
    topDecode p (b ++ t) = .ok (v, ⟨t, nn⟩) := by
  unfold topDecode at h ⊢
  have he := (decodeExtAll p (topFuel (b ++ t)) (topFuel b)
    (by unfold topFuel; simp [List.length_append])).1 none b 0 t v [] nn h
  simpa using he

theorem c10_trailing_bytes_ignored_witness :
    topDecode defaultDPrefs [0x5A] = .ok (.vnull, ⟨[], 1⟩) ∧
    topDecode defaultDPrefs ([0x5A] ++ [0xFF]) = .ok (.vnull, ⟨[0xFF], 1⟩) :=
  ⟨by decide, c10_trailing_bytes_ignored defaultDPrefs [0x5A] [0xFF] .vnull 1 (by decide)⟩


/-! ## C1 groundwork -/

theorem utf8Valid_ascii : ∀ (s : List Nat), (∀ c ∈ s, c < 0x80) →
    utf8Valid s = true
  | [], _ => rfl
  | c :: r, h => by
    rw [utf8Valid, if_pos (h c (by simp))]
    exact utf8Valid_ascii r (fun c2 hc2 => h c2 (by simp [hc2]))

theorem kv_append_nil : ∀ (l : KVList), l.append .nil = l
  | .nil => rfl
  | .cons k v tl => by rw [KVList.append, kv_append_nil tl]

theorem kv_snoc_append : ∀ (l : KVList) (k : List Nat) (v : Value) (r : KVList),
    (l.snoc k v).append r = l.append (.cons k v r)
  | .nil, _, _, _ => rfl
  | .cons k' v' tl, k, v, r => by
    rw [KVList.snoc, KVList.append, kv_snoc_append tl k v r, KVList.append]

theorem dictInsert_fresh : ∀ (acc : KVList) (k : List Nat) (v : Value),
    acc.hasKey k = false → dictInsert acc k v = acc.snoc k v
  | .nil, _, _, _ => rfl
  | .cons k' v' tl, k, v, h => by
    rw [KVList.hasKey, Bool.or_eq_false_iff, decide_eq_false_iff_not] at h
    rw [dictInsert, if_neg h.1, KVList.snoc, dictInsert_fresh tl k v h.2]

/-- Reading the marker from the stream and being given it coincide. -/
theorem decodeValue_none_cons (p : DPrefs) (F m : Nat) (dd : List Nat) (t : Nat) :
    decodeValue p (F + 1) none ⟨m :: dd, t⟩ =
      decodeValue p (F + 1) (some m) ⟨dd, t + 1⟩ := rfl

theorem dv_null (p : DPrefs) (F : Nat) (s : DSt) :
    decodeValue p (F + 1) (some TYPE_NULL) s = .ok (.vnull, s) := rfl

theorem dv_true (p : DPrefs) (F : Nat) (s : DSt) :
    decodeValue p (F + 1) (some TYPE_BOOL_TRUE) s = .ok (.vtrue, s) := rfl

theorem dv_false (p : DPrefs) (F : Nat) (s : DSt) :
    decodeValue p (F + 1) (some TYPE_BOOL_FALSE) s = .ok (.vfalse, s) := rfl

theorem dv_char (p : DPrefs) (F : Nat) (s : DSt) :
    decodeValue p (F + 1) (some TYPE_CHAR) s = decodeChar s := rfl

theorem dv_string (p : DPrefs) (F : Nat) (s : DSt) :
    decodeValue p (F + 1) (some TYPE_STRING) s = decodeString s := rfl

theorem dv_i8 (p : DPrefs) (F : Nat) (s : DSt) :
    decodeValue p (F + 1) (some TYPE_INT8) s =
      match decodeInt8 s with
      | .error e => .error e
      | .ok (n, s2) => .ok (.vint n, s2) := rfl

theorem dv_u8 (p : DPrefs) (F : Nat) (s : DSt) :
    decodeValue p (F + 1) (some TYPE_UINT8) s =
      match decodeUint8 s with
      | .error e => .error e
      | .ok (n, s2) => .ok (.vint n, s2) := rfl

theorem dv_i16 (p : DPrefs) (F : Nat) (s : DSt) :
    decodeValue p (F + 1) (some TYPE_INT16) s =
      match decodeIntBE "int16/32" 2 s with
      | .error e => .error e
      | .ok (n, s2) => .ok (.vint n, s2) := rfl

theorem dv_i32 (p : DPrefs) (F : Nat) (s : DSt) :
    decodeValue p (F + 1) (some TYPE_INT32) s =
      match decodeIntBE "int16/32" 4 s with
      | .error e => .error e
      | .ok (n, s2) => .ok (.vint n, s2) := rfl

theorem dv_i64 (p : DPrefs) (F : Nat) (s : DSt) :
    decodeValue p (F + 1) (some TYPE_INT64) s =
      match decodeIntBE "int64" 8 s with
      | .error e => .error e
      | .ok (n, s2) => .ok (.vint n, s2) := rfl

theorem dv_f32 (p : DPrefs) (F : Nat) (s : DSt) :
    decodeValue p (F + 1) (some TYPE_FLOAT32) s = decodeFloat32 s := rfl

theorem dv_f64 (p : DPrefs) (F : Nat) (s : DSt) :
    decodeValue p (F + 1) (some TYPE_FLOAT64) s = decodeFloat64 s := rfl

theorem dv_high (p : DPrefs) (F : Nat) (s : DSt) :
    decodeValue p (F + 1) (some TYPE_HIGH_PREC) s = decodeHighPrec s := rfl

theorem dv_arr (p : DPrefs) (F : Nat) (s : DSt) :
    decodeValue p (F + 1) (some ARRAY_START) s = decodeArray p F s := rfl

theorem dv_obj (p : DPrefs) (F : Nat) (s : DSt) :
    decodeValue p (F + 1) (some OBJECT_START) s = decodeObject p F s := rfl

theorem arrUncounted_succ (p : DPrefs) (F ty marker : Nat) (acc : VList) (s : DSt) :
    arrUncounted p (F + 1) ty marker acc s =
      (if marker = ARRAY_END then .ok (.varr acc, s)
       else if marker = TYPE_NOOP then
         match read1 "array value type marker (after no-op)" s with
         | .error e => .error e
         | .ok (m2, s1) => arrUncounted p F ty m2 acc s1
       else
         match decodeValue p F (some marker) s with
         | .error e => .error e
         | .ok (v, s1) =>
           if ty = TYPE_NONE then
             match read1 "array value type marker" s1 with
             | .error e => .error e
             | .ok (m2, s2) => arrUncounted p F ty m2 (acc.snoc v) s2
           else arrUncounted p F ty marker (acc.snoc v) s1) := rfl

theorem objLoop_succ (p : DPrefs) (F : Nat) (counting : Bool)
    (count marker : Nat) (fixedTy : Option Nat) (acc : KVList) (s : DSt) :
    objLoop p (F + 1) counting count marker fixedTy acc s =
      (if ¬ (0 < count ∧ (counting ∨ marker ≠ OBJECT_END)) then
        .ok (.vobj acc, s)
       else if marker = TYPE_NOOP then
         match read1 "object key length" s with
         | .error e => .error e
         | .ok (m2, s1) => objLoop p F counting count m2 fixedTy acc s1
       else
         match decodeKey "sized/unsized" marker s with
         | .error e => .error e
         | .ok (k, s1) =>
           match decodeValue p F fixedTy s1 with
           | .error e => .error e
           | .ok (v, s2) =>
             let acc2 := dictInsert acc k v
             let count2 := if counting then count - 1 else count
             if 0 < count2 then
               match read1 "object key length" s2 with
               | .error e => .error e
               | .ok (m2, s3) => objLoop p F counting count2 m2 fixedTy acc2 s3
             else .ok (.vobj acc2, s2)) := rfl

/-- Fuel monotonicity of the encoder. -/
theorem encMonoAll (p : EPrefs) : ∀ fuel' fuel : Nat, fuel ≤ fuel' →
    (∀ v bs, encValue p fuel v = some bs → encValue p fuel' v = some bs) ∧
    (∀ l bs, encVList p fuel l = some bs → encVList p fuel' l = some bs) ∧
    (∀ l bs, encKVList p fuel l = some bs → encKVList p fuel' l = some bs) := by
  intro fuel'
  induction fuel' with
  | zero =>
    intro fuel hf
    obtain rfl : fuel = 0 := Nat.le_zero.mp hf
    exact ⟨fun _ _ h => Option.noConfusion h, fun _ _ h => Option.noConfusion h,
      fun _ _ h => Option.noConfusion h⟩
  | succ F ih =>
    intro fuel hf
    rcases fuel with _ | f
    · exact ⟨fun _ _ h => Option.noConfusion h, fun _ _ h => Option.noConfusion h,
        fun _ _ h => Option.noConfusion h⟩
    · have hf' : f ≤ F := by omega
      refine ⟨fun v bs h => ?_, fun l bs h => ?_, fun l bs h => ?_⟩
      · rcases v with _ | _ | _ | n | b | s | s | bb | l | l
        · exact h
        · exact h
        · exact h
        · exact h
        · exact h
        · exact h
        · exact h
        · exact h
        · simp only [encValue] at h ⊢
          rcases hl : encVList p f l with _ | body <;> rw [hl] at h
          · exact Option.noConfusion h
          · rw [(ih f hf').2.1 l body hl]
            exact h
        · simp only [encValue] at h ⊢
          rcases hl : encKVList p f (if p.sort_keys then kvSort l else l) with _ | body <;>
            rw [hl] at h
          · exact Option.noConfusion h
          · rw [(ih f hf').2.2 _ body hl]
            exact h
      · rcases l with _ | ⟨v, tl⟩ <;> simp only [encVList] at h ⊢
        · exact h
        · rcases hv : encValue p f v with _ | bv <;> rw [hv] at h
          · exact Option.noConfusion h
          · rcases ht : encVList p f tl with _ | bt <;> rw [ht] at h
            · exact Option.noConfusion h
            · rw [(ih f hf').1 v bv hv, (ih f hf').2.1 tl bt ht]
              exact h
      · rcases l with _ | ⟨k, v, tl⟩ <;> simp only [encKVList] at h ⊢
        · exact h
        · rcases hv : encValue p f v with _ | bv <;> rw [hv] at h
          · exact Option.noConfusion h
          · rcases ht : encKVList p f tl with _ | bt <;> rw [ht] at h
            · exact Option.noConfusion h
            · rw [(ih f hf').1 v bv hv, (ih f hf').2.2 tl bt ht]
              exact h


theorem efuel_pos (v : Value) : 1 ≤ efuel v := by
  rcases v with _ | _ | _ | n | b | s | s | bb | l | l <;> simp [efuel]

mutual

/-- With default preferences every domain value encodes at fuel `efuel`. -/
theorem encTotalV : ∀ (v : Value), domainB v = true →
    ∃ bs, encValue defaultEPrefs (efuel v) v = some bs
  | .vnull, _ => ⟨_, rfl⟩
  | .vtrue, _ => ⟨_, rfl⟩
  | .vfalse, _ => ⟨_, rfl⟩
  | .vint n, _ => ⟨_, rfl⟩
  | .vfloat b, hd => by
    simp only [domainB, Bool.and_eq_true, decide_eq_true_eq,
      Bool.not_eq_true] at hd
    show ∃ bs, encFloat defaultEPrefs b = some bs
    unfold encFloat
    rw [if_neg (by simp only [fIsNanInf, decide_eq_true_eq]; exact hd.1.2)]
    by_cases hz : fIsZero b
    · rw [if_pos hz]
      simp only [fIsZero, decide_eq_true_eq] at hz
      have hsig : fSig b = 0 := by rw [fSig, if_pos hz.1]; exact hz.2
      rw [pack4_some b hd.1.2 (Or.inl hsig)]
      exact ⟨_, rfl⟩
    · rw [if_neg hz, if_neg (by have h2 := hd.2; simp at h2; simp [h2])]
      rw [if_neg (by simp [defaultEPrefs])]
      exact ⟨_, rfl⟩
  | .vhigh s, _ => ⟨_, rfl⟩
  | .vstr s, _ => ⟨_, rfl⟩
  | .vbytes bb, _ => ⟨_, rfl⟩
  | .varr l, hd => by
    obtain ⟨body, hb⟩ := encTotalVL l hd
    refine ⟨ARRAY_START :: (body ++ [ARRAY_END]), ?_⟩
    simp only [efuel, encValue]
    rw [hb]
    simp [defaultEPrefs]
  | .vobj l, hd => by
    obtain ⟨body, hb⟩ := encTotalKV l hd
    refine ⟨OBJECT_START :: (body ++ [OBJECT_END]), ?_⟩
    simp only [efuel, encValue]
    rw [show (if defaultEPrefs.sort_keys then kvSort l else l) = l from rfl]
    rw [hb]
    simp [defaultEPrefs]
  termination_by structural v => v

theorem encTotalVL : ∀ (l : VList), domainVL l = true →
    ∃ bs, encVList defaultEPrefs (efuelVL l) l = some bs
  | .nil, _ => ⟨[], rfl⟩
  | .cons v tl, hd => by
    simp only [domainVL, Bool.and_eq_true] at hd
    obtain ⟨bv, hv⟩ := encTotalV v hd.1
    obtain ⟨bt, ht⟩ := encTotalVL tl hd.2
    refine ⟨bv ++ bt, ?_⟩
    simp only [efuelVL, encVList]
    rw [(encMonoAll defaultEPrefs (efuel v + efuelVL tl) (efuel v) (by omega)).1 v bv hv,
      (encMonoAll defaultEPrefs (efuel v + efuelVL tl) (efuelVL tl) (by omega)).2.1 tl bt ht]
  termination_by structural l => l

theorem encTotalKV : ∀ (l : KVList), domainKV l = true →
    ∃ bs, encKVList defaultEPrefs (efuelKV l) l = some bs
  | .nil, _ => ⟨[], rfl⟩
  | .cons k v tl, hd => by
    simp only [domainKV, Bool.and_eq_true] at hd
    obtain ⟨bv, hv⟩ := encTotalV v hd.1.2
    obtain ⟨bt, ht⟩ := encTotalKV tl hd.2
    refine ⟨encInt (k.length : Int) ++ k ++ bv ++ bt, ?_⟩
    simp only [efuelKV, encKVList]
    rw [(encMonoAll defaultEPrefs (efuel v + efuelKV tl) (efuel v) (by omega)).1 v bv hv,
      (encMonoAll defaultEPrefs (efuel v + efuelKV tl) (efuelKV tl) (by omega)).2.2 tl bt ht]
  termination_by structural l => l

end

/-- A valid first byte: every emitted encoding starts with a value marker,
never with a no-op, a closing bracket, or a container-header byte. -/
def validHead (m : Nat) : Prop :=
  m ≠ TYPE_NOOP ∧ m ≠ ARRAY_END ∧ m ≠ OBJECT_END ∧
    m ≠ CONTAINER_TYPE ∧ m ≠ CONTAINER_COUNT

theorem encInt_head (n : Int) : ∃ m d, encInt n = m :: d ∧ validHead m := by
  unfold encInt
  split_ifs <;> exact ⟨_, _, rfl, by unfold validHead; norm_num [TYPE_UINT8, TYPE_INT8,
    TYPE_INT16, TYPE_INT32, TYPE_INT64, TYPE_NOOP, ARRAY_END, OBJECT_END,
    CONTAINER_TYPE, CONTAINER_COUNT]⟩

theorem encDecimal_head (s : List Nat) : ∃ m d, encDecimal s = m :: d ∧ validHead m := by
  unfold encDecimal
  split_ifs <;> exact ⟨_, _, rfl, by unfold validHead; norm_num [TYPE_HIGH_PREC,
    TYPE_NULL, TYPE_NOOP, ARRAY_END, OBJECT_END, CONTAINER_TYPE, CONTAINER_COUNT]⟩

theorem encStr_head (s : List Nat) : ∃ m d, encStr s = m :: d ∧ validHead m := by
  unfold encStr
  split_ifs <;> exact ⟨_, _, rfl, by unfold validHead; norm_num [TYPE_CHAR,
    TYPE_STRING, TYPE_NOOP, ARRAY_END, OBJECT_END, CONTAINER_TYPE, CONTAINER_COUNT]⟩

theorem encFloat_head (p : EPrefs) (b : Nat) (bs : List Nat)
    (h : encFloat p b = some bs) : ∃ m d, bs = m :: d ∧ validHead m := by
  unfold encFloat at h
  split_ifs at h
  · injection h with h
    exact ⟨_, _, h.symm, by unfold validHead; decide⟩
  · unfold pack4 at h
    simp only [] at h
    split_ifs at h
    · simp at h
    · simp only [Option.map] at h
      injection h with h
      exact ⟨_, _, h.symm, by unfold validHead; decide⟩
  · injection h with h
    obtain ⟨m, d, hd, hv⟩ := encDecimal_head (decOfFloat b)
    exact ⟨m, d, by rw [← h, hd], hv⟩
  · unfold pack4 at h
    simp only [] at h
    split_ifs at h
    · simp at h
    · simp only [Option.map] at h
      injection h with h
      exact ⟨_, _, h.symm, by unfold validHead; decide⟩
  · injection h with h
    exact ⟨_, _, h.symm, by unfold validHead; decide⟩

theorem encHead (p : EPrefs) : ∀ (v : Value) (fuel : Nat) (bs : List Nat),
    encValue p fuel v = some bs → ∃ m d, bs = m :: d ∧ validHead m := by
  intro v fuel bs h
  rcases fuel with _ | f
  · exact Option.noConfusion h
  rcases v with _ | _ | _ | n | b | s | s | bb | l | l
  · injection h with h
    exact ⟨_, _, h.symm, by unfold validHead; decide⟩
  · injection h with h
    exact ⟨_, _, h.symm, by unfold validHead; decide⟩
  · injection h with h
    exact ⟨_, _, h.symm, by unfold validHead; decide⟩
  · injection h with h
    unfold encIntPy at h
    split_ifs at h
    · obtain ⟨m, d, hd, hv⟩ := encInt_head n
      exact ⟨m, d, by rw [← h, hd], hv⟩
    · obtain ⟨m, d, hd, hv⟩ := encDecimal_head (decOfInt n)
      exact ⟨m, d, by rw [← h, hd], hv⟩
  · exact encFloat_head p b bs h
  · injection h with h
    obtain ⟨m, d, hd, hv⟩ := encDecimal_head s
    exact ⟨m, d, by rw [← h, hd], hv⟩
  · injection h with h
    obtain ⟨m, d, hd, hv⟩ := encStr_head s
    exact ⟨m, d, by rw [← h, hd], hv⟩
  · injection h with h
    exact ⟨ARRAY_START, _, h.symm, by unfold validHead; decide⟩
  · simp only [encValue] at h
    rcases hl : encVList p f l with _ | body <;> rw [hl] at h
    · exact Option.noConfusion h
    · injection h with h
      exact ⟨ARRAY_START, _, h.symm, by unfold validHead; decide⟩
  · simp only [encValue] at h
    rcases hl : encKVList p f (if p.sort_keys then kvSort l else l) with _ | body <;>
      rw [hl] at h
    · exact Option.noConfusion h
    · injection h with h
      exact ⟨OBJECT_START, _, h.symm, by unfold validHead; decide⟩


/-- Extension corollary at fixed fuel. -/
theorem decodeValue_ext (p : DPrefs) (f : Nat) (given : Option Nat)
    (d : List Nat) (t0 : Nat) (ext : List Nat) (v : Value) (rem : List Nat) (n : Nat)
    (h : decodeValue p f given ⟨d, t0⟩ = .ok (v, ⟨rem, n⟩)) :
    decodeValue p f given ⟨d ++ ext, t0⟩ = .ok (v, ⟨rem ++ ext, n⟩) :=
  (decodeExtAll p f f (le_refl f)).1 given d t0 ext v rem n h

/-- Decoding the minimal encoding of a 64-bit integer. -/
theorem decodeValue_encInt (p : DPrefs) (F : Nat) (n : Int)
    (hlo : -2 ^ 63 ≤ n) (hhi : n < 2 ^ 63) (rest : List Nat) (t : Nat) :
    decodeValue p (F + 1) none ⟨encInt n ++ rest, t⟩ =
      .ok (.vint n, ⟨rest, t + (encInt n).length⟩) := by
  unfold encInt
  by_cases h0 : 0 ≤ n
  · rw [if_pos h0]
    by_cases h1 : n < 2 ^ 8
    · rw [if_pos h1]
      simp only [List.cons_append, List.nil_append, List.length_cons, List.length_nil]
      rw [decodeValue_none_cons, dv_u8]
      unfold decodeUint8 read1
      simp only []
      rw [show ((n.toNat : Nat) : Int) = n from by omega]
    · rw [if_neg h1]
      by_cases h2 : n < 2 ^ 15
      · rw [if_pos h2]
        simp only [List.cons_append, List.length_cons]
        rw [decodeValue_none_cons, dv_i16,
          decodeIntBE_leBytes "int16/32" 2 (by norm_num) n (by norm_num; omega)
            (by norm_num; omega) rest (t + 1)]
        simp only [Except.ok.injEq, Prod.mk.injEq, DSt.mk.injEq, leBytes_reverse_length]
      · rw [if_neg h2]
        by_cases h3 : n < 2 ^ 31
        · rw [if_pos h3]
          simp only [List.cons_append, List.length_cons]
          rw [decodeValue_none_cons, dv_i32,
            decodeIntBE_leBytes "int16/32" 4 (by norm_num) n (by norm_num; omega)
              (by norm_num; omega) rest (t + 1)]
          simp only [Except.ok.injEq, Prod.mk.injEq, DSt.mk.injEq, leBytes_reverse_length]
        · rw [if_neg h3]
          simp only [List.cons_append, List.length_cons]
          rw [decodeValue_none_cons, dv_i64,
            decodeIntBE_leBytes "int64" 8 (by norm_num) n (by norm_num; omega)
              (by norm_num; omega) rest (t + 1)]
          simp only [Except.ok.injEq, Prod.mk.injEq, DSt.mk.injEq, leBytes_reverse_length]
  · rw [if_neg h0]
    by_cases h1 : -2 ^ 7 ≤ n
    · rw [if_pos h1]
      simp only [List.cons_append, List.nil_append, List.length_cons, List.length_nil]
      rw [decodeValue_none_cons, dv_i8]
      unfold decodeInt8 read1
      simp only []
      have hsd : sdecode 1 ((n % 256).toNat) = n := by
        have := sdecode_emod 1 (by norm_num) n (by norm_num; omega) (by norm_num; omega)
        norm_num at this ⊢
        exact this
      rw [hsd]
    · rw [if_neg h1]
      by_cases h2 : -2 ^ 15 ≤ n
      · rw [if_pos h2]
        simp only [List.cons_append, List.length_cons]
        rw [decodeValue_none_cons, dv_i16,
          decodeIntBE_leBytes "int16/32" 2 (by norm_num) n (by norm_num; omega)
            (by norm_num; omega) rest (t + 1)]
        simp only [Except.ok.injEq, Prod.mk.injEq, DSt.mk.injEq, leBytes_reverse_length]
      · rw [if_neg h2]
        by_cases h3 : -2 ^ 31 ≤ n
        · rw [if_pos h3]
          simp only [List.cons_append, List.length_cons]
          rw [decodeValue_none_cons, dv_i32,
            decodeIntBE_leBytes "int16/32" 4 (by norm_num) n (by norm_num; omega)
              (by norm_num; omega) rest (t + 1)]
          simp only [Except.ok.injEq, Prod.mk.injEq, DSt.mk.injEq, leBytes_reverse_length]
        · rw [if_neg h3]
          simp only [List.cons_append, List.length_cons]
          rw [decodeValue_none_cons, dv_i64,
            decodeIntBE_leBytes "int64" 8 (by norm_num) n (by norm_num; omega)
              (by norm_num; omega) rest (t + 1)]
          simp only [Except.ok.injEq, Prod.mk.injEq, DSt.mk.injEq, leBytes_reverse_length]

theorem f32toF64_zeroPat (s : Nat) (hs : s ≤ 1) :
    f32toF64 (s * 2 ^ 31) = s * 2 ^ 63 := by
  unfold f32toF64
  simp only []
  rw [if_neg (by omega), if_pos (by omega)]
  omega

theorem zeroPat_eq (b : Nat) (hb : b < 2 ^ 64) (hz : fExp b = 0 ∧ fFrac b = 0) :
    fSign b * 2 ^ 63 = b := by
  unfold fSign
  unfold fExp fFrac at hz
  omega

theorem fSign_le_one (b : Nat) (hb : b < 2 ^ 64) : fSign b ≤ 1 := by
  unfold fSign
  omega

theorem decodeFloat64_pack8 (b : Nat) (hb : b < 2 ^ 64) (rest : List Nat) (t : Nat) :
    decodeFloat64 ⟨pack8 b ++ rest, t⟩ = .ok (.vfloat b, ⟨rest, t + 8⟩) := by
  unfold decodeFloat64
  have h8 : (pack8 b).length = 8 := beBytesN_length 8 b
  rw [show (8:Nat) = (pack8 b).length from h8.symm, readB_exact "float64" (pack8 b) rest t]
  simp only []
  unfold unpack8 pack8
  rw [beVal_beBytesN 8 b (by norm_num; omega)]

theorem decodeFloat32_zero (b : Nat) (hb : b < 2 ^ 64)
    (hz : fExp b = 0 ∧ fFrac b = 0) (rest : List Nat) (t : Nat) :
    decodeFloat32 ⟨beBytesN 4 (fSign b * 2 ^ 31) ++ rest, t⟩ =
      .ok (.vfloat b, ⟨rest, t + 4⟩) := by
  unfold decodeFloat32
  have h4 : (beBytesN 4 (fSign b * 2 ^ 31)).length = 4 := beBytesN_length 4 _
  have hr := readB_exact "float32" (beBytesN 4 (fSign b * 2 ^ 31)) rest t
  rw [h4] at hr
  rw [hr]
  simp only []
  unfold unpack4
  rw [beVal_beBytesN 4 _ (by have := fSign_le_one b hb; norm_num; omega)]
  rw [f32toF64_zeroPat (fSign b) (fSign_le_one b hb), zeroPat_eq b hb hz]

theorem decodeHighPrec_enc (s : List Nat) (hu : utf8Valid s = true)
    (hl : (s.length : Int) < 2 ^ 63) (rest : List Nat) (t : Nat) :
    decodeHighPrec ⟨encInt (s.length : Int) ++ (s ++ rest), t⟩ =
      .ok (.vhigh s, ⟨rest, t + (encInt (s.length : Int)).length + s.length⟩) := by
  unfold decodeHighPrec
  rw [decodeIntNonNeg_encInt (s.length : Int) (by positivity) hl (s ++ rest) t]
  simp only []
  rw [show ((s.length : Int)).toNat = s.length from by omega]
  rw [readB_exact "highprec" s rest _]
  simp only []
  rw [if_pos hu]

theorem decodeString_enc (s : List Nat) (hu : utf8Valid s = true)
    (hl : (s.length : Int) < 2 ^ 63) (rest : List Nat) (t : Nat) :
    decodeString ⟨encInt (s.length : Int) ++ (s ++ rest), t⟩ =
      .ok (.vstr s, ⟨rest, t + (encInt (s.length : Int)).length + s.length⟩) := by
  unfold decodeString
  rw [decodeIntNonNeg_encInt (s.length : Int) (by positivity) hl (s ++ rest) t]
  simp only []
  rw [show ((s.length : Int)).toNat = s.length from by omega]
  by_cases hpos : 0 < s.length
  · rw [if_pos hpos]
    rw [readB_exact "string" s rest _]
    simp only []
    rw [if_pos hu]
  · rw [if_neg hpos]
    have hnil : s = [] := by
      rcases s with _ | ⟨c, r⟩
      · rfl
      · simp at hpos
    subst hnil
    simp

theorem decodeChar_enc (b : Nat) (hu : utf8Valid [b] = true) (rest : List Nat) (t : Nat) :
    decodeChar ⟨b :: rest, t⟩ = .ok (.vstr [b], ⟨rest, t + 1⟩) := by
  unfold decodeChar read1
  simp only []
  rw [if_pos hu]


theorem hasKey_snoc : ∀ (l : KVList) (k k2 : List Nat) (v : Value),
    (l.snoc k v).hasKey k2 = (l.hasKey k2 || decide (k = k2))
  | .nil, _, _, _ => by simp [KVList.snoc, KVList.hasKey]
  | .cons k' v' tl, k, k2, v => by
    rw [KVList.snoc, KVList.hasKey, KVList.hasKey, hasKey_snoc tl k k2 v,
      Bool.or_assoc]

theorem decodeKey_enc (ctx : String) (k : List Nat) (hu : utf8Valid k = true)
    (hl : (k.length : Int) < 2 ^ 63) (m : Nat) (pl rest : List Nat) (t : Nat)
    (he : encInt (k.length : Int) = m :: pl) :
    decodeKey ctx m ⟨pl ++ (k ++ rest), t⟩ =
      .ok (k, ⟨rest, t + pl.length + k.length⟩) := by
  unfold decodeKey decodeKeyRaw
  rw [decodeIntNonNeg_encInt_given (k.length : Int) (by positivity) hl m pl (k ++ rest) t he]
  simp only []
  rw [show ((k.length : Int)).toNat = k.length from by omega]
  rw [readB_exact "string" k rest _]
  simp only []
  rw [if_pos hu]

mutual

/-- Round trip of a single value: decoding its default-preference
encoding from the front of the buffer returns it, consuming exactly the
encoding. -/
theorem rtV : ∀ (v : Value) (ef : Nat) (bs : List Nat),
    domainB v = true → encValue defaultEPrefs ef v = some bs →
    ∀ (t df : Nat), 4 * bs.length + 1 ≤ df →
    decodeValue defaultDPrefs df none ⟨bs, t⟩ = .ok (v, ⟨[], t + bs.length⟩)
  | v, 0, bs, _, he => by
    intro t df hfl
    exact Option.noConfusion he
  | .vnull, e + 1, bs, _, he => by
    intro t df hfl
    injection he with he
    subst he
    obtain ⟨D, rfl⟩ : ∃ D, df = D + 1 := ⟨df - 1, by omega⟩
    rw [decodeValue_none_cons, dv_null]
    rfl
  | .vtrue, e + 1, bs, _, he => by
    intro t df hfl
    injection he with he
    subst he
    obtain ⟨D, rfl⟩ : ∃ D, df = D + 1 := ⟨df - 1, by omega⟩
    rw [decodeValue_none_cons, dv_true]
    rfl
  | .vfalse, e + 1, bs, _, he => by
    intro t df hfl
    injection he with he
    subst he
    obtain ⟨D, rfl⟩ : ∃ D, df = D + 1 := ⟨df - 1, by omega⟩
    rw [decodeValue_none_cons, dv_false]
    rfl
  | .vint n, e + 1, bs, hd, he => by
    intro t df hfl
    simp only [domainB, decide_eq_true_eq] at hd
    injection he with he
    rw [encIntPy, if_pos hd] at he
    subst he
    obtain ⟨D, rfl⟩ : ∃ D, df = D + 1 := ⟨df - 1, by omega⟩
    have h := decodeValue_encInt defaultDPrefs D n hd.1 hd.2 [] t
    rw [List.append_nil] at h
    exact h
  | .vfloat b, e + 1, bs, hd, he => by
    intro t df hfl
    simp only [domainB, Bool.and_eq_true, decide_eq_true_eq] at hd
    have hsub : fIsSubnormal b = false := by
      have h2 := hd.2
      simp at h2
      exact h2
    have he2 : encFloat defaultEPrefs b = some bs := he
    unfold encFloat at he2
    rw [if_neg (by simp only [fIsNanInf, decide_eq_true_eq]; exact hd.1.2)] at he2
    by_cases hz : fIsZero b
    · rw [if_pos hz] at he2
      simp only [fIsZero, decide_eq_true_eq] at hz
      have hsig : fSig b = 0 := by rw [fSig, if_pos hz.1]; exact hz.2
      have hval : f64toF32 b = fSign b * 2 ^ 31 := by
        unfold f64toF32
        simp only []
        rw [if_neg hd.1.2, if_pos hsig]
      rw [pack4_some b hd.1.2 (Or.inl hsig), hval] at he2
      simp only [Option.map] at he2
      injection he2 with he2
      subst he2
      obtain ⟨D, rfl⟩ : ∃ D, df = D + 1 := ⟨df - 1, by omega⟩
      rw [decodeValue_none_cons, dv_f32]
      have h := decodeFloat32_zero b hd.1.1 hz [] (t + 1)
      rw [List.append_nil] at h
      rw [h]
      all_goals
        refine congrArg Except.ok (congrArg (Prod.mk _) (congrArg (DSt.mk _) ?_))
      all_goals
        (try simp only [List.length_cons, List.length_append, beBytesN_length, pack8])
      all_goals omega
    · rw [if_neg hz, if_neg (by simp [hsub])] at he2
      rw [if_neg (by simp [defaultEPrefs])] at he2
      injection he2 with he2
      subst he2
      obtain ⟨D, rfl⟩ : ∃ D, df = D + 1 := ⟨df - 1, by omega⟩
      rw [decodeValue_none_cons, dv_f64]
      have h := decodeFloat64_pack8 b hd.1.1 [] (t + 1)
      rw [List.append_nil] at h
      have h8 : (pack8 b).length = 8 := beBytesN_length 8 b
      rw [h]
      all_goals
        refine congrArg Except.ok (congrArg (Prod.mk _) (congrArg (DSt.mk _) ?_))
      all_goals
        (try simp only [List.length_cons, List.length_append, beBytesN_length, pack8])
      all_goals omega
  | .vhigh s, e + 1, bs, hd, he => by
    intro t df hfl
    simp only [domainB, Bool.and_eq_true, decide_eq_true_eq] at hd
    injection he with he
    unfold encDecimal at he
    rw [if_pos hd.1.1] at he
    subst he
    obtain ⟨D, rfl⟩ : ∃ D, df = D + 1 := ⟨df - 1, by omega⟩
    simp only [List.cons_append]
    rw [decodeValue_none_cons, dv_high]
    have h := decodeHighPrec_enc s hd.1.2 hd.2 [] (t + 1)
    rw [List.append_nil] at h
    rw [h]
    all_goals
      refine congrArg Except.ok (congrArg (Prod.mk _) (congrArg (DSt.mk _) ?_))
    all_goals
      (try simp only [List.length_cons, List.length_append, beBytesN_length, pack8])
    all_goals omega
  | .vstr s, e + 1, bs, hd, he => by
    intro t df hfl
    simp only [domainB, Bool.and_eq_true, decide_eq_true_eq] at hd
    injection he with he
    unfold encStr at he
    by_cases h1 : s.length = 1
    · rw [if_pos h1] at he
      obtain ⟨c, rfl⟩ := List.length_eq_one.mp h1
      subst he
      obtain ⟨D, rfl⟩ : ∃ D, df = D + 1 := ⟨df - 1, by omega⟩
      rw [decodeValue_none_cons, dv_char]
      rw [decodeChar_enc c hd.1 [] (t + 1)]
      rfl
    · rw [if_neg h1] at he
      subst he
      obtain ⟨D, rfl⟩ : ∃ D, df = D + 1 := ⟨df - 1, by omega⟩
      simp only [List.cons_append]
      rw [decodeValue_none_cons, dv_string]
      have h := decodeString_enc s hd.1 hd.2 [] (t + 1)
      rw [List.append_nil] at h
      rw [h]
      all_goals
        refine congrArg Except.ok (congrArg (Prod.mk _) (congrArg (DSt.mk _) ?_))
      all_goals
        (try simp only [List.length_cons, List.length_append, beBytesN_length, pack8])
      all_goals omega
  | .vbytes bb, e + 1, bs, hd, he => by
    intro t df hfl
    simp only [domainB, decide_eq_true_eq] at hd
    injection he with he
    subst he
    simp only [encBytesVal, List.cons_append, List.nil_append, List.append_assoc] at hfl ⊢
    simp only [List.length_cons, List.length_append] at hfl
    obtain ⟨D, rfl⟩ : ∃ D, df = D + 1 := ⟨df - 1, by omega⟩
    rw [decodeValue_none_cons, dv_arr]
    obtain ⟨D2, rfl⟩ : ∃ D2, D = D2 + 1 := ⟨D - 1, by omega⟩
    rw [show defaultDPrefs = (⟨false⟩ : DPrefs) from rfl]
    have h := decodeArray_bytesFast bb [] (t + 1) D2 hd
    rw [List.append_nil] at h
    rw [h]
    all_goals
      refine congrArg Except.ok (congrArg (Prod.mk _) (congrArg (DSt.mk _) ?_))
    all_goals
      (try simp only [List.length_cons, List.length_append, beBytesN_length, pack8])
    all_goals omega
  | .varr l, e + 1, bs, hd, he => by
    intro t df hfl
    simp only [domainB] at hd
    simp only [encValue] at he
    rcases hb : encVList defaultEPrefs e l with _ | body <;>
        (rw [hb] at he; simp only [] at he)
    · exact Option.noConfusion he
    rw [if_neg (by simp [defaultEPrefs])] at he
    injection he with he
    subst he
    obtain ⟨D, rfl⟩ : ∃ D, df = D + 1 := ⟨df - 1, by omega⟩
    rw [decodeValue_none_cons, dv_arr]
    obtain ⟨D2, rfl⟩ : ∃ D2, D = D2 + 1 :=
      ⟨D - 1, by simp only [List.length_cons, List.length_append] at hfl; omega⟩
    rcases hsh : body ++ ARRAY_END :: ([] : List Nat) with _ | ⟨m1, d1⟩
    · exact absurd hsh (by simp)
    have hloop := rtVL l e body hd hb .nil [] (t + 1) D2
      (by simp only [List.length_cons, List.length_append] at hfl; omega) m1 d1 hsh
    have hlen : body.length = d1.length := by
      have h2 := congrArg List.length hsh
      simp only [List.length_append, List.length_cons, List.length_nil] at h2
      omega
    simp only [decodeArray]
    unfold getCP
    simp only [read1]
    rw [if_neg hloop.1.1]
    unfold getCPTail
    rw [if_neg hloop.1.2, if_pos rfl]
    simp only []
    rw [if_neg (by simp)]
    rw [hloop.2]
    all_goals
      refine congrArg Except.ok (congrArg₂ Prod.mk rfl (congrArg (DSt.mk _) ?_))
    all_goals
      (simp only [List.length_cons, List.length_append]
       omega)
  | .vobj l, e + 1, bs, hd, he => by
    intro t df hfl
    simp only [domainB] at hd
    simp only [encValue] at he
    rw [show (if defaultEPrefs.sort_keys then kvSort l else l) = l from rfl] at he
    rcases hb : encKVList defaultEPrefs e l with _ | body <;>
        (rw [hb] at he; simp only [] at he)
    · exact Option.noConfusion he
    rw [if_neg (by simp [defaultEPrefs])] at he
    injection he with he
    subst he
    obtain ⟨D, rfl⟩ : ∃ D, df = D + 1 := ⟨df - 1, by omega⟩
    rw [decodeValue_none_cons, dv_obj]
    obtain ⟨D2, rfl⟩ : ∃ D2, D = D2 + 1 :=
      ⟨D - 1, by simp only [List.length_cons, List.length_append] at hfl; omega⟩
    rcases hsh : body ++ OBJECT_END :: ([] : List Nat) with _ | ⟨m1, d1⟩
    · exact absurd hsh (by simp)
    have hloop := rtKV l e body hd hb .nil [] (t + 1) D2
      (by simp only [List.length_cons, List.length_append] at hfl; omega)
      (fun _ _ => rfl) m1 d1 hsh
    have hlen : body.length = d1.length := by
      have h2 := congrArg List.length hsh
      simp only [List.length_append, List.length_cons, List.length_nil] at h2
      omega
    simp only [decodeObject]
    unfold getCP
    simp only [read1]
    rw [if_neg hloop.1.1]
    unfold getCPTail
    rw [if_neg hloop.1.2, if_pos rfl]
    simp only []
    rw [if_neg (by simp), if_pos trivial]
    rw [hloop.2]
    all_goals
      refine congrArg Except.ok (congrArg₂ Prod.mk rfl (congrArg (DSt.mk _) ?_))
    all_goals
      (simp only [List.length_cons, List.length_append]
       omega)
  termination_by structural v _ _ _ _ => v

theorem rtVL : ∀ (l : VList) (ef : Nat) (bsl : List Nat),
    domainVL l = true → encVList defaultEPrefs ef l = some bsl →
    ∀ (acc : VList) (rest : List Nat) (t df : Nat), 4 * bsl.length + 5 ≤ df →
    ∀ (m : Nat) (d1 : List Nat), bsl ++ ARRAY_END :: rest = m :: d1 →
    (m ≠ CONTAINER_TYPE ∧ m ≠ CONTAINER_COUNT) ∧
    arrUncounted defaultDPrefs df TYPE_NONE m acc ⟨d1, t + 1⟩ =
      .ok (.varr (acc.append l), ⟨rest, t + bsl.length + 1⟩)
  | l, 0, bsl, _, he => by
    intro acc rest t df hfl m d1 heq
    exact Option.noConfusion he
  | .nil, e + 1, bsl, _, he => by
    intro acc rest t df hfl m d1 heq
    injection he with he
    subst he
    simp only [List.nil_append, List.cons.injEq] at heq
    obtain ⟨rfl, rfl⟩ := heq
    refine ⟨⟨by decide, by decide⟩, ?_⟩
    obtain ⟨D, rfl⟩ : ∃ D, df = D + 1 := ⟨df - 1, by omega⟩
    simp only [arrUncounted]
    rw [if_pos trivial, vl_append_nil]
    rfl
  | .cons v tl, e + 1, bsl, hd, he => by
    intro acc rest t df hfl m d1 heq
    simp only [domainVL, Bool.and_eq_true] at hd
    simp only [encVList] at he
    rcases hv : encValue defaultEPrefs e v with _ | bv <;> rw [hv] at he <;>
      try simp only [] at he
    · exact Option.noConfusion he
    rcases ht : encVList defaultEPrefs e tl with _ | bt <;> rw [ht] at he <;>
      try simp only [] at he
    · exact Option.noConfusion he
    injection he with he
    subst he
    obtain ⟨mv, dv, rfl, hvh⟩ := encHead defaultEPrefs v e bv hv
    simp only [List.cons_append, List.append_assoc] at heq
    rw [List.cons.injEq] at heq
    obtain ⟨rfl, rfl⟩ := heq
    refine ⟨⟨hvh.2.2.2.1, hvh.2.2.2.2⟩, ?_⟩
    obtain ⟨D, rfl⟩ : ∃ D, df = D + 2 :=
      ⟨df - 2, by simp only [List.length_cons, List.length_append] at hfl; omega⟩
    have hb0 : 4 * (mv :: dv).length + 1 ≤ D + 1 := by
      simp only [List.length_cons, List.length_append] at hfl ⊢
      omega
    have hext := decodeValue_ext defaultDPrefs (D + 1) none (mv :: dv) t
      (bt ++ ARRAY_END :: rest) v [] (t + (mv :: dv).length)
      (rtV v e (mv :: dv) hd.1 hv t (D + 1) hb0)
    rw [List.nil_append, List.cons_append, decodeValue_none_cons] at hext
    have hrec := rtVL tl e bt hd.2 ht (acc.snoc v) rest (t + (mv :: dv).length) (D + 1)
      (by simp only [List.length_cons, List.length_append] at hfl ⊢; omega)
    rw [arrUncounted_succ]
    rw [if_neg hvh.2.1, if_neg hvh.1]
    try simp only [List.append_assoc]
    rw [hext]
    simp only []
    first
      | rw [if_pos trivial]
      | rw [if_pos (rfl : TYPE_NONE = TYPE_NONE)]
      | skip
    rcases hsh2 : bt ++ ARRAY_END :: rest with _ | ⟨m2, d2⟩
    · exact absurd hsh2 (by simp)
    simp only [read1]
    try simp only []
    rw [(hrec m2 d2 hsh2).2, vl_snoc_append]
    all_goals
      refine congrArg Except.ok (congrArg₂ Prod.mk rfl (congrArg (DSt.mk _) ?_))
    all_goals
      (simp only [List.length_cons, List.length_append]
       omega)
  termination_by structural l _ _ _ _ => l

theorem rtKV : ∀ (l : KVList) (ef : Nat) (bsl : List Nat),
    domainKV l = true → encKVList defaultEPrefs ef l = some bsl →
    ∀ (acc : KVList) (rest : List Nat) (t df : Nat), 4 * bsl.length + 5 ≤ df →
    (∀ k2, l.hasKey k2 = true → acc.hasKey k2 = false) →
    ∀ (m : Nat) (d1 : List Nat), bsl ++ OBJECT_END :: rest = m :: d1 →
    (m ≠ CONTAINER_TYPE ∧ m ≠ CONTAINER_COUNT) ∧
    objLoop defaultDPrefs df false 1 m none acc ⟨d1, t + 1⟩ =
      .ok (.vobj (acc.append l), ⟨rest, t + bsl.length + 1⟩)
  | l, 0, bsl, _, he => by
    intro acc rest t df hfl hfr m d1 heq
    exact Option.noConfusion he
  | .nil, e + 1, bsl, _, he => by
    intro acc rest t df hfl hfr m d1 heq
    injection he with he
    subst he
    simp only [List.nil_append, List.cons.injEq] at heq
    obtain ⟨rfl, rfl⟩ := heq
    refine ⟨⟨by decide, by decide⟩, ?_⟩
    obtain ⟨D, rfl⟩ : ∃ D, df = D + 1 := ⟨df - 1, by omega⟩
    simp only [objLoop]
    rw [if_pos (by decide), kv_append_nil]
    rfl
  | .cons k v tl, e + 1, bsl, hd, he => by
    intro acc rest t df hfl hfr m d1 heq
    simp only [domainKV, Bool.and_eq_true, decide_eq_true_eq,
      Bool.not_eq_true'] at hd
    simp only [encKVList] at he
    rcases hv : encValue defaultEPrefs e v with _ | bv <;> rw [hv] at he <;>
      try simp only [] at he
    · exact Option.noConfusion he
    rcases ht : encKVList defaultEPrefs e tl with _ | bt <;> rw [ht] at he <;>
      try simp only [] at he
    · exact Option.noConfusion he
    obtain ⟨mk, pk, hmk, hkh⟩ := encInt_head (k.length : Int)
    rw [hmk] at he
    injection he with he
    subst he
    simp only [List.cons_append, List.append_assoc] at heq
    rw [List.cons.injEq] at heq
    obtain ⟨rfl, rfl⟩ := heq
    refine ⟨⟨hkh.2.2.2.1, hkh.2.2.2.2⟩, ?_⟩
    have hfrk : acc.hasKey k = false := hfr k (by rw [KVList.hasKey]; simp)
    have htlk : tl.hasKey k = false := hd.1.1.2
    obtain ⟨D, rfl⟩ : ∃ D, df = D + 2 :=
      ⟨df - 2, by simp only [List.length_cons, List.length_append] at hfl; omega⟩
    rw [objLoop_succ]
    rw [if_neg (not_not_intro ⟨Nat.one_pos, Or.inr hkh.2.2.1⟩)]
    rw [if_neg hkh.1]
    have hkey := decodeKey_enc "sized/unsized" k hd.1.1.1.1 hd.1.1.1.2 mk pk
      (bv ++ (bt ++ OBJECT_END :: rest)) (t + 1) hmk
    rw [hkey]
    simp only []
    have hb0 : 4 * bv.length + 1 ≤ D + 1 := by
      simp only [List.length_cons, List.length_append] at hfl
      omega
    have hele := decodeValue_ext defaultDPrefs (D + 1) none bv
      (t + 1 + pk.length + k.length) (bt ++ OBJECT_END :: rest) v []
      (t + 1 + pk.length + k.length + bv.length)
      (rtV v e bv hd.1.2 hv (t + 1 + pk.length + k.length) (D + 1) hb0)
    rw [List.nil_append] at hele
    rw [hele]
    simp only []
    rw [show (if (false : Bool) = true then 1 - 1 else 1) = 1 from rfl]
    rw [if_pos Nat.one_pos]
    rcases hsh2 : bt ++ OBJECT_END :: rest with _ | ⟨m2, d2⟩
    · exact absurd hsh2 (by simp)
    simp only [read1]
    try simp only []
    have hfr2 : ∀ k2, tl.hasKey k2 = true → (dictInsert acc k v).hasKey k2 = false := by
      intro k2 hk2
      rw [dictInsert_fresh acc k v hfrk, hasKey_snoc]
      have hak2 : acc.hasKey k2 = false := hfr k2 (by rw [KVList.hasKey, hk2]; simp)
      rw [hak2]
      simp only [Bool.false_or, decide_eq_false_iff_not]
      intro hkk
      rw [← hkk] at hk2
      rw [htlk] at hk2
      exact Bool.noConfusion hk2
    have hrec := rtKV tl e bt hd.2 ht (dictInsert acc k v) rest
      (t + 1 + pk.length + k.length + bv.length) (D + 1)
      (by simp only [List.length_cons, List.length_append] at hfl; omega)
      hfr2 m2 d2 hsh2
    rw [hrec.2]
    rw [dictInsert_fresh acc k v hfrk, kv_snoc_append]
    all_goals
      refine congrArg Except.ok (congrArg₂ Prod.mk rfl (congrArg (DSt.mk _) ?_))
    all_goals
      (simp only [List.length_cons, List.length_append]
       omega)
  termination_by structural l _ _ _ _ => l

end


/-! ## Claim C1 -/

/-- Discriminator for float values. -/
def isFloatVal : Value → Bool
  | .vfloat _ => true
  | _ => false

/-- C1 (amended): for every value in the checked domain — 64-bit
integers, floats that are neither NaN, infinite nor subnormal, finite
decimals and UTF-8 strings (also as mapping keys, distinct per mapping)
shorter than 2^63, arbitrary nesting — decoding the default-preference
encoding returns exactly the original value and consumes the whole
buffer. -/
theorem c1_roundtrip (v : Value) (h : domainB v = true) :
    ∃ bs, encB defaultEPrefs v = some bs ∧
      topDecode defaultDPrefs bs = .ok (v, ⟨[], bs.length⟩) := by
  obtain ⟨bs, hb⟩ := encTotalV v h
  refine ⟨bs, hb, ?_⟩
  have hd := rtV v (efuel v) bs h hb 0 (topFuel bs) (by unfold topFuel; omega)
  rw [Nat.zero_add] at hd
  exact hd

theorem c1_roundtrip_witness :
    domainB (Value.varr (VList.cons (Value.vint 1000)
      (VList.cons (Value.vobj (KVList.cons [107] (Value.vstr [104, 105]) KVList.nil))
        VList.nil))) = true ∧
    (∃ bs, encB defaultEPrefs (Value.varr (VList.cons (Value.vint 1000)
        (VList.cons (Value.vobj (KVList.cons [107] (Value.vstr [104, 105]) KVList.nil))
          VList.nil))) = some bs ∧
      topDecode defaultDPrefs bs =
        .ok (Value.varr (VList.cons (Value.vint 1000)
          (VList.cons (Value.vobj (KVList.cons [107] (Value.vstr [104, 105]) KVList.nil))
            VList.nil)), ⟨[], bs.length⟩)) :=
  ⟨by decide, c1_roundtrip _ (by decide)⟩

set_option maxRecDepth 10000

/-- C1, counterexample: the smallest positive subnormal double (bit
pattern 1, the value 5e-324) is neither NaN nor infinite, hence inside
the claimed domain, but `_encode_PyFloat` routes `FP_SUBNORMAL` through
`_encode_PyObject_as_PyDecimal`, so its encoding is the high-precision
decimal record of its exact decimal expansion and decodes to a decimal
(`vhigh`) value, not to any float: the claimed exact bitwise float
round-trip fails. -/
theorem c1_counterexample :
    encB defaultEPrefs (.vfloat 1) = some (encDecimal (decOfFloat 1)) ∧
    topDecode defaultDPrefs (encDecimal (decOfFloat 1)) =
      .ok (.vhigh (decOfFloat 1), ⟨[], (encDecimal (decOfFloat 1)).length⟩) ∧
    isFloatVal (.vhigh (decOfFloat 1)) = false ∧
    fIsNanInf 1 = false ∧ fIsZero 1 = false := by
  refine ⟨?_, ?_, rfl, by decide, by decide⟩
  · show encFloat defaultEPrefs 1 = _
    rw [encFloat, if_neg (by decide), if_neg (by decide), if_pos (by decide)]
  · have hu : utf8Valid (decOfFloat 1) = true :=
      utf8Valid_ascii _ (fun c hc => lt_of_le_of_lt (decOfFloat_le 1 c hc) (by norm_num))
    have hl : ((decOfFloat 1).length : Int) < 2 ^ 63 := by decide
    have hE : encDecimal (decOfFloat 1) =
        (TYPE_HIGH_PREC :: encInt ((decOfFloat 1).length : Int)) ++ decOfFloat 1 := by
      rw [encDecimal, if_pos (decIsFinite_decOfFloat 1)]
    rw [hE]
    unfold topDecode
    simp only [List.cons_append]
    rw [show topFuel (TYPE_HIGH_PREC ::
          (encInt ((decOfFloat 1).length : Int) ++ decOfFloat 1)) =
        4 * (TYPE_HIGH_PREC ::
          (encInt ((decOfFloat 1).length : Int) ++ decOfFloat 1)).length + 3 + 1 from rfl]
    rw [decodeValue_none_cons, dv_high]
    have h := decodeHighPrec_enc (decOfFloat 1) hu hl [] (0 + 1)
    rw [List.append_nil] at h
    rw [h]
    all_goals
      refine congrArg Except.ok (congrArg₂ Prod.mk rfl (congrArg (DSt.mk _) ?_))
    all_goals
      (simp only [List.length_cons, List.length_append]
       omega)

set_option maxRecDepth 512

end Ubjson
